import Mathlib

/-! CachedData: a bounded read-through cache (src/CachedData.hpp).

Shallow embedding of `ecommerce::CachedData<TData, TId>` and of the facade
`ecommerce::CachingDatabase`, first for calls made one after another
(`CachedData.getData`, `runCalls`), then for calls that overlap (`System`).

Modelling conventions

* `std::unordered_map` is an association list with at most one entry per key
  (`Assoc`): `find`, `erase`, `assign` (operator[] followed by assignment) and
  `size` are the container operations the source uses.
* A heap object has an address (`addr`); `std::make_unique` takes the next
  unused address `heapTop`.  The raw pointers stored in `m_cacheItemByCount`
  are addresses, and following one (`deref`) looks for the live item with that
  address among the items owned by `m_cacheItemById`.
* The shared state of a `std::promise` / `std::shared_future` pair is named by
  the address of the `PromisingCacheItem` that created it.  `shared` holds the
  shared states that are ready, with the value or the exception stored in them.
* `size_t` counters are natural numbers: `m_count` starts at 1 and grows by one
  per call, so it cannot wrap around before 2^64 - 1 calls have been made.
* The backing source fails by throwing `std::runtime_error` (the exception the
  owner path catches at line 109); `E` is the type of these errors.
-/

namespace ecommerce

/-! ## Association lists -/

namespace Assoc

variable {α β : Type} [DecidableEq α]

/-- Lookup, `unordered_map::find`. -/
def find : List (α × β) → α → Option β
  | [], _ => none
  | e :: t, k => if e.1 = k then some e.2 else find t k

/-- Removal by key, `unordered_map::erase(key)`. -/
def erase (m : List (α × β)) (k : α) : List (α × β) :=
  m.filter (fun e => decide (e.1 ≠ k))

/-- The statement `m[k] = v`: overwrite the entry of `k`, or add one. -/
def assign (m : List (α × β)) (k : α) (v : β) : List (α × β) :=
  match find m k with
  | some _ => m.map (fun e => if e.1 = k then (k, v) else e)
  | none => (k, v) :: m

/-- Number of entries, `unordered_map::size`. -/
def size (m : List (α × β)) : Nat := m.length

/-- Keys of the entries. -/
def keys (m : List (α × β)) : List α := m.map Prod.fst

end Assoc

/-! ## Items -/

/-- Ways a call can leave the behaviour described by `Outcome`: aborts,
a loop or a wait that never ends, undefined behaviour. -/
inductive Fault
  /-- Reached `assert(false)` (PromisingCacheItem::getData, FilledCacheItem::getFuture). -/
  | assertFalse
  /-- One of the assertions of lines 86-87 fails. -/
  | assertSize
  /-- The scan of lines 71-81 never finds an entry. -/
  | scanForever
  /-- The pointer `toErase->second` (line 76) refers to no live item. -/
  | danglingItem
  /-- The call `getFuture().get()` of line 266 waits, inside the lock, for a future that is not ready. -/
  | blockedInLock
  /-- The `dynamic_cast` of line 111 yields a null pointer. -/
  | nullPromise
  /-- The promise is given a second result (`std::future_error`). -/
  | promiseAlreadySatisfied
  deriving DecidableEq, Repr

/-- What a call of `getData` gives back to its caller. -/
inductive Outcome (TData E : Type)
  /-- Normal return of a value. -/
  | value (d : TData)
  /-- The exception thrown by the source, rethrown at line 113 or by `shared_future::get`. -/
  | fetchError (e : E)
  /-- The exception of line 250, "CachedData::WaitingCacheItem: too long". -/
  | tooLong
  /-- The exception of line 211, "CachedData::EmptyCacheItem: no data". -/
  | noData
  deriving DecidableEq, Repr

/-- The four classes derived from `ICacheItem`, with their private members. -/
inductive ItemKind (TData : Type)
  /-- Class `PromisingCacheItem`: owns the promise (and a future of it). -/
  | Promising (Promise : Nat)
  /-- Class `EmptyCacheItem`: holds a copy of the future of a promise. -/
  | Empty (Future : Nat)
  /-- Class `WaitingCacheItem`: holds a copy of the future of a resident item. -/
  | Waiting (Future : Nat)
  /-- Class `FilledCacheItem`: holds the data itself. -/
  | Filled (Data : TData)
  deriving DecidableEq, Repr

/-- An object of a class derived from `ICacheItem`: its address, the base-class
members `Id` and `Count`, and the derived part. -/
structure ICacheItem (TData TId : Type) where
  addr : Nat
  Id : TId
  Count : Nat
  kind : ItemKind TData
  deriving DecidableEq, Repr

/-- The object `CachedData<TData, TId>` together with the part of the heap it
refers to (`heapTop`, `shared`). -/
structure CachedData (TData TId E : Type) where
  m_maxSize : Nat
  m_count : Nat
  m_nextToDelete : Nat
  m_cacheItemById : List (TId × ICacheItem TData TId)
  m_cacheItemByCount : List (Nat × Nat)
  heapTop : Nat
  shared : List (Nat × Except E TData)

section Model

variable {TData TId E : Type} [DecidableEq TId]

/-- Constructor `CachedData(a_maxSize)` (lines 19-25, member initialisers 300-307). -/
def CachedData.init (a_maxSize : Nat) : CachedData TData TId E :=
  { m_maxSize := a_maxSize
    m_count := 1
    m_nextToDelete := 1
    m_cacheItemById := []
    m_cacheItemByCount := []
    heapTop := 0
    shared := [] }

/-- Virtual `isReady()`. -/
def ICacheItem.isReady (it : ICacheItem TData TId) : Bool :=
  match it.kind with
  | .Promising _ => false
  | .Empty _ => false
  | .Waiting _ => true
  | .Filled _ => true

/-- Virtual `isWaiting()`; for an `EmptyCacheItem` it asks whether the future is
not ready yet (`wait_for(0) == timeout`). -/
def ICacheItem.isWaiting (shared : List (Nat × Except E TData))
    (it : ICacheItem TData TId) : Bool :=
  match it.kind with
  | .Promising _ => false
  | .Empty f => (Assoc.find shared f).isNone
  | .Waiting _ => true
  | .Filled _ => false

/-- Result of `shared_future::get()` on a ready future. -/
def ofResult : Except E TData → Outcome TData E
  | .ok d => .value d
  | .error e => .fetchError e

/-- Virtual `getData()`.  For a `WaitingCacheItem` the function is evaluated at
the moment the bounded wait of line 247 ends: the future is ready, or three
seconds have passed without it becoming ready. -/
def ICacheItem.getData (shared : List (Nat × Except E TData))
    (it : ICacheItem TData TId) : Except Fault (Outcome TData E) :=
  match it.kind with
  | .Promising _ => .error .assertFalse
  | .Empty _ => .ok .noData
  | .Waiting f =>
    match Assoc.find shared f with
    | some r => .ok (ofResult r)
    | none => .ok .tooLong
  | .Filled d => .ok (.value d)

/-- Virtual `getFuture()`. -/
def ICacheItem.getFuture (it : ICacheItem TData TId) : Except Fault Nat :=
  match it.kind with
  | .Promising p => .ok p
  | .Empty f => .ok f
  | .Waiting f => .ok f
  | .Filled _ => .error .assertFalse

/-- Virtual `setData(a_data)`: `Promise.set_value` for a `PromisingCacheItem`,
the empty base implementation otherwise. -/
def ICacheItem.setData (shared : List (Nat × Except E TData))
    (it : ICacheItem TData TId) (a_data : TData) :
    Except Fault (List (Nat × Except E TData)) :=
  match it.kind with
  | .Promising p =>
    match Assoc.find shared p with
    | some _ => .error .promiseAlreadySatisfied
    | none => .ok (Assoc.assign shared p (.ok a_data))
  | _ => .ok shared

/-- Lines 111-112: `dynamic_cast<PromisingCacheItem*>(...)->getPromise().set_exception(...)`. -/
def ICacheItem.setException (shared : List (Nat × Except E TData))
    (it : ICacheItem TData TId) (e : E) :
    Except Fault (List (Nat × Except E TData)) :=
  match it.kind with
  | .Promising p =>
    match Assoc.find shared p with
    | some _ => .error .promiseAlreadySatisfied
    | none => .ok (Assoc.assign shared p (.error e))
  | _ => .error .nullPromise

/-- Following a raw pointer stored in `m_cacheItemByCount`: the live item at
that address. -/
def deref : List (TId × ICacheItem TData TId) → Nat → Option (ICacheItem TData TId)
  | [], _ => none
  | (_, it) :: t, a => if it.addr = a then some it else deref t a

/-- Largest key of a position index (0 when it is empty). -/
def maxKey : List (Nat × Nat) → Nat
  | [] => 0
  | (p, _) :: t => max p (maxKey t)

/-- The loop `for (;; m_nextToDelete++)` of lines 71-81, run for at most `fuel`
probes starting at position `n`; it gives the entry found. -/
def scanFrom (m : List (Nat × Nat)) : Nat → Nat → Option (Nat × Nat)
  | 0, _ => none
  | fuel + 1, n =>
    match Assoc.find m n with
    | some a => some (n, a)
    | none => scanFrom m fuel (n + 1)

/-- The loop of lines 71-81 without a bound on the probes: it ends exactly when
the index has a key at or above `n`, so probing up to the largest key decides it.
`none` stands for a loop that never ends. -/
def scan (m : List (Nat × Nat)) (n : Nat) : Option (Nat × Nat) :=
  scanFrom m (maxKey m + 1 - n) n

/-- Lines 71-81: find the first occupied position from `m_nextToDelete` on,
erase the item it points to from both indices, leave the cursor behind it. -/
def evict (s : CachedData TData TId E) : Except Fault (CachedData TData TId E) :=
  match scan s.m_cacheItemByCount s.m_nextToDelete with
  | none => .error .scanForever
  | some (p, a) =>
    match deref s.m_cacheItemById a with
    | none => .error .danglingItem
    | some it =>
      .ok { s with
        m_cacheItemById := Assoc.erase s.m_cacheItemById it.Id
        m_cacheItemByCount := Assoc.erase s.m_cacheItemByCount p
        m_nextToDelete := p + 1 }

/-- How control leaves the block of lines 35-88. -/
inductive Exit (TData TId E : Type)
  /-- By `return` (lines 49, 55) or by the exception of the constructor called at line 53. -/
  | returned (o : Outcome TData E)
  /-- Through its end, with the local `cacheItem`. -/
  | unlocked (cacheItem : ICacheItem TData TId)

/-- Lines 86-87. -/
def checkSizes (s : CachedData TData TId E) (x : Exit TData TId E) :
    Except Fault (CachedData TData TId E × Exit TData TId E) :=
  if Assoc.size s.m_cacheItemById ≤ s.m_maxSize ∧ Assoc.size s.m_cacheItemByCount ≤ s.m_maxSize
  then .ok (s, x) else .error .assertSize

/-- Lines 43-46: the item found moves to position `m_count` in the position
index, its old entry is erased, and the counter advances. -/
def touch (s : CachedData TData TId E) (a_id : TId) (existing : ICacheItem TData TId) :
    CachedData TData TId E :=
  { s with
    m_cacheItemByCount :=
      Assoc.erase (Assoc.assign s.m_cacheItemByCount s.m_count existing.addr) existing.Count
    m_cacheItemById := Assoc.assign s.m_cacheItemById a_id { existing with Count := s.m_count }
    m_count := s.m_count + 1 }

/-- The object made by `FilledCacheItem(existingCacheItem)` when the future
holds the value `d` (lines 265-270). -/
def filledItem (s : CachedData TData TId E) (existing : ICacheItem TData TId) (d : TData) :
    ICacheItem TData TId :=
  { addr := s.heapTop, Id := existing.Id, Count := existing.Count, kind := .Filled d }

/-- Lines 53-54: the new `FilledCacheItem` replaces the item of `a_id` in the key
index and its address is written into the position index. -/
def fill (s : CachedData TData TId E) (a_id : TId) (existing : ICacheItem TData TId)
    (d : TData) : CachedData TData TId E :=
  { s with
    heapTop := s.heapTop + 1
    m_cacheItemById := Assoc.assign s.m_cacheItemById a_id (filledItem s existing d)
    m_cacheItemByCount :=
      Assoc.assign s.m_cacheItemByCount (filledItem s existing d).Count (filledItem s existing d).addr }

/-- The object made by `WaitingCacheItem(existingCacheItem)` (lines 226-231). -/
def waitingItem (s : CachedData TData TId E) (existing : ICacheItem TData TId) (fut : Nat) :
    ICacheItem TData TId :=
  { addr := s.heapTop, Id := existing.Id, Count := existing.Count, kind := .Waiting fut }

/-- Lines 42-58: the key is present; `existing` is the item found. -/
def hitBranch (s : CachedData TData TId E) (a_id : TId) (existing : ICacheItem TData TId) :
    Except Fault (CachedData TData TId E × Exit TData TId E) :=
  -- 43-46
  let s1 := touch s a_id existing
  let existing1 : ICacheItem TData TId := { existing with Count := s.m_count }
  if existing1.isReady then
    -- 49
    match existing1.getData s1.shared with
    | .error f => .error f
    | .ok o => .ok (s1, .returned o)
  else if !existing1.isWaiting s1.shared then
    -- 53: FilledCacheItem(existingCacheItem), Data(getFuture().get())
    match existing1.getFuture with
    | .error f => .error f
    | .ok fut =>
      match Assoc.find s1.shared fut with
      | none => .error .blockedInLock
      | some (.error e) => .ok (s1, .returned (.fetchError e))
      | some (.ok d) =>
        -- 53 (assignment), 54, 55
        match (filledItem s1 existing1 d).getData s1.shared with
        | .error f => .error f
        | .ok o => .ok (fill s1 a_id existing1 d, .returned o)
  else
    -- 58: WaitingCacheItem(existingCacheItem)
    match existing1.getFuture with
    | .error f => .error f
    | .ok fut =>
      checkSizes { s1 with heapTop := s1.heapTop + 1 } (.unlocked (waitingItem s1 existing1 fut))

/-- Lines 39 and 65-66: `cacheItem` is moved into the key index under `a_id`,
registered in the position index at `m_count` and stamped with that position. -/
def add (s : CachedData TData TId E) (a_id : TId) (cacheItem : ICacheItem TData TId) :
    CachedData TData TId E :=
  { s with
    m_cacheItemByCount := Assoc.assign s.m_cacheItemByCount s.m_count cacheItem.addr
    m_cacheItemById :=
      Assoc.assign ((a_id, cacheItem) :: s.m_cacheItemById) a_id
        { cacheItem with Count := s.m_count } }

/-- Lines 62-83: the key was absent and `cacheItem` has been moved into the key
index; `promise` becomes the local item. -/
def missBranch (s : CachedData TData TId E) (a_id : TId)
    (promise cacheItem : ICacheItem TData TId) :
    Except Fault (CachedData TData TId E × Exit TData TId E) :=
  -- 39, 65, 66
  let s1 := add s a_id cacheItem
  -- 68-82
  let evicted : Except Fault (CachedData TData TId E) :=
    if Assoc.size s1.m_cacheItemByCount > s1.m_maxSize then evict s1 else .ok s1
  match evicted with
  | .error f => .error f
  | .ok s2 =>
    -- 83, 86-87
    checkSizes { s2 with m_count := s2.m_count + 1 } (.unlocked promise)

/-- The object made at line 32, `PromisingCacheItem(a_id)`. -/
def promiseItem (s : CachedData TData TId E) (a_id : TId) : ICacheItem TData TId :=
  { addr := s.heapTop, Id := a_id, Count := 0, kind := .Promising s.heapTop }

/-- The object made at line 33, `EmptyCacheItem(promise)`. -/
def emptyItem (s : CachedData TData TId E) (a_id : TId) : ICacheItem TData TId :=
  { addr := s.heapTop + 1, Id := a_id, Count := 0, kind := .Empty s.heapTop }

/-- Lines 32-88 of `getData`: the two local items are made and the block under
the mutex runs. -/
def lockedBlock (s : CachedData TData TId E) (a_id : TId) :
    Except Fault (CachedData TData TId E × Exit TData TId E) :=
  -- 32, 33
  let promise := promiseItem s a_id
  let cacheItem := emptyItem s a_id
  let s0 : CachedData TData TId E := { s with heapTop := s.heapTop + 2 }
  -- 39
  match Assoc.find s0.m_cacheItemById a_id with
  | some existing => hitBranch s0 a_id existing
  | none => missBranch s0 a_id promise cacheItem

/-- Lines 104-113: the owner stores the result of the fetch in its promise and
hands it to its caller. -/
def publish (s : CachedData TData TId E) (cacheItem : ICacheItem TData TId)
    (r : Except E TData) : Except Fault (CachedData TData TId E × Outcome TData E) :=
  match r with
  | .ok fetched =>
    match cacheItem.setData s.shared fetched with
    | .error f => .error f
    | .ok sh => .ok ({ s with shared := sh }, .value fetched)
  | .error e =>
    match cacheItem.setException s.shared e with
    | .error f => .error f
    | .ok sh => .ok ({ s with shared := sh }, .fetchError e)

/-- What one call of `getData` leaves behind: the cache, what the caller gets,
and the keys passed to `fetchProductDetails` during the call. -/
structure Result (TData TId E : Type) where
  cache : CachedData TData TId E
  outcome : Outcome TData E
  fetches : List TId

/-- Method `getData(a_id, a_db)` run without other calls in between; `a_db` is
`a_db->fetchProductDetails`. -/
def CachedData.getData (s : CachedData TData TId E) (a_id : TId)
    (a_db : TId → Except E TData) : Except Fault (Result TData TId E) :=
  match lockedBlock s a_id with
  | .error f => .error f
  | .ok (s1, .returned o) => .ok ⟨s1, o, []⟩
  | .ok (s1, .unlocked cacheItem) =>
    -- 92-95
    if cacheItem.isWaiting s1.shared then
      match cacheItem.getData s1.shared with
      | .error f => .error f
      | .ok o => .ok ⟨s1, o, []⟩
    else
      -- 101-114
      match publish s1 cacheItem (a_db a_id) with
      | .error f => .error f
      | .ok (s2, o) => .ok ⟨s2, o, [a_id]⟩

/-- A sequence of calls made one after another, each with its own source: the
cache they leave and the keys passed to `fetchProductDetails`, in order. -/
def runCalls (s : CachedData TData TId E) :
    List (TId × (TId → Except E TData)) → Except Fault (CachedData TData TId E × List TId)
  | [] => .ok (s, [])
  | (a_id, a_db) :: rest =>
    match s.getData a_id a_db with
    | .error f => .error f
    | .ok r =>
      match runCalls r.cache rest with
      | .error f => .error f
      | .ok (s2, log) => .ok (s2, r.fetches ++ log)

/-- Keys resident in the cache. -/
def CachedData.residentKeys (s : CachedData TData TId E) : List TId :=
  Assoc.keys s.m_cacheItemById

/-- Method `CachingDatabase::fetchProductDetails` (CachingDatabase.hpp, lines
16-19): the call is handed to the cache together with the wrapped database. -/
def CachingDatabase.fetchProductDetails (m_cachedProductDetails : CachedData TData TId E)
    (m_productDetails : TId → Except E TData) (a_id : TId) :
    Except Fault (Result TData TId E) :=
  m_cachedProductDetails.getData a_id m_productDetails

/-! ## Calls that overlap

Several threads run `getData` on one cache.  The block under the mutex
(together with the making of the two local items before it), the start of the
source fetch, its end, the publication of its result and the end of a waiter's
bounded wait are the atomic steps. -/

/-- Where a call of `getData` stands. -/
inductive Phase (TData TId E : Type)
  /-- It left `getData` from inside the block (lines 49, 53, 55). -/
  | returned (o : Outcome TData E)
  /-- It left the block through its end and stands at line 92. -/
  | unlocked (cacheItem : ICacheItem TData TId)
  /-- It is inside `a_db->fetchProductDetails` (line 102). -/
  | fetching (cacheItem : ICacheItem TData TId)
  /-- The source has answered with `r`; lines 104 / 111 are still to run. -/
  | fetched (cacheItem : ICacheItem TData TId) (r : Except E TData)
  /-- It left `getData` at line 94, 107 or 113. -/
  | finished (cacheItem : ICacheItem TData TId) (o : Outcome TData E)

/-- A call `getData(a_id, _)` and where it stands. -/
structure Call (TData TId E : Type) where
  a_id : TId
  phase : Phase TData TId E

/-- One cache and the calls made on it so far, in the order they took the lock. -/
structure System (TData TId E : Type) where
  cache : CachedData TData TId E
  calls : List (Call TData TId E)

/-- Atomic steps of the calls. -/
inductive Event (TData TId E : Type)
  /-- A new call `getData(a_id, _)` runs lines 32-88. -/
  | call (a_id : TId)
  /-- The bounded wait of call `i` ends (line 94). -/
  | wake (i : Nat)
  /-- Call `i` enters `fetchProductDetails` (line 102). -/
  | fetchStart (i : Nat)
  /-- The source answers call `i` with `r`. -/
  | fetchEnd (i : Nat) (r : Except E TData)
  /-- Call `i` stores the answer in its promise and leaves (lines 104-113). -/
  | publish (i : Nat)

/-- A new cache with no calls. -/
def System.init (a_maxSize : Nat) : System TData TId E :=
  { cache := CachedData.init a_maxSize, calls := [] }

/-- One atomic step; `none` when the step cannot be taken in this state. -/
def System.step (sys : System TData TId E) : Event TData TId E → Option (System TData TId E)
  | .call a_id =>
    match lockedBlock sys.cache a_id with
    | .error _ => none
    | .ok (s1, .returned o) => some { cache := s1, calls := sys.calls ++ [⟨a_id, .returned o⟩] }
    | .ok (s1, .unlocked it) => some { cache := s1, calls := sys.calls ++ [⟨a_id, .unlocked it⟩] }
  | .wake i =>
    match sys.calls[i]? with
    | some ⟨a_id, .unlocked it⟩ =>
      if it.isWaiting sys.cache.shared then
        match it.getData sys.cache.shared with
        | .error _ => none
        | .ok o => some { sys with calls := sys.calls.set i ⟨a_id, .finished it o⟩ }
      else none
    | _ => none
  | .fetchStart i =>
    match sys.calls[i]? with
    | some ⟨a_id, .unlocked it⟩ =>
      if it.isWaiting sys.cache.shared then none
      else some { sys with calls := sys.calls.set i ⟨a_id, .fetching it⟩ }
    | _ => none
  | .fetchEnd i r =>
    match sys.calls[i]? with
    | some ⟨a_id, .fetching it⟩ => some { sys with calls := sys.calls.set i ⟨a_id, .fetched it r⟩ }
    | _ => none
  | .publish i =>
    match sys.calls[i]? with
    | some ⟨a_id, .fetched it r⟩ =>
      match publish sys.cache it r with
      | .error _ => none
      | .ok (s2, o) => some { cache := s2, calls := sys.calls.set i ⟨a_id, .finished it o⟩ }
    | _ => none

/-- A sequence of atomic steps. -/
def System.run (sys : System TData TId E) : List (Event TData TId E) → Option (System TData TId E)
  | [] => some sys
  | ev :: rest =>
    match sys.step ev with
    | none => none
    | some sys1 => System.run sys1 rest

/-- States that some schedule of calls on a new cache leads to. -/
def Reachable (sys : System TData TId E) : Prop :=
  ∃ (a_maxSize : Nat) (evs : List (Event TData TId E)),
    System.run (System.init a_maxSize) evs = some sys

/-- The local `cacheItem` of a call that left the block through its end. -/
def Phase.item : Phase TData TId E → Option (ICacheItem TData TId)
  | .returned _ => none
  | .unlocked it => some it
  | .fetching it => some it
  | .fetched it _ => some it
  | .finished it _ => some it

/-- The promise a call owns: the one of its local `PromisingCacheItem`. -/
def Call.promise (c : Call TData TId E) : Option Nat :=
  match c.phase.item with
  | some it =>
    match it.kind with
    | .Promising p => some p
    | _ => none
  | none => none

/-- The future a call waits on: the one of its local `WaitingCacheItem`. -/
def Call.waitsOn (c : Call TData TId E) : Option Nat :=
  match c.phase.item with
  | some it =>
    match it.kind with
    | .Waiting f => some f
    | _ => none
  | none => none

/-- The call has entered `fetchProductDetails` and has not come back from it. -/
def Call.isFetching (c : Call TData TId E) : Bool :=
  match c.phase with
  | .fetching _ => true
  | _ => false

/-- The call has invoked `fetchProductDetails` (and may have come back). -/
def Call.hasFetched (c : Call TData TId E) : Bool :=
  match c.phase with
  | .fetching _ => true
  | .fetched _ _ => true
  | .finished it _ =>
    match it.kind with
    | .Promising _ => true
    | _ => false
  | _ => false

/-! ## Invariants -/

/-- The two indices describe the same items: every resident item is registered
in the position index under its position with its own address, every entry of
the position index points to such an item, and positions lie between the
cursor and `top`. -/
structure WF (top : Nat) (s : CachedData TData TId E) : Prop where
  nodupId : (Assoc.keys s.m_cacheItemById).Nodup
  nodupCount : (Assoc.keys s.m_cacheItemByCount).Nodup
  idOf : ∀ k it, Assoc.find s.m_cacheItemById k = some it →
    it.Id = k ∧ Assoc.find s.m_cacheItemByCount it.Count = some it.addr ∧ it.addr < s.heapTop
  countOf : ∀ p a, Assoc.find s.m_cacheItemByCount p = some a →
    ∃ k it, Assoc.find s.m_cacheItemById k = some it ∧ it.addr = a ∧ it.Count = p
  addrInj : ∀ k1 k2 it1 it2, Assoc.find s.m_cacheItemById k1 = some it1 →
    Assoc.find s.m_cacheItemById k2 = some it2 → it1.addr = it2.addr → k1 = k2
  bounds : ∀ p a, Assoc.find s.m_cacheItemByCount p = some a → s.m_nextToDelete ≤ p ∧ p < top
  sizeEq : Assoc.size s.m_cacheItemByCount = Assoc.size s.m_cacheItemById
  kinds : ∀ k it, Assoc.find s.m_cacheItemById k = some it →
    (∃ f, it.kind = .Empty f ∧ f < s.heapTop) ∨ (∃ d, it.kind = .Filled d)
  sharedBelow : ∀ p r, Assoc.find s.shared p = some r → p < s.heapTop
  cursor : s.m_nextToDelete ≤ top

/-- Invariant of the cache between calls. -/
structure Inv (s : CachedData TData TId E) : Prop where
  wf : WF s.m_count s
  sizeLe : Assoc.size s.m_cacheItemById ≤ s.m_maxSize

/-- What holds of one call in a given state of the cache: its local item is a
`PromisingCacheItem` whose promise is unset until the call has finished and
set afterwards to what the call gave back, or a `WaitingCacheItem`, which never
fetches and ends with the content of its future or with the timeout. -/
def CallOK (s : CachedData TData TId E) (c : Call TData TId E) : Prop :=
  match c.phase with
  | .returned _ => True
  | .unlocked it =>
    (∃ p, it.kind = .Promising p ∧ p < s.heapTop ∧ Assoc.find s.shared p = none) ∨
    (∃ f, it.kind = .Waiting f ∧ f < s.heapTop)
  | .fetching it => ∃ p, it.kind = .Promising p ∧ p < s.heapTop ∧ Assoc.find s.shared p = none
  | .fetched it _ => ∃ p, it.kind = .Promising p ∧ p < s.heapTop ∧ Assoc.find s.shared p = none
  | .finished it o =>
    (∃ p r, it.kind = .Promising p ∧ p < s.heapTop ∧ Assoc.find s.shared p = some r ∧
      o = ofResult r) ∨
    (∃ f, it.kind = .Waiting f ∧ f < s.heapTop ∧
      (o = .tooLong ∨ ∃ r, Assoc.find s.shared f = some r ∧ o = ofResult r))

/-- Invariant of a cache with overlapping calls. -/
structure PoolInv (sys : System TData TId E) : Prop where
  inv : Inv sys.cache
  callOK : ∀ (i : Nat) (c : Call TData TId E), sys.calls[i]? = some c → CallOK sys.cache c
  distinct : ∀ (i j : Nat) (ci cj : Call TData TId E) (p : Nat),
    sys.calls[i]? = some ci → sys.calls[j]? = some cj →
    ci.promise = some p → cj.promise = some p → i = j
  publishedBy : ∀ p r, Assoc.find sys.cache.shared p = some r →
    ∃ (j : Nat) (a_id : TId) (it : ICacheItem TData TId),
      sys.calls[j]? = some ⟨a_id, .finished it (ofResult r)⟩ ∧ it.kind = .Promising p
  residentOwner : ∀ k it f, Assoc.find sys.cache.m_cacheItemById k = some it →
    it.kind = .Empty f → ∀ (j : Nat) (c : Call TData TId E), sys.calls[j]? = some c →
      c.promise = some f → c.a_id = k
  superseded : ∀ (i j : Nat) (ci cj : Call TData TId E) (p : Nat), i < j →
    sys.calls[i]? = some ci → sys.calls[j]? = some cj →
    ci.a_id = cj.a_id → ci.promise = some p → cj.promise ≠ none →
    ∀ it, Assoc.find sys.cache.m_cacheItemById ci.a_id = some it → it.kind ≠ .Empty p
  waiterKey : ∀ (i j : Nat) (ci cj : Call TData TId E) (f : Nat),
    sys.calls[i]? = some ci → sys.calls[j]? = some cj →
    ci.waitsOn = some f → cj.promise = some f → ci.a_id = cj.a_id

/-- No two calls for one key are inside `fetchProductDetails` at the same time. -/
def OneFetchPerKey (sys : System TData TId E) : Prop :=
  ∀ (i j : Nat) (ci cj : Call TData TId E), sys.calls[i]? = some ci → sys.calls[j]? = some cj →
    ci.a_id = cj.a_id → ci.isFetching = true → cj.isFetching = true → i = j

/-- Number of calls for key `k`, among those with index from `lo` up to `hi`
(excluded), that have invoked the source. -/
def fetchesBetween (calls : List (Call TData TId E)) (k : TId) (lo hi : Nat) : Nat :=
  ((List.range' lo (hi - lo)).filter (fun i =>
    match calls[i]? with
    | some c => decide (c.a_id = k) && c.hasFetched
    | none => false)).length

/-- Key `k` is resident, its item is the `EmptyCacheItem` with the future `p`,
and `p` is not ready: the owner of `p` has not published yet. -/
def InFlight (s : CachedData TData TId E) (k : TId) (p : Nat) : Prop :=
  (∃ it, Assoc.find s.m_cacheItemById k = some it ∧ it.kind = .Empty p) ∧
    Assoc.find s.shared p = none

/-- The cache holds, for every resident key, what the source `f` answers for
that key: as data in a `FilledCacheItem`, or as the content of the future of an
`EmptyCacheItem`. -/
def Agrees (f : TId → Except E TData) (s : CachedData TData TId E) : Prop :=
  ∀ k it, Assoc.find s.m_cacheItemById k = some it →
    (∀ d, it.kind = .Filled d → f k = .ok d) ∧
    (∀ p, it.kind = .Empty p → Assoc.find s.shared p = some (f k))

/-- Key `k` is resident and its fetch has ended with the value `v`: its item
holds `v`, or it is still the `EmptyCacheItem` and its future holds `v`. -/
def CompletedWith (s : CachedData TData TId E) (k : TId) (v : TData) : Prop :=
  ∃ it, Assoc.find s.m_cacheItemById k = some it ∧
    (it.kind = .Filled v ∨ ∃ f, it.kind = .Empty f ∧ Assoc.find s.shared f = some (.ok v))

/-- Position of a key in a key index (0 for a key that is not there). -/
def positionIn (byId : List (TId × ICacheItem TData TId)) (k : TId) : Nat :=
  match Assoc.find byId k with
  | some it => it.Count
  | none => 0

/-- The list `l` holds the resident keys, each once, by decreasing position. -/
structure LruRel (byId : List (TId × ICacheItem TData TId)) (l : List TId) : Prop where
  nodup : l.Nodup
  mem : ∀ k, k ∈ l ↔ Assoc.find byId k ≠ none
  sorted : l.Pairwise (fun a b => positionIn byId b < positionIn byId a)

/-- The cache at line 68 of a miss on `k`: the two local items have been made
and the `EmptyCacheItem` has been entered in both indices. -/
def missAdded (s : CachedData TData TId E) (k : TId) : CachedData TData TId E :=
  add { s with heapTop := s.heapTop + 2 } k (emptyItem s k)

/-! ## Reference model: a least-recently-used list -/

/-- One request to a reference LRU cache of capacity `cap`, kept as the list of
its keys, most recently requested first: the requested key moves to the front
and what no longer fits is dropped from the back. -/
def lruTouch (cap : Nat) (l : List TId) (k : TId) : List TId :=
  (k :: l.erase k).take cap

/-- Content of the reference LRU cache after the requests `ks`. -/
def refLRU (cap : Nat) (ks : List TId) : List TId :=
  ks.foldl (lruTouch cap) []

/-- The distinct keys of a request sequence, most recently requested first. -/
def recentFirst (ks : List TId) : List TId :=
  ks.foldl (fun l k => k :: l.erase k) []


/-- The key index and the position index describe the same items: the item of
every resident key is registered in the position index under its own position,
with a pointer to that very item; every entry of the position index points to a
live item that is the item of its key and whose position is the entry's key; and
the two indices have the same number of entries. -/
def IndexBijection (s : CachedData TData TId E) : Prop :=
  (∀ k it, Assoc.find s.m_cacheItemById k = some it →
    it.Id = k ∧ Assoc.find s.m_cacheItemByCount it.Count = some it.addr ∧
      deref s.m_cacheItemById it.addr = some it) ∧
  (∀ p a, Assoc.find s.m_cacheItemByCount p = some a →
    ∃ it, deref s.m_cacheItemById a = some it ∧ it.Count = p ∧
      Assoc.find s.m_cacheItemById it.Id = some it) ∧
  Assoc.size s.m_cacheItemByCount = Assoc.size s.m_cacheItemById

/-- Every future-backed resident item has its owner among the calls: a call for
the item's key whose promise is the one the future of the item comes from. -/
def Owned (sys : System TData TId E) : Prop :=
  ∀ k it f, Assoc.find sys.cache.m_cacheItemById k = some it → it.kind = .Empty f →
    ∃ (j : Nat) (c : Call TData TId E), sys.calls[j]? = some c ∧ c.a_id = k ∧ c.promise = some f

/-- Number of probes (calls of `m_cacheItemByCount.find`, line 73) that the loop
of lines 71-81 makes when it starts at position `n`; `none` when it has not
found an entry within `fuel` probes. -/
def probesFrom (m : List (Nat × Nat)) : Nat → Nat → Option Nat
  | 0, _ => none
  | fuel + 1, n =>
    match Assoc.find m n with
    | some _ => some 1
    | none => (probesFrom m fuel (n + 1)).map (fun c => c + 1)

/-- Number of positions from `n` up to `p` (excluded) at which the position
index has no entry. -/
def gaps (m : List (Nat × Nat)) (n p : Nat) : Nat :=
  ((List.range' n (p - n)).filter (fun q => (Assoc.find m q).isNone)).length

/-- What a call has handed back to its caller, once it has left `getData`. -/
def Call.outcome (c : Call TData TId E) : Option (Outcome TData E) :=
  match c.phase with
  | .returned o => some o
  | .finished _ o => some o
  | _ => none

/-- Number of times call `i` enters `fetchProductDetails` (line 102) in a
sequence of steps. -/
def fetchStarts (evs : List (Event TData TId E)) (i : Nat) : Nat :=
  (evs.filter (fun ev =>
    match ev with
    | .fetchStart j => decide (j = i)
    | _ => false)).length

end Model

/-! ## A schedule used as an example

Capacity 2; key 1 is fetched (value 10), key 2 is fetched (value 20), key 1 is
requested again. -/

/-- The steps of the example. -/
def exampleEvents : List (Event Nat Nat Nat) :=
  [.call 1, .fetchStart 0, .fetchEnd 0 (.ok 10), .publish 0,
   .call 2, .fetchStart 1, .fetchEnd 1 (.ok 20), .publish 1, .call 1]

/-- The cache the example leads to. -/
def exampleCache : CachedData Nat Nat Nat :=
  { m_maxSize := 2
    m_count := 4
    m_nextToDelete := 1
    m_cacheItemById :=
      [(2, { addr := 3, Id := 2, Count := 2, kind := .Empty 2 }),
       (1, { addr := 6, Id := 1, Count := 3, kind := .Filled 10 })]
    m_cacheItemByCount := [(3, 6), (2, 3)]
    heapTop := 7
    shared := [(2, .ok 20), (0, .ok 10)] }

/-- The state the example leads to. -/
def exampleSys : System Nat Nat Nat :=
  { cache := exampleCache
    calls :=
      [{ a_id := 1
         phase := .finished { addr := 0, Id := 1, Count := 0, kind := .Promising 0 } (.value 10) },
       { a_id := 2
         phase := .finished { addr := 2, Id := 2, Count := 0, kind := .Promising 2 } (.value 20) },
       { a_id := 1, phase := .returned (.value 10) }] }

/-! ## A schedule in which a key is evicted while its fetch is in flight

Capacity 1; a call for key 7 starts its fetch, a call for key 8 evicts the item
of key 7, and a second call for key 7 misses and starts a fetch of its own. -/

/-- The steps of the schedule. -/
def overlapEvents : List (Event Nat Nat Nat) :=
  [.call 7, .fetchStart 0, .call 8, .call 7, .fetchStart 2]

/-- The state the schedule leads to. -/
def overlapSys : System Nat Nat Nat :=
  { cache :=
      { m_maxSize := 1
        m_count := 4
        m_nextToDelete := 3
        m_cacheItemById := [(7, { addr := 5, Id := 7, Count := 3, kind := .Empty 4 })]
        m_cacheItemByCount := [(3, 5)]
        heapTop := 6
        shared := [] }
    calls :=
      [{ a_id := 7, phase := .fetching { addr := 0, Id := 7, Count := 0, kind := .Promising 0 } },
       { a_id := 8, phase := .unlocked { addr := 2, Id := 8, Count := 0, kind := .Promising 2 } },
       { a_id := 7, phase := .fetching { addr := 4, Id := 7, Count := 0, kind := .Promising 4 } }] }

/-! ## A schedule in which three calls for one key overlap

Capacity 1; three calls for key 7 take the lock before the first of them, the
owner, has fetched; the source then fails with error 3 and the two waiters wake
up. -/

/-- The three calls take the lock. -/
def coalesceEnter : List (Event Nat Nat Nat) := [.call 7, .call 7, .call 7]

/-- The state after the three calls have taken the lock. -/
def coalesceSys1 : System Nat Nat Nat :=
  { cache :=
      { m_maxSize := 1
        m_count := 4
        m_nextToDelete := 1
        m_cacheItemById := [(7, { addr := 1, Id := 7, Count := 3, kind := .Empty 0 })]
        m_cacheItemByCount := [(3, 1)]
        heapTop := 8
        shared := [] }
    calls :=
      [{ a_id := 7, phase := .unlocked { addr := 0, Id := 7, Count := 0, kind := .Promising 0 } },
       { a_id := 7, phase := .unlocked { addr := 4, Id := 7, Count := 2, kind := .Waiting 0 } },
       { a_id := 7, phase := .unlocked { addr := 7, Id := 7, Count := 3, kind := .Waiting 0 } }] }

/-- The owner fetches, the source fails, the waiters wake up. -/
def coalesceFinish : List (Event Nat Nat Nat) :=
  [.fetchStart 0, .fetchEnd 0 (.error 3), .publish 0, .wake 1, .wake 2]

/-- The state at the end of the schedule. -/
def coalesceSys2 : System Nat Nat Nat :=
  { cache :=
      { m_maxSize := 1
        m_count := 4
        m_nextToDelete := 1
        m_cacheItemById := [(7, { addr := 1, Id := 7, Count := 3, kind := .Empty 0 })]
        m_cacheItemByCount := [(3, 1)]
        heapTop := 8
        shared := [(0, .error 3)] }
    calls :=
      [{ a_id := 7
         phase := .finished { addr := 0, Id := 7, Count := 0, kind := .Promising 0 } (.fetchError 3) },
       { a_id := 7
         phase := .finished { addr := 4, Id := 7, Count := 2, kind := .Waiting 0 } (.fetchError 3) },
       { a_id := 7
         phase := .finished { addr := 7, Id := 7, Count := 3, kind := .Waiting 0 } (.fetchError 3) }] }

/-! ## A call that finds the item of a failed fetch

Capacity 1; a call for key 7 misses, its source fails with error 3; a second
call for key 7 is made with a source that would answer 5. -/

/-- The cache after the call whose fetch failed. -/
def failedCache : CachedData Nat Nat Nat :=
  { m_maxSize := 1
    m_count := 2
    m_nextToDelete := 1
    m_cacheItemById := [(7, { addr := 1, Id := 7, Count := 1, kind := .Empty 0 })]
    m_cacheItemByCount := [(1, 1)]
    heapTop := 2
    shared := [(0, .error 3)] }

/-- The cache after the second call. -/
def failedCacheAgain : CachedData Nat Nat Nat :=
  { m_maxSize := 1
    m_count := 3
    m_nextToDelete := 1
    m_cacheItemById := [(7, { addr := 1, Id := 7, Count := 2, kind := .Empty 0 })]
    m_cacheItemByCount := [(2, 1)]
    heapTop := 4
    shared := [(0, .error 3)] }

/-! ## A schedule on a cache of capacity zero

A call for key 7 fetches the value 5 and leaves; a second call for key 7 takes
the lock. -/

/-- The steps of the schedule. -/
def zeroEvents : List (Event Nat Nat Nat) :=
  [.call 7, .fetchStart 0, .fetchEnd 0 (.ok 5), .publish 0, .call 7]

/-- The state the schedule leads to. -/
def zeroSys : System Nat Nat Nat :=
  { cache :=
      { m_maxSize := 0
        m_count := 3
        m_nextToDelete := 3
        m_cacheItemById := []
        m_cacheItemByCount := []
        heapTop := 4
        shared := [(0, .ok 5)] }
    calls :=
      [{ a_id := 7
         phase := .finished { addr := 0, Id := 7, Count := 0, kind := .Promising 0 } (.value 5) },
       { a_id := 7, phase := .unlocked { addr := 2, Id := 7, Count := 0, kind := .Promising 2 } }] }

/-! ## A schedule in which the item of a call is evicted before the call returns

Capacity 1; a call for key 7 misses and starts its fetch; a call for key 8
misses and evicts the item of key 7; then the source answers the first call
with 5 and the first call returns. -/

/-- The steps of the schedule. -/
def evictedEvents : List (Event Nat Nat Nat) :=
  [.call 7, .fetchStart 0, .call 8, .fetchEnd 0 (.ok 5), .publish 0]

/-- The state the schedule leads to: call 0 has returned 5, key 8 alone is
resident. -/
def evictedSys : System Nat Nat Nat :=
  { cache :=
      { m_maxSize := 1
        m_count := 3
        m_nextToDelete := 2
        m_cacheItemById := [(8, { addr := 3, Id := 8, Count := 2, kind := .Empty 2 })]
        m_cacheItemByCount := [(2, 3)]
        heapTop := 4
        shared := [(0, .ok 5)] }
    calls :=
      [{ a_id := 7
         phase := .finished { addr := 0, Id := 7, Count := 0, kind := .Promising 0 } (.value 5) },
       { a_id := 8, phase := .unlocked { addr := 2, Id := 8, Count := 0, kind := .Promising 2 } }] }

end ecommerce

namespace ecommerce

/-! ## Facts about association lists -/

namespace Assoc

theorem size_eq_length_keys {α β : Type} (m : List (α × β)) : size m = (keys m).length := by
  simp [size, keys]

variable {α β : Type} [DecidableEq α]

theorem find_erase (m : List (α × β)) (k k' : α) :
    find (erase m k) k' = if k' = k then none else find m k' := by
  induction m with
  | nil => simp [erase, find]
  | cons e t ih =>
    obtain ⟨a, b⟩ := e
    by_cases hak : a = k
    · subst hak
      have : erase ((a, b) :: t) a = erase t a := by simp [erase]
      rw [this, ih]
      by_cases h : k' = a
      · simp [h]
      · have h2 : ¬ a = k' := fun x => h x.symm
        simp [h, find, h2]
    · have : erase ((a, b) :: t) k = (a, b) :: erase t k := by simp [erase, hak]
      rw [this]
      by_cases h : a = k'
      · subst h
        simp [find, hak]
      · simp only [find, h, if_false]
        exact ih

theorem find_map_same (m : List (α × β)) (k : α) (v : β) (k' : α) :
    find (m.map (fun e => if e.1 = k then (k, v) else e)) k' =
      if k' = k then (find m k).map (fun _ => v) else find m k' := by
  induction m with
  | nil => simp [find]
  | cons e t ih =>
    simp only [List.map_cons, find]
    by_cases hak : e.1 = k
    · by_cases h : k' = k
      · simp [hak, h]
      · have h2 : ¬ k = k' := fun x => h x.symm
        simp only [hak, if_true, h2, if_false, h]
        rw [ih]; simp [h]
    · by_cases h : e.1 = k'
      · have h3 : ¬ k' = k := fun x => hak (h.trans x)
        simp [hak, h, h3]
      · simp only [hak, if_false, h]
        rw [ih]

theorem find_assign (m : List (α × β)) (k : α) (v : β) (k' : α) :
    find (assign m k v) k' = if k' = k then some v else find m k' := by
  unfold assign
  cases hf : find m k with
  | none =>
    by_cases h : k' = k
    · subst h; simp [find]
    · have h2 : ¬ k = k' := fun x => h x.symm
      simp [find, h, h2]
  | some w =>
    simp only [find_map_same, hf, Option.map_some']

theorem find_assign_self (m : List (α × β)) (k : α) (v : β) :
    find (assign m k v) k = some v := by simp [find_assign]

theorem find_assign_ne (m : List (α × β)) (k : α) (v : β) {k' : α} (h : k' ≠ k) :
    find (assign m k v) k' = find m k' := by simp [find_assign, h]

theorem find_erase_self (m : List (α × β)) (k : α) : find (erase m k) k = none := by
  simp [find_erase]

theorem find_erase_ne (m : List (α × β)) (k : α) {k' : α} (h : k' ≠ k) :
    find (erase m k) k' = find m k' := by simp [find_erase, h]

theorem find_eq_none_iff (m : List (α × β)) (k : α) : find m k = none ↔ k ∉ keys m := by
  induction m with
  | nil => simp [find, keys]
  | cons e t ih =>
    obtain ⟨a, b⟩ := e
    by_cases h : a = k
    · subst h; simp [find, keys]
    · have h2 : ¬ k = a := fun x => h x.symm
      simp only [find, h, if_false, keys, List.map_cons, List.mem_cons, h2, false_or]
      exact ih

theorem find_isSome_iff (m : List (α × β)) (k : α) : (find m k).isSome ↔ k ∈ keys m := by
  rw [← not_iff_not, ← find_eq_none_iff]
  cases find m k <;> simp

theorem mem_of_find {m : List (α × β)} {k : α} {v : β} (h : find m k = some v) : (k, v) ∈ m := by
  induction m with
  | nil => simp [find] at h
  | cons e t ih =>
    obtain ⟨a, b⟩ := e
    by_cases hak : a = k
    · subst hak
      simp [find] at h
      simp [h]
    · simp only [find, hak, if_false] at h
      exact List.mem_cons_of_mem _ (ih h)

theorem find_of_mem {m : List (α × β)} (hn : (keys m).Nodup) {k : α} {v : β}
    (h : (k, v) ∈ m) : find m k = some v := by
  induction m with
  | nil => simp at h
  | cons e t ih =>
    obtain ⟨a, b⟩ := e
    simp only [keys, List.map_cons, List.nodup_cons] at hn
    rcases List.mem_cons.1 h with h1 | h1
    · cases h1; simp [find]
    · have hne : a ≠ k := by
        intro hak; subst hak
        exact hn.1 (List.mem_map.2 ⟨(a, v), h1, rfl⟩)
      simp only [find, hne, if_false]
      exact ih hn.2 h1

theorem keys_erase (m : List (α × β)) (k : α) :
    keys (erase m k) = (keys m).filter (fun a => decide (a ≠ k)) := by
  induction m with
  | nil => simp [erase, keys]
  | cons e t ih =>
    obtain ⟨a, b⟩ := e
    by_cases h : a = k
    · subst h
      have : erase ((a, b) :: t) a = erase t a := by simp [erase]
      rw [this, ih]; simp [keys]
    · have : erase ((a, b) :: t) k = (a, b) :: erase t k := by simp [erase, h]
      rw [this]
      simp only [keys, List.map_cons] at ih ⊢
      rw [ih]; simp [h]

theorem nodup_keys_erase {m : List (α × β)} (hn : (keys m).Nodup) (k : α) :
    (keys (erase m k)).Nodup := by
  rw [keys_erase]; exact hn.filter _

theorem keys_map_same (m : List (α × β)) (k : α) (v : β) :
    keys (m.map (fun e => if e.1 = k then (k, v) else e)) = keys m := by
  induction m with
  | nil => simp [keys]
  | cons e t ih =>
    obtain ⟨a, b⟩ := e
    simp only [keys, List.map_cons] at ih ⊢
    rw [ih]
    by_cases h : a = k
    · simp [h]
    · simp [h]

theorem keys_assign_of_some {m : List (α × β)} {k : α} {w : β} (h : find m k = some w) (v : β) :
    keys (assign m k v) = keys m := by
  unfold assign; rw [h]; exact keys_map_same m k v

theorem keys_assign_of_none {m : List (α × β)} {k : α} (h : find m k = none) (v : β) :
    keys (assign m k v) = k :: keys m := by
  unfold assign; rw [h]; simp [keys]

theorem assign_of_none {m : List (α × β)} {k : α} (h : find m k = none) (v : β) :
    assign m k v = (k, v) :: m := by
  unfold assign; rw [h]

theorem nodup_keys_assign {m : List (α × β)} (hn : (keys m).Nodup) (k : α) (v : β) :
    (keys (assign m k v)).Nodup := by
  cases h : find m k with
  | none =>
    rw [keys_assign_of_none h]
    exact List.nodup_cons.2 ⟨(find_eq_none_iff m k).1 h, hn⟩
  | some w => rw [keys_assign_of_some h]; exact hn

theorem size_assign_of_some {m : List (α × β)} {k : α} {w : β} (h : find m k = some w) (v : β) :
    size (assign m k v) = size m := by
  rw [size_eq_length_keys, keys_assign_of_some h, size_eq_length_keys]

theorem size_assign_of_none {m : List (α × β)} {k : α} (h : find m k = none) (v : β) :
    size (assign m k v) = size m + 1 := by
  rw [size_eq_length_keys, keys_assign_of_none h, size_eq_length_keys]; simp

theorem erase_of_none {m : List (α × β)} {k : α} (h : find m k = none) : erase m k = m := by
  have hk := (find_eq_none_iff m k).1 h
  unfold erase
  rw [List.filter_eq_self]
  intro e he
  have : e.1 ≠ k := by
    intro hek; apply hk; rw [← hek]; exact List.mem_map.2 ⟨e, he, rfl⟩
  simpa using this

theorem size_erase_of_some {m : List (α × β)} (hn : (keys m).Nodup) {k : α} {w : β}
    (h : find m k = some w) : size (erase m k) + 1 = size m := by
  induction m with
  | nil => simp [find] at h
  | cons e t ih =>
    obtain ⟨a, b⟩ := e
    simp only [keys, List.map_cons, List.nodup_cons] at hn
    by_cases hak : a = k
    · subst hak
      have h1 : erase ((a, b) :: t) a = erase t a := by simp [erase]
      have h2 : find t a = none := (find_eq_none_iff t a).2 hn.1
      rw [h1, erase_of_none h2]; simp [size]
    · have h1 : erase ((a, b) :: t) k = (a, b) :: erase t k := by simp [erase, hak]
      simp only [find, hak, if_false] at h
      have := ih hn.2 h
      rw [h1]; simp only [size, List.length_cons] at this ⊢; omega

end Assoc

section Lemmas

variable {TData TId E : Type} [DecidableEq TId]

/-! ## Pointers and the eviction scan -/

omit [DecidableEq TId] in
theorem deref_some {m : List (TId × ICacheItem TData TId)} {a : Nat} {it : ICacheItem TData TId}
    (h : deref m a = some it) : ∃ k, (k, it) ∈ m ∧ it.addr = a := by
  induction m with
  | nil => simp [deref] at h
  | cons e t ih =>
    obtain ⟨k, x⟩ := e
    by_cases hx : x.addr = a
    · simp only [deref, hx, if_true, Option.some.injEq] at h
      subst h
      exact ⟨k, List.mem_cons_self _ _, hx⟩
    · simp only [deref, hx, if_false] at h
      obtain ⟨k', hk', ha⟩ := ih h
      exact ⟨k', List.mem_cons_of_mem _ hk', ha⟩

omit [DecidableEq TId] in
theorem deref_of_mem {m : List (TId × ICacheItem TData TId)} {k : TId} {it : ICacheItem TData TId}
    (h : (k, it) ∈ m) : ∃ x, deref m it.addr = some x := by
  induction m with
  | nil => simp at h
  | cons e t ih =>
    obtain ⟨k', x⟩ := e
    by_cases hx : x.addr = it.addr
    · exact ⟨x, by simp [deref, hx]⟩
    · rcases List.mem_cons.1 h with h1 | h1
      · cases h1; exact absurd rfl hx
      · obtain ⟨y, hy⟩ := ih h1
        exact ⟨y, by simp only [deref, hx, if_false]; exact hy⟩

theorem le_maxKey {m : List (Nat × Nat)} {p a : Nat} (h : Assoc.find m p = some a) :
    p ≤ maxKey m := by
  induction m with
  | nil => simp [Assoc.find] at h
  | cons e t ih =>
    obtain ⟨q, b⟩ := e
    by_cases hq : q = p
    · subst hq; simp [maxKey]
    · simp only [Assoc.find, hq, if_false] at h
      have := ih h
      simp only [maxKey]; omega

theorem scanFrom_sound (m : List (Nat × Nat)) :
    ∀ (fuel n p a : Nat), scanFrom m fuel n = some (p, a) →
      n ≤ p ∧ Assoc.find m p = some a ∧ ∀ q, n ≤ q → q < p → Assoc.find m q = none := by
  intro fuel
  induction fuel with
  | zero => intro n p a h; simp [scanFrom] at h
  | succ f ih =>
    intro n p a h
    cases hf : Assoc.find m n with
    | some b =>
      simp only [scanFrom, hf, Option.some.injEq, Prod.mk.injEq] at h
      obtain ⟨h1, h2⟩ := h
      subst h1; subst h2
      exact ⟨le_refl _, hf, fun q h1 h2 => absurd h1 (by omega)⟩
    | none =>
      simp only [scanFrom, hf] at h
      obtain ⟨h1, h2, h3⟩ := ih (n + 1) p a h
      refine ⟨by omega, h2, ?_⟩
      intro q hq1 hq2
      by_cases hqn : q = n
      · subst hqn; exact hf
      · exact h3 q (by omega) hq2

theorem scanFrom_complete (m : List (Nat × Nat)) {p a : Nat} (hp : Assoc.find m p = some a) :
    ∀ (fuel n : Nat), n ≤ p → p - n < fuel → ∃ e, scanFrom m fuel n = some e := by
  intro fuel
  induction fuel with
  | zero => intro n _ h; omega
  | succ f ih =>
    intro n hn hf
    cases hfn : Assoc.find m n with
    | some b => exact ⟨(n, b), by simp [scanFrom, hfn]⟩
    | none =>
      have hne : n ≠ p := by
        intro h; subst h; rw [hp] at hfn; cases hfn
      obtain ⟨e, he⟩ := ih (n + 1) (by omega) (by omega)
      exact ⟨e, by simp only [scanFrom, hfn]; exact he⟩

/-- The scan ends as soon as the index has a key at or above the cursor, and
then it stops at the least such key. -/
theorem scan_least {m : List (Nat × Nat)} {n q b : Nat} (hq : Assoc.find m q = some b)
    (hn : n ≤ q) :
    ∃ p a, scan m n = some (p, a) ∧ n ≤ p ∧ p ≤ q ∧ Assoc.find m p = some a ∧
      ∀ r, n ≤ r → r < p → Assoc.find m r = none := by
  have hmax := le_maxKey hq
  obtain ⟨⟨p, a⟩, he⟩ := scanFrom_complete m hq (maxKey m + 1 - n) n hn (by omega)
  obtain ⟨h1, h2, h3⟩ := scanFrom_sound m _ _ _ _ he
  refine ⟨p, a, he, h1, ?_, h2, h3⟩
  by_contra hlt
  have := h3 q hn (by omega)
  rw [hq] at this; cases this

/-- A scan that has no key at or above the cursor finds nothing, whatever the
number of probes: the loop of the source would not end. -/
theorem scanFrom_none_of_no_key (m : List (Nat × Nat)) (n : Nat)
    (h : ∀ q, n ≤ q → Assoc.find m q = none) : ∀ fuel k, scanFrom m fuel (n + k) = none := by
  intro fuel
  induction fuel with
  | zero => intro k; rfl
  | succ f ih =>
    intro k
    simp only [scanFrom, h (n + k) (by omega)]
    have := ih (k + 1)
    rwa [← Nat.add_assoc] at this

/-! ## The indices stay consistent -/

theorem WF.count_free {top : Nat} {s : CachedData TData TId E} (h : WF top s) {p : Nat}
    (hp : top ≤ p) : Assoc.find s.m_cacheItemByCount p = none := by
  cases hf : Assoc.find s.m_cacheItemByCount p with
  | none => rfl
  | some a => have := (h.bounds p a hf).2; omega

theorem WF.deref_live {top : Nat} {s : CachedData TData TId E} (h : WF top s) {p a : Nat}
    (hf : Assoc.find s.m_cacheItemByCount p = some a) :
    ∃ it, deref s.m_cacheItemById a = some it ∧ Assoc.find s.m_cacheItemById it.Id = some it ∧
      it.Count = p ∧ it.addr = a := by
  obtain ⟨k, it, hk, ha, hc⟩ := h.countOf p a hf
  obtain ⟨x, hx⟩ := deref_of_mem (Assoc.mem_of_find hk)
  obtain ⟨k', hk', hxa⟩ := deref_some hx
  have hfx := Assoc.find_of_mem h.nodupId hk'
  have hkk := h.addrInj k' k x it hfx hk hxa
  subst hkk
  rw [hfx] at hk
  have hxit : x = it := Option.some.inj hk
  subst hxit
  refine ⟨x, ?_, ?_, hc, ha⟩
  · rw [← ha]; exact hx
  · rw [(h.idOf _ _ hfx).1]; exact hfx

theorem WF.count_inj {top : Nat} {s : CachedData TData TId E} (h : WF top s) {k1 k2 : TId}
    {it1 it2 : ICacheItem TData TId} (h1 : Assoc.find s.m_cacheItemById k1 = some it1)
    (h2 : Assoc.find s.m_cacheItemById k2 = some it2) (hc : it1.Count = it2.Count) : k1 = k2 := by
  have a1 := (h.idOf _ _ h1).2.1
  have a2 := (h.idOf _ _ h2).2.1
  rw [hc, a2] at a1
  exact h.addrInj _ _ _ _ h1 h2 (Option.some.inj a1).symm

theorem WF.alloc {top : Nat} {s : CachedData TData TId E} (h : WF top s) (n : Nat) :
    WF top { s with heapTop := s.heapTop + n } where
  nodupId := h.nodupId
  nodupCount := h.nodupCount
  idOf := fun k it hk => by
    obtain ⟨h1, h2, h3⟩ := h.idOf k it hk
    exact ⟨h1, h2, Nat.lt_of_lt_of_le h3 (Nat.le_add_right _ _)⟩
  countOf := h.countOf
  addrInj := h.addrInj
  bounds := h.bounds
  sizeEq := h.sizeEq
  kinds := fun k it hk => by
    rcases h.kinds k it hk with ⟨f, hf, hlt⟩ | hd
    · exact Or.inl ⟨f, hf, Nat.lt_of_lt_of_le hlt (Nat.le_add_right _ _)⟩
    · exact Or.inr hd
  sharedBelow := fun p r hp => Nat.lt_of_lt_of_le (h.sharedBelow p r hp) (Nat.le_add_right _ _)
  cursor := h.cursor

theorem WF.setShared {top : Nat} {s : CachedData TData TId E} (h : WF top s) {p : Nat}
    (hp : p < s.heapTop) (r : Except E TData) :
    WF top { s with shared := Assoc.assign s.shared p r } where
  nodupId := h.nodupId
  nodupCount := h.nodupCount
  idOf := h.idOf
  countOf := h.countOf
  addrInj := h.addrInj
  bounds := h.bounds
  sizeEq := h.sizeEq
  kinds := h.kinds
  sharedBelow := fun q x hq => by
    simp only [Assoc.find_assign] at hq
    by_cases hqp : q = p
    · subst hqp; exact hp
    · simp only [hqp, if_false] at hq; exact h.sharedBelow q x hq
  cursor := h.cursor

theorem find_touch_id (s : CachedData TData TId E) (k : TId) (it : ICacheItem TData TId) (k' : TId) :
    Assoc.find (touch s k it).m_cacheItemById k' =
      if k' = k then some { it with Count := s.m_count } else Assoc.find s.m_cacheItemById k' := by
  simp [touch, Assoc.find_assign]

theorem find_touch_count (s : CachedData TData TId E) (k : TId) (it : ICacheItem TData TId) (p : Nat) :
    Assoc.find (touch s k it).m_cacheItemByCount p =
      if p = it.Count then none else if p = s.m_count then some it.addr
      else Assoc.find s.m_cacheItemByCount p := by
  simp [touch, Assoc.find_assign, Assoc.find_erase]

theorem WF.of_touch {s : CachedData TData TId E} (h : WF s.m_count s) {k : TId}
    {it : ICacheItem TData TId} (hk : Assoc.find s.m_cacheItemById k = some it) :
    WF (s.m_count + 1) (touch s k it) := by
  have hid := h.idOf k it hk
  have hlt : it.Count < s.m_count := (h.bounds _ _ hid.2.1).2
  have hfree : Assoc.find s.m_cacheItemByCount s.m_count = none := h.count_free (le_refl _)
  refine
    { nodupId := ?_, nodupCount := ?_, idOf := ?_, countOf := ?_, addrInj := ?_, bounds := ?_,
      sizeEq := ?_, kinds := ?_, sharedBelow := ?_, cursor := ?_ }
  · exact Assoc.nodup_keys_assign h.nodupId _ _
  · exact Assoc.nodup_keys_erase (Assoc.nodup_keys_assign h.nodupCount _ _) _
  · intro k' it' hk'
    rw [find_touch_id] at hk'
    rw [find_touch_count]
    by_cases hkk : k' = k
    · subst hkk
      simp only [if_true, Option.some.injEq] at hk'
      subst hk'
      have : ¬ s.m_count = it.Count := by omega
      simp [this, hid.1]
      exact hid.2.2
    · simp only [hkk, if_false] at hk'
      have hid' := h.idOf k' it' hk'
      have h1 : ¬ it'.Count = it.Count := fun hc => hkk (h.count_inj hk' hk hc)
      have h2 : ¬ it'.Count = s.m_count := by
        have := (h.bounds _ _ hid'.2.1).2; omega
      simp only [h1, h2, if_false]
      exact hid'
  · intro p a hp
    rw [find_touch_count] at hp
    by_cases hp1 : p = it.Count
    · simp [hp1] at hp
    · simp only [hp1, if_false] at hp
      by_cases hp2 : p = s.m_count
      · simp only [hp2, if_true, Option.some.injEq] at hp
        refine ⟨k, { it with Count := s.m_count }, ?_, hp, hp2.symm⟩
        rw [find_touch_id]; simp
      · simp only [hp2, if_false] at hp
        obtain ⟨k2, it2, hk2, ha, hc⟩ := h.countOf p a hp
        have hne : k2 ≠ k := by
          intro hkk; subst hkk; rw [hk] at hk2; cases hk2; exact hp1 hc.symm
        refine ⟨k2, it2, ?_, ha, hc⟩
        rw [find_touch_id]; simp [hne, hk2]
  · intro k1 k2 it1 it2 h1 h2 ha
    rw [find_touch_id] at h1 h2
    by_cases hk1 : k1 = k
    · by_cases hk2 : k2 = k
      · rw [hk1, hk2]
      · simp only [hk1, if_true, Option.some.injEq] at h1
        simp only [hk2, if_false] at h2
        subst h1
        rw [hk1]; exact h.addrInj _ _ _ _ hk h2 ha
    · by_cases hk2 : k2 = k
      · simp only [hk2, if_true, Option.some.injEq] at h2
        simp only [hk1, if_false] at h1
        subst h2
        rw [hk2]; exact h.addrInj _ _ _ _ h1 hk ha
      · simp only [hk1, hk2, if_false] at h1 h2
        exact h.addrInj _ _ _ _ h1 h2 ha
  · intro p a hp
    rw [find_touch_count] at hp
    by_cases hp1 : p = it.Count
    · simp [hp1] at hp
    · simp only [hp1, if_false] at hp
      by_cases hp2 : p = s.m_count
      · have := h.cursor
        subst hp2
        exact ⟨this, Nat.lt_succ_self _⟩
      · simp only [hp2, if_false] at hp
        have := h.bounds p a hp
        exact ⟨this.1, Nat.lt_succ_of_lt this.2⟩
  · show Assoc.size (Assoc.erase (Assoc.assign s.m_cacheItemByCount s.m_count it.addr) it.Count) =
      Assoc.size (Assoc.assign s.m_cacheItemById k { it with Count := s.m_count })
    have e1 := Assoc.size_assign_of_none hfree it.addr
    have hf2 : Assoc.find (Assoc.assign s.m_cacheItemByCount s.m_count it.addr) it.Count =
        some it.addr := by
      rw [Assoc.find_assign]
      have : ¬ it.Count = s.m_count := by omega
      simp only [this, if_false]; exact hid.2.1
    have e2 := Assoc.size_erase_of_some (Assoc.nodup_keys_assign h.nodupCount _ _) hf2
    have e3 := Assoc.size_assign_of_some hk { it with Count := s.m_count }
    have := h.sizeEq
    omega
  · intro k' it' hk'
    rw [find_touch_id] at hk'
    by_cases hkk : k' = k
    · simp only [hkk, if_true, Option.some.injEq] at hk'
      subst hk'
      exact h.kinds k it hk
    · simp only [hkk, if_false] at hk'
      exact h.kinds k' it' hk'
  · exact h.sharedBelow
  · exact Nat.le_succ_of_le h.cursor

theorem find_fill_id (s : CachedData TData TId E) (k : TId) (it : ICacheItem TData TId) (d : TData)
    (k' : TId) :
    Assoc.find (fill s k it d).m_cacheItemById k' =
      if k' = k then some (filledItem s it d) else Assoc.find s.m_cacheItemById k' := by
  simp [fill, Assoc.find_assign]

theorem find_fill_count (s : CachedData TData TId E) (k : TId) (it : ICacheItem TData TId)
    (d : TData) (p : Nat) :
    Assoc.find (fill s k it d).m_cacheItemByCount p =
      if p = it.Count then some s.heapTop else Assoc.find s.m_cacheItemByCount p := by
  simp [fill, filledItem, Assoc.find_assign]

theorem WF.of_fill {top : Nat} {s : CachedData TData TId E} (h : WF top s) {k : TId}
    {it : ICacheItem TData TId} (hk : Assoc.find s.m_cacheItemById k = some it) (d : TData) :
    WF top (fill s k it d) := by
  have hid := h.idOf k it hk
  refine
    { nodupId := ?_, nodupCount := ?_, idOf := ?_, countOf := ?_, addrInj := ?_, bounds := ?_,
      sizeEq := ?_, kinds := ?_, sharedBelow := ?_, cursor := ?_ }
  · exact Assoc.nodup_keys_assign h.nodupId _ _
  · exact Assoc.nodup_keys_assign h.nodupCount _ _
  · intro k' it' hk'
    rw [find_fill_id] at hk'
    rw [find_fill_count]
    by_cases hkk : k' = k
    · subst hkk
      simp only [if_true, Option.some.injEq] at hk'
      subst hk'
      simp [filledItem, hid.1, fill]
    · simp only [hkk, if_false] at hk'
      have hid' := h.idOf k' it' hk'
      have h1 : ¬ it'.Count = it.Count := fun hc => hkk (h.count_inj hk' hk hc)
      simp only [h1, if_false]
      exact ⟨hid'.1, hid'.2.1, Nat.lt_succ_of_lt hid'.2.2⟩
  · intro p a hp
    rw [find_fill_count] at hp
    by_cases hp1 : p = it.Count
    · simp only [hp1, if_true, Option.some.injEq] at hp
      refine ⟨k, filledItem s it d, ?_, hp, ?_⟩
      · rw [find_fill_id]; simp
      · simp [filledItem, hp1]
    · simp only [hp1, if_false] at hp
      obtain ⟨k2, it2, hk2, ha, hc⟩ := h.countOf p a hp
      have hne : k2 ≠ k := by
        intro hkk; subst hkk; rw [hk] at hk2
        have := Option.some.inj hk2
        subst this; exact hp1 hc.symm
      refine ⟨k2, it2, ?_, ha, hc⟩
      rw [find_fill_id]; simp [hne, hk2]
  · intro k1 k2 it1 it2 h1 h2 ha
    rw [find_fill_id] at h1 h2
    by_cases hk1 : k1 = k
    · by_cases hk2 : k2 = k
      · rw [hk1, hk2]
      · simp only [hk1, if_true, Option.some.injEq] at h1
        simp only [hk2, if_false] at h2
        subst h1
        have := (h.idOf _ _ h2).2.2
        simp only [filledItem] at ha
        omega
    · by_cases hk2 : k2 = k
      · simp only [hk2, if_true, Option.some.injEq] at h2
        simp only [hk1, if_false] at h1
        subst h2
        have := (h.idOf _ _ h1).2.2
        simp only [filledItem] at ha
        omega
      · simp only [hk1, hk2, if_false] at h1 h2
        exact h.addrInj _ _ _ _ h1 h2 ha
  · intro p a hp
    rw [find_fill_count] at hp
    by_cases hp1 : p = it.Count
    · rw [hp1]; exact h.bounds _ _ hid.2.1
    · simp only [hp1, if_false] at hp
      exact h.bounds p a hp
  · show Assoc.size (Assoc.assign s.m_cacheItemByCount it.Count s.heapTop) =
      Assoc.size (Assoc.assign s.m_cacheItemById k (filledItem s it d))
    rw [Assoc.size_assign_of_some hid.2.1, Assoc.size_assign_of_some hk]
    exact h.sizeEq
  · intro k' it' hk'
    rw [find_fill_id] at hk'
    by_cases hkk : k' = k
    · simp only [hkk, if_true, Option.some.injEq] at hk'
      subst hk'
      exact Or.inr ⟨d, rfl⟩
    · simp only [hkk, if_false] at hk'
      rcases h.kinds k' it' hk' with ⟨f, hf, hlt⟩ | hd
      · exact Or.inl ⟨f, hf, Nat.lt_succ_of_lt hlt⟩
      · exact Or.inr hd
  · intro p r hp
    exact Nat.lt_succ_of_lt (h.sharedBelow p r hp)
  · exact h.cursor

/-- The cache at line 67 of a miss: the two local items have been made and the
`EmptyCacheItem` is in both indices. -/
theorem find_add_id (s : CachedData TData TId E) (k : TId) (c : ICacheItem TData TId) (k' : TId) :
    Assoc.find (add s k c).m_cacheItemById k' =
      if k' = k then some { c with Count := s.m_count } else Assoc.find s.m_cacheItemById k' := by
  simp only [add, Assoc.find_assign]
  by_cases h : k' = k
  · simp [h]
  · have h2 : ¬ k = k' := fun x => h x.symm
    simp [h, h2, Assoc.find]

theorem find_add_count (s : CachedData TData TId E) (k : TId) (c : ICacheItem TData TId) (p : Nat) :
    Assoc.find (add s k c).m_cacheItemByCount p =
      if p = s.m_count then some c.addr else Assoc.find s.m_cacheItemByCount p := by
  simp [add, Assoc.find_assign]

theorem WF.of_add {s : CachedData TData TId E} (h : WF s.m_count s) {k : TId}
    (hk : Assoc.find s.m_cacheItemById k = none) :
    WF (s.m_count + 1) (add { s with heapTop := s.heapTop + 2 } k (emptyItem s k)) := by
  have hfree : Assoc.find s.m_cacheItemByCount s.m_count = none := h.count_free (le_refl _)
  refine
    { nodupId := ?_, nodupCount := ?_, idOf := ?_, countOf := ?_, addrInj := ?_, bounds := ?_,
      sizeEq := ?_, kinds := ?_, sharedBelow := ?_, cursor := ?_ }
  · apply Assoc.nodup_keys_assign
    show ((k :: Assoc.keys s.m_cacheItemById)).Nodup
    exact List.nodup_cons.2 ⟨(Assoc.find_eq_none_iff _ _).1 hk, h.nodupId⟩
  · exact Assoc.nodup_keys_assign h.nodupCount _ _
  · intro k' it' hk'
    rw [find_add_id] at hk'
    rw [find_add_count]
    by_cases hkk : k' = k
    · subst hkk
      simp only [if_true, Option.some.injEq] at hk'
      subst hk'
      simp [emptyItem, add]
    · simp only [hkk, if_false] at hk'
      have hid' := h.idOf k' it' hk'
      have h2 : ¬ it'.Count = s.m_count := by
        have := (h.bounds _ _ hid'.2.1).2; omega
      simp only [h2, if_false]
      exact ⟨hid'.1, hid'.2.1, Nat.lt_of_lt_of_le hid'.2.2 (Nat.le_add_right _ _)⟩
  · intro p a hp
    rw [find_add_count] at hp
    by_cases hp2 : p = s.m_count
    · simp only [hp2, if_true, Option.some.injEq] at hp
      refine ⟨k, { emptyItem s k with Count := s.m_count }, ?_, hp, hp2.symm⟩
      rw [find_add_id]; simp
    · simp only [hp2, if_false] at hp
      obtain ⟨k2, it2, hk2, ha, hc⟩ := h.countOf p a hp
      have hne : k2 ≠ k := by
        intro hkk; subst hkk; rw [hk] at hk2; cases hk2
      refine ⟨k2, it2, ?_, ha, hc⟩
      rw [find_add_id]; simp [hne, hk2]
  · intro k1 k2 it1 it2 h1 h2 ha
    rw [find_add_id] at h1 h2
    by_cases hk1 : k1 = k
    · by_cases hk2 : k2 = k
      · rw [hk1, hk2]
      · simp only [hk1, if_true, Option.some.injEq] at h1
        simp only [hk2, if_false] at h2
        subst h1
        have := (h.idOf _ _ h2).2.2
        simp only [emptyItem] at ha
        omega
    · by_cases hk2 : k2 = k
      · simp only [hk2, if_true, Option.some.injEq] at h2
        simp only [hk1, if_false] at h1
        subst h2
        have := (h.idOf _ _ h1).2.2
        simp only [emptyItem] at ha
        omega
      · simp only [hk1, hk2, if_false] at h1 h2
        exact h.addrInj _ _ _ _ h1 h2 ha
  · intro p a hp
    rw [find_add_count] at hp
    by_cases hp2 : p = s.m_count
    · have := h.cursor
      subst hp2
      exact ⟨this, Nat.lt_succ_self _⟩
    · simp only [hp2, if_false] at hp
      have := h.bounds p a hp
      exact ⟨this.1, Nat.lt_succ_of_lt this.2⟩
  · show Assoc.size (Assoc.assign s.m_cacheItemByCount s.m_count (emptyItem s k).addr) =
      Assoc.size (Assoc.assign ((k, emptyItem s k) :: s.m_cacheItemById) k
        { emptyItem s k with Count := s.m_count })
    have e1 := Assoc.size_assign_of_none hfree (emptyItem s k).addr
    have hf2 : Assoc.find ((k, emptyItem s k) :: s.m_cacheItemById) k = some (emptyItem s k) := by
      simp [Assoc.find]
    have e3 := Assoc.size_assign_of_some hf2 { emptyItem s k with Count := s.m_count }
    have := h.sizeEq
    simp only [Assoc.size, List.length_cons] at e1 e3 this ⊢
    omega
  · intro k' it' hk'
    rw [find_add_id] at hk'
    by_cases hkk : k' = k
    · simp only [hkk, if_true, Option.some.injEq] at hk'
      subst hk'
      exact Or.inl ⟨s.heapTop, rfl, by show s.heapTop < s.heapTop + 2; omega⟩
    · simp only [hkk, if_false] at hk'
      rcases h.kinds k' it' hk' with ⟨f, hf, hlt⟩ | hd
      · exact Or.inl ⟨f, hf, Nat.lt_of_lt_of_le hlt (Nat.le_add_right _ _)⟩
      · exact Or.inr hd
  · intro p r hp
    exact Nat.lt_of_lt_of_le (h.sharedBelow p r hp) (Nat.le_add_right _ _)
  · exact Nat.le_succ_of_le h.cursor

/-- The cache after `it` has been erased from both indices (lines 76-78). -/
theorem WF.erased {top : Nat} {s : CachedData TData TId E} (h : WF top s)
    {it : ICacheItem TData TId} (hk : Assoc.find s.m_cacheItemById it.Id = some it)
    (hmin : ∀ r, s.m_nextToDelete ≤ r → r < it.Count → Assoc.find s.m_cacheItemByCount r = none) :
    WF top { s with
      m_cacheItemById := Assoc.erase s.m_cacheItemById it.Id
      m_cacheItemByCount := Assoc.erase s.m_cacheItemByCount it.Count
      m_nextToDelete := it.Count + 1 } := by
  have hid := h.idOf _ it hk
  refine
    { nodupId := ?_, nodupCount := ?_, idOf := ?_, countOf := ?_, addrInj := ?_, bounds := ?_,
      sizeEq := ?_, kinds := ?_, sharedBelow := ?_, cursor := ?_ }
  · exact Assoc.nodup_keys_erase h.nodupId _
  · exact Assoc.nodup_keys_erase h.nodupCount _
  · intro k' it' hk'
    simp only [Assoc.find_erase] at hk' ⊢
    by_cases hkk : k' = it.Id
    · simp [hkk] at hk'
    · simp only [hkk, if_false] at hk'
      have hid' := h.idOf k' it' hk'
      have h1 : ¬ it'.Count = it.Count := fun hc => hkk (h.count_inj hk' hk hc)
      simp only [h1, if_false]
      exact hid'
  · intro p a hp
    simp only [Assoc.find_erase] at hp ⊢
    by_cases hp1 : p = it.Count
    · simp [hp1] at hp
    · simp only [hp1, if_false] at hp
      obtain ⟨k2, it2, hk2, ha, hc⟩ := h.countOf p a hp
      have hne : k2 ≠ it.Id := by
        intro hkk; subst hkk; rw [hk] at hk2
        have := Option.some.inj hk2
        subst this; exact hp1 hc.symm
      refine ⟨k2, it2, ?_, ha, hc⟩
      simp [hne, hk2]
  · intro k1 k2 it1 it2 h1 h2 ha
    simp only [Assoc.find_erase] at h1 h2
    by_cases hk1 : k1 = it.Id
    · simp [hk1] at h1
    · by_cases hk2 : k2 = it.Id
      · simp [hk2] at h2
      · simp only [hk1, hk2, if_false] at h1 h2
        exact h.addrInj _ _ _ _ h1 h2 ha
  · intro p a hp
    simp only [Assoc.find_erase] at hp
    by_cases hp1 : p = it.Count
    · simp [hp1] at hp
    · simp only [hp1, if_false] at hp
      have hb := h.bounds p a hp
      refine ⟨?_, hb.2⟩
      show it.Count + 1 ≤ p
      by_contra hlt
      have := hmin p hb.1 (by omega)
      rw [hp] at this; cases this
  · show Assoc.size (Assoc.erase s.m_cacheItemByCount it.Count) =
      Assoc.size (Assoc.erase s.m_cacheItemById it.Id)
    have e1 := Assoc.size_erase_of_some h.nodupCount hid.2.1
    have e2 := Assoc.size_erase_of_some h.nodupId hk
    have := h.sizeEq
    omega
  · intro k' it' hk'
    simp only [Assoc.find_erase] at hk'
    by_cases hkk : k' = it.Id
    · simp [hkk] at hk'
    · simp only [hkk, if_false] at hk'
      exact h.kinds k' it' hk'
  · exact h.sharedBelow
  · show it.Count + 1 ≤ top
    have := (h.bounds _ _ hid.2.1).2
    omega

/-- Lines 71-81 on a consistent cache with at least one item: the scan ends, the
pointer it finds is live, and the item erased is the resident item with the
least position. -/
theorem WF.of_evict {top : Nat} {s : CachedData TData TId E} (h : WF top s) {q b : Nat}
    (hq : Assoc.find s.m_cacheItemByCount q = some b) :
    ∃ it, evict s = .ok { s with
        m_cacheItemById := Assoc.erase s.m_cacheItemById it.Id
        m_cacheItemByCount := Assoc.erase s.m_cacheItemByCount it.Count
        m_nextToDelete := it.Count + 1 } ∧
      Assoc.find s.m_cacheItemById it.Id = some it ∧
      (∀ k' it', Assoc.find s.m_cacheItemById k' = some it' → it.Count ≤ it'.Count) ∧
      (∀ r, s.m_nextToDelete ≤ r → r < it.Count → Assoc.find s.m_cacheItemByCount r = none) ∧
      scan s.m_cacheItemByCount s.m_nextToDelete = some (it.Count, it.addr) := by
  obtain ⟨p, a, hscan, _, _, hpa, hnone⟩ := scan_least hq (h.bounds q b hq).1
  obtain ⟨it, hd, hfi, hc, ha⟩ := h.deref_live hpa
  subst hc
  subst ha
  refine ⟨it, ?_, hfi, ?_, hnone, hscan⟩
  · simp only [evict, hscan, hd]
  · intro k' it' hk'
    have hid' := h.idOf k' it' hk'
    by_contra hlt
    have := hnone it'.Count (h.bounds _ _ hid'.2.1).1 (by omega)
    rw [hid'.2.1] at this; cases this

/-! ## The block under the mutex -/

theorem size_touch {s : CachedData TData TId E} (h : WF s.m_count s) {k : TId}
    {it : ICacheItem TData TId} (hk : Assoc.find s.m_cacheItemById k = some it) :
    Assoc.size (touch s k it).m_cacheItemById = Assoc.size s.m_cacheItemById ∧
      Assoc.size (touch s k it).m_cacheItemByCount = Assoc.size s.m_cacheItemById := by
  have h1 : Assoc.size (touch s k it).m_cacheItemById = Assoc.size s.m_cacheItemById :=
    Assoc.size_assign_of_some hk _
  exact ⟨h1, by rw [(h.of_touch hk).sizeEq, h1]⟩

theorem Inv.inv_alloc {s : CachedData TData TId E} (h : Inv s) (n : Nat) :
    Inv { s with heapTop := s.heapTop + n } :=
  ⟨h.wf.alloc n, h.sizeLe⟩

theorem Inv.inv_of_touch {s : CachedData TData TId E} (h : Inv s) {k : TId}
    {it : ICacheItem TData TId} (hk : Assoc.find s.m_cacheItemById k = some it) :
    Inv (touch s k it) :=
  ⟨h.wf.of_touch hk, by rw [(size_touch h.wf hk).1]; exact h.sizeLe⟩

theorem Inv.inv_of_fill {s : CachedData TData TId E} (h : Inv s) {k : TId}
    {it : ICacheItem TData TId} (hk : Assoc.find s.m_cacheItemById k = some it) (d : TData) :
    Inv (fill s k it d) :=
  ⟨h.wf.of_fill hk d, by
    show Assoc.size (Assoc.assign s.m_cacheItemById k (filledItem s it d)) ≤ s.m_maxSize
    rw [Assoc.size_assign_of_some hk]; exact h.sizeLe⟩

theorem Inv.inv_setShared {s : CachedData TData TId E} (h : Inv s) {p : Nat}
    (hp : p < s.heapTop) (r : Except E TData) :
    Inv { s with shared := Assoc.assign s.shared p r } :=
  ⟨h.wf.setShared hp r, h.sizeLe⟩

omit [DecidableEq TId] in
theorem checkSizes_ok {s : CachedData TData TId E} (x : Exit TData TId E)
    (h1 : Assoc.size s.m_cacheItemById ≤ s.m_maxSize)
    (h2 : Assoc.size s.m_cacheItemByCount ≤ s.m_maxSize) : checkSizes s x = .ok (s, x) := by
  simp [checkSizes, h1, h2]

/-- A hit on a `FilledCacheItem` (lines 43-49). -/
theorem lockedBlock_filled (s : CachedData TData TId E) {k : TId} {it : ICacheItem TData TId}
    {d : TData} (hk : Assoc.find s.m_cacheItemById k = some it) (hd : it.kind = .Filled d) :
    lockedBlock s k =
      .ok (touch { s with heapTop := s.heapTop + 2 } k it, .returned (.value d)) := by
  simp [lockedBlock, hk, hitBranch, ICacheItem.isReady, ICacheItem.getData, hd]

/-- A hit on an `EmptyCacheItem` whose future holds a value (lines 43-55). -/
theorem lockedBlock_value (s : CachedData TData TId E) {k : TId} {it : ICacheItem TData TId}
    {f : Nat} {d : TData} (hk : Assoc.find s.m_cacheItemById k = some it)
    (hf : it.kind = .Empty f) (hs : Assoc.find s.shared f = some (.ok d)) :
    lockedBlock s k =
      .ok (fill (touch { s with heapTop := s.heapTop + 2 } k it) k
        { it with Count := s.m_count } d, .returned (.value d)) := by
  simp [lockedBlock, hk, hitBranch, ICacheItem.isReady, ICacheItem.isWaiting,
    ICacheItem.getFuture, ICacheItem.getData, hf, touch, hs, filledItem]

/-- A hit on an `EmptyCacheItem` whose future holds an exception (lines 43-53). -/
theorem lockedBlock_error (s : CachedData TData TId E) {k : TId} {it : ICacheItem TData TId}
    {f : Nat} {e : E} (hk : Assoc.find s.m_cacheItemById k = some it)
    (hf : it.kind = .Empty f) (hs : Assoc.find s.shared f = some (.error e)) :
    lockedBlock s k =
      .ok (touch { s with heapTop := s.heapTop + 2 } k it, .returned (.fetchError e)) := by
  simp [lockedBlock, hk, hitBranch, ICacheItem.isReady, ICacheItem.isWaiting,
    ICacheItem.getFuture, hf, touch, hs]

/-- A hit on an `EmptyCacheItem` whose future is not ready (lines 43-58, 86-87). -/
theorem lockedBlock_waiting {s : CachedData TData TId E} (h : Inv s) {k : TId}
    {it : ICacheItem TData TId} {f : Nat} (hk : Assoc.find s.m_cacheItemById k = some it)
    (hf : it.kind = .Empty f) (hs : Assoc.find s.shared f = none) :
    lockedBlock s k =
      .ok ({ touch { s with heapTop := s.heapTop + 2 } k it with heapTop := s.heapTop + 3 },
        .unlocked { addr := s.heapTop + 2, Id := it.Id, Count := s.m_count, kind := .Waiting f }) := by
  have hsz := size_touch (h.inv_alloc 2).wf hk
  have h1 : Assoc.size (touch { s with heapTop := s.heapTop + 2 } k it).m_cacheItemById
      ≤ s.m_maxSize := by rw [hsz.1]; exact h.sizeLe
  have h2 : Assoc.size (touch { s with heapTop := s.heapTop + 2 } k it).m_cacheItemByCount
      ≤ s.m_maxSize := by rw [hsz.2]; exact h.sizeLe
  simp only [lockedBlock, hk, hitBranch, ICacheItem.isReady, ICacheItem.isWaiting,
    ICacheItem.getFuture, hf, waitingItem]
  have hs' : Assoc.find (touch { s with heapTop := s.heapTop + 2 } k it).shared f = none := hs
  simp only [hs', Option.isNone_none, Bool.not_true, Bool.false_eq_true, if_false]
  exact checkSizes_ok _ h1 h2

theorem WF.setCount {top : Nat} {s : CachedData TData TId E} (h : WF top s) (c : Nat) :
    WF top { s with m_count := c } where
  nodupId := h.nodupId
  nodupCount := h.nodupCount
  idOf := h.idOf
  countOf := h.countOf
  addrInj := h.addrInj
  bounds := h.bounds
  sizeEq := h.sizeEq
  kinds := h.kinds
  sharedBelow := h.sharedBelow
  cursor := h.cursor

theorem size_add {s : CachedData TData TId E} (h : WF s.m_count s) {k : TId}
    (c : ICacheItem TData TId) :
    Assoc.size (add s k c).m_cacheItemById = Assoc.size s.m_cacheItemById + 1 ∧
      Assoc.size (add s k c).m_cacheItemByCount = Assoc.size s.m_cacheItemById + 1 := by
  have hfree : Assoc.find s.m_cacheItemByCount s.m_count = none := h.count_free (le_refl _)
  have hf2 : Assoc.find ((k, c) :: s.m_cacheItemById) k = some c := by simp [Assoc.find]
  constructor
  · show Assoc.size (Assoc.assign ((k, c) :: s.m_cacheItemById) k { c with Count := s.m_count }) = _
    rw [Assoc.size_assign_of_some hf2]; simp [Assoc.size]
  · show Assoc.size (Assoc.assign s.m_cacheItemByCount s.m_count c.addr) = _
    rw [Assoc.size_assign_of_none hfree, h.sizeEq]

/-- What a miss leaves behind (lines 62-88): the new item is added, and when
that makes the position index larger than `m_maxSize` the resident item with the
least position is erased from both indices. -/
theorem lockedBlock_miss {s : CachedData TData TId E} (h : Inv s) {k : TId}
    (hk : Assoc.find s.m_cacheItemById k = none) :
    ∃ s', lockedBlock s k = .ok (s', .unlocked (promiseItem s k)) ∧ Inv s' ∧
      ((Assoc.size s.m_cacheItemById < s.m_maxSize ∧
          s' = { add { s with heapTop := s.heapTop + 2 } k (emptyItem s k) with
            m_count := s.m_count + 1 }) ∨
       (Assoc.size s.m_cacheItemById = s.m_maxSize ∧ ∃ victim,
          Assoc.find (add { s with heapTop := s.heapTop + 2 } k (emptyItem s k)).m_cacheItemById
            victim.Id = some victim ∧
          (∀ k' it', Assoc.find
              (add { s with heapTop := s.heapTop + 2 } k (emptyItem s k)).m_cacheItemById k'
                = some it' → victim.Count ≤ it'.Count) ∧
          scan (add { s with heapTop := s.heapTop + 2 } k (emptyItem s k)).m_cacheItemByCount
            s.m_nextToDelete = some (victim.Count, victim.addr) ∧
          s' = { add { s with heapTop := s.heapTop + 2 } k (emptyItem s k) with
            m_cacheItemById := Assoc.erase
              (add { s with heapTop := s.heapTop + 2 } k (emptyItem s k)).m_cacheItemById victim.Id
            m_cacheItemByCount := Assoc.erase
              (add { s with heapTop := s.heapTop + 2 } k (emptyItem s k)).m_cacheItemByCount
                victim.Count
            m_nextToDelete := victim.Count + 1
            m_count := s.m_count + 1 })) := by
  have hwf1 := h.wf.of_add hk
  have hsz := @size_add TData TId E _ { s with heapTop := s.heapTop + 2 } (h.wf.alloc 2) k (emptyItem s k)
  have hsz1 : Assoc.size (add { s with heapTop := s.heapTop + 2 } k (emptyItem s k)).m_cacheItemById
      = Assoc.size s.m_cacheItemById + 1 := hsz.1
  have hsz2 : Assoc.size (add { s with heapTop := s.heapTop + 2 } k (emptyItem s k)).m_cacheItemByCount
      = Assoc.size s.m_cacheItemById + 1 := hsz.2
  have hle := h.sizeLe
  have hlb : lockedBlock s k =
      missBranch { s with heapTop := s.heapTop + 2 } k (promiseItem s k) (emptyItem s k) := by
    simp [lockedBlock, hk]
  rw [hlb]
  by_cases hfull : Assoc.size s.m_cacheItemById < s.m_maxSize
  · refine ⟨_, ?_, ⟨hwf1.setCount _, ?_⟩, Or.inl ⟨hfull, rfl⟩⟩
    · have hno : ¬ (Assoc.size
          (add { s with heapTop := s.heapTop + 2 } k (emptyItem s k)).m_cacheItemByCount >
          (add { s with heapTop := s.heapTop + 2 } k (emptyItem s k)).m_maxSize) := by
        rw [hsz2]; show ¬ (_ > s.m_maxSize); omega
      have hc : (Assoc.size
          (add { s with heapTop := s.heapTop + 2 } k (emptyItem s k)).m_cacheItemById ≤ s.m_maxSize ∧
        Assoc.size
          (add { s with heapTop := s.heapTop + 2 } k (emptyItem s k)).m_cacheItemByCount ≤ s.m_maxSize) := by
        rw [hsz1, hsz2]; omega
      simp only [missBranch, if_neg hno]
      exact checkSizes_ok _ hc.1 hc.2
    · show Assoc.size (add { s with heapTop := s.heapTop + 2 } k (emptyItem s k)).m_cacheItemById
        ≤ s.m_maxSize
      rw [hsz1]; omega
  · have heq : Assoc.size s.m_cacheItemById = s.m_maxSize := by omega
    have hentry : Assoc.find
        (add { s with heapTop := s.heapTop + 2 } k (emptyItem s k)).m_cacheItemByCount s.m_count
          = some (emptyItem s k).addr := by
      rw [find_add_count]; simp
    obtain ⟨victim, hev, hres, hmin, hnone, hscan⟩ := hwf1.of_evict hentry
    have hwf2 := hwf1.erased hres hnone
    have hid := hwf1.idOf _ _ hres
    have e1 := Assoc.size_erase_of_some hwf1.nodupId hres
    have e2 := Assoc.size_erase_of_some hwf1.nodupCount hid.2.1
    refine ⟨_, ?_, ⟨hwf2.setCount _, ?_⟩, Or.inr ⟨heq, victim, hres, hmin, hscan, rfl⟩⟩
    · have hyes : (Assoc.size
          (add { s with heapTop := s.heapTop + 2 } k (emptyItem s k)).m_cacheItemByCount >
          (add { s with heapTop := s.heapTop + 2 } k (emptyItem s k)).m_maxSize) := by
        rw [hsz2]; show _ > s.m_maxSize; omega
      have hc : (Assoc.size (Assoc.erase
          (add { s with heapTop := s.heapTop + 2 } k (emptyItem s k)).m_cacheItemById victim.Id)
            ≤ s.m_maxSize ∧
        Assoc.size (Assoc.erase
          (add { s with heapTop := s.heapTop + 2 } k (emptyItem s k)).m_cacheItemByCount victim.Count)
            ≤ s.m_maxSize) := by
        constructor <;> omega
      simp only [missBranch, if_pos hyes, hev]
      exact checkSizes_ok _ hc.1 hc.2
    · show Assoc.size (Assoc.erase
          (add { s with heapTop := s.heapTop + 2 } k (emptyItem s k)).m_cacheItemById victim.Id)
            ≤ s.m_maxSize
      omega

/-- The five ways through the block under the mutex, for a cache that satisfies
the invariant: hit on a value-holding item, first hit after a successful fetch,
hit after a failed fetch, hit on an item still in flight, miss. -/
theorem lockedBlock_cases {s : CachedData TData TId E} (h : Inv s) (k : TId) :
    (∃ it d, Assoc.find s.m_cacheItemById k = some it ∧ it.kind = .Filled d ∧
      lockedBlock s k =
        .ok (touch { s with heapTop := s.heapTop + 2 } k it, .returned (.value d))) ∨
    (∃ it f d, Assoc.find s.m_cacheItemById k = some it ∧ it.kind = .Empty f ∧
      Assoc.find s.shared f = some (.ok d) ∧
      lockedBlock s k =
        .ok (fill (touch { s with heapTop := s.heapTop + 2 } k it) k
          { it with Count := s.m_count } d, .returned (.value d))) ∨
    (∃ it f e, Assoc.find s.m_cacheItemById k = some it ∧ it.kind = .Empty f ∧
      Assoc.find s.shared f = some (.error e) ∧
      lockedBlock s k =
        .ok (touch { s with heapTop := s.heapTop + 2 } k it, .returned (.fetchError e))) ∨
    (∃ it f, Assoc.find s.m_cacheItemById k = some it ∧ it.kind = .Empty f ∧
      Assoc.find s.shared f = none ∧
      lockedBlock s k =
        .ok ({ touch { s with heapTop := s.heapTop + 2 } k it with heapTop := s.heapTop + 3 },
          .unlocked { addr := s.heapTop + 2, Id := it.Id, Count := s.m_count, kind := .Waiting f })) ∨
    (Assoc.find s.m_cacheItemById k = none ∧
      ∃ s', lockedBlock s k = .ok (s', .unlocked (promiseItem s k))) := by
  cases hk : Assoc.find s.m_cacheItemById k with
  | none =>
    obtain ⟨s', hs', _⟩ := lockedBlock_miss h hk
    exact Or.inr (Or.inr (Or.inr (Or.inr ⟨rfl, s', hs'⟩)))
  | some it =>
    rcases h.wf.kinds k it hk with ⟨f, hf, _⟩ | ⟨d, hd⟩
    · cases hs : Assoc.find s.shared f with
      | none => exact Or.inr (Or.inr (Or.inr (Or.inl ⟨it, f, rfl, hf, hs, lockedBlock_waiting h hk hf hs⟩)))
      | some r =>
        cases r with
        | ok d => exact Or.inr (Or.inl ⟨it, f, d, rfl, hf, hs, lockedBlock_value s hk hf hs⟩)
        | error e => exact Or.inr (Or.inr (Or.inl ⟨it, f, e, rfl, hf, hs, lockedBlock_error s hk hf hs⟩))
    · exact Or.inl ⟨it, d, rfl, hd, lockedBlock_filled s hk hd⟩

/-- The block under the mutex keeps the invariant, advances the counter by one,
leaves the capacity and the shared states alone and makes two or three objects. -/
theorem lockedBlock_inv {s : CachedData TData TId E} (h : Inv s) (k : TId) :
    ∃ s' x, lockedBlock s k = .ok (s', x) ∧ Inv s' ∧ s'.m_maxSize = s.m_maxSize ∧
      s'.m_count = s.m_count + 1 ∧ s'.shared = s.shared ∧
      s.heapTop + 2 ≤ s'.heapTop ∧ s'.heapTop ≤ s.heapTop + 3 := by
  rcases lockedBlock_cases h k with ⟨it, d, hk, _, hl⟩ | ⟨it, f, d, hk, _, _, hl⟩ |
    ⟨it, f, e, hk, _, _, hl⟩ | ⟨it, f, hk, _, _, hl⟩ | ⟨hk, _⟩
  · exact ⟨_, _, hl, (h.inv_alloc 2).inv_of_touch hk, rfl, rfl, rfl, le_refl _, Nat.le_succ _⟩
  · refine ⟨_, _, hl, ((h.inv_alloc 2).inv_of_touch hk).inv_of_fill ?_ d, rfl, rfl, rfl, Nat.le_succ _, le_refl _⟩
    rw [find_touch_id]; simp
  · exact ⟨_, _, hl, (h.inv_alloc 2).inv_of_touch hk, rfl, rfl, rfl, le_refl _, Nat.le_succ _⟩
  · exact ⟨_, _, hl, ((h.inv_alloc 2).inv_of_touch hk).inv_alloc 1, rfl, rfl, rfl, Nat.le_succ _, le_refl _⟩
  · obtain ⟨s', hs', hinv, hdesc⟩ := lockedBlock_miss h hk
    rcases hdesc with ⟨_, rfl⟩ | ⟨_, victim, _, _, _, rfl⟩
    · exact ⟨_, _, hs', hinv, rfl, rfl, rfl, le_refl _, Nat.le_succ _⟩
    · exact ⟨_, _, hs', hinv, rfl, rfl, rfl, le_refl _, Nat.le_succ _⟩

omit [DecidableEq TId] in
theorem publish_promising (s : CachedData TData TId E) {it : ICacheItem TData TId} {p : Nat}
    (hp : it.kind = .Promising p) (hs : Assoc.find s.shared p = none) (r : Except E TData) :
    publish s it r = .ok ({ s with shared := Assoc.assign s.shared p r }, ofResult r) := by
  cases r with
  | ok d => simp [publish, ICacheItem.setData, hp, hs, ofResult]
  | error e => simp [publish, ICacheItem.setException, hp, hs, ofResult]

theorem Inv.inv_init (a_maxSize : Nat) : Inv (CachedData.init a_maxSize : CachedData TData TId E) where
  wf :=
    { nodupId := List.nodup_nil
      nodupCount := List.nodup_nil
      idOf := fun k it hk => by simp [CachedData.init, Assoc.find] at hk
      countOf := fun p a hp => by simp [CachedData.init, Assoc.find] at hp
      addrInj := fun k1 k2 it1 it2 h1 => by simp [CachedData.init, Assoc.find] at h1
      bounds := fun p a hp => by simp [CachedData.init, Assoc.find] at hp
      sizeEq := rfl
      kinds := fun k it hk => by simp [CachedData.init, Assoc.find] at hk
      sharedBelow := fun p r hp => by simp [CachedData.init, Assoc.find] at hp
      cursor := le_refl _ }
  sizeLe := Nat.zero_le _

/-- Shape of a call that runs alone, case by case. -/
theorem getData_filled (s : CachedData TData TId E) {k : TId} {it : ICacheItem TData TId}
    {d : TData} (hk : Assoc.find s.m_cacheItemById k = some it) (hd : it.kind = .Filled d)
    (a_db : TId → Except E TData) :
    s.getData k a_db = .ok ⟨touch { s with heapTop := s.heapTop + 2 } k it, .value d, []⟩ := by
  simp [CachedData.getData, lockedBlock_filled s hk hd]

theorem getData_value (s : CachedData TData TId E) {k : TId} {it : ICacheItem TData TId}
    {f : Nat} {d : TData} (hk : Assoc.find s.m_cacheItemById k = some it)
    (hf : it.kind = .Empty f) (hs : Assoc.find s.shared f = some (.ok d))
    (a_db : TId → Except E TData) :
    s.getData k a_db = .ok ⟨fill (touch { s with heapTop := s.heapTop + 2 } k it) k
        { it with Count := s.m_count } d, .value d, []⟩ := by
  simp [CachedData.getData, lockedBlock_value s hk hf hs]

theorem getData_error (s : CachedData TData TId E) {k : TId} {it : ICacheItem TData TId}
    {f : Nat} {e : E} (hk : Assoc.find s.m_cacheItemById k = some it)
    (hf : it.kind = .Empty f) (hs : Assoc.find s.shared f = some (.error e))
    (a_db : TId → Except E TData) :
    s.getData k a_db =
      .ok ⟨touch { s with heapTop := s.heapTop + 2 } k it, .fetchError e, []⟩ := by
  simp [CachedData.getData, lockedBlock_error s hk hf hs]

theorem getData_waiting {s : CachedData TData TId E} (h : Inv s) {k : TId}
    {it : ICacheItem TData TId} {f : Nat} (hk : Assoc.find s.m_cacheItemById k = some it)
    (hf : it.kind = .Empty f) (hs : Assoc.find s.shared f = none)
    (a_db : TId → Except E TData) :
    s.getData k a_db =
      .ok ⟨{ touch { s with heapTop := s.heapTop + 2 } k it with heapTop := s.heapTop + 3 },
        .tooLong, []⟩ := by
  simp [CachedData.getData, lockedBlock_waiting h hk hf hs, ICacheItem.isWaiting,
    ICacheItem.getData, touch, hs]

theorem getData_miss {s : CachedData TData TId E} (h : Inv s) {k : TId}
    (hk : Assoc.find s.m_cacheItemById k = none) (a_db : TId → Except E TData) :
    ∃ s', lockedBlock s k = .ok (s', .unlocked (promiseItem s k)) ∧
      s.getData k a_db =
        .ok ⟨{ s' with shared := Assoc.assign s'.shared s.heapTop (a_db k) },
          ofResult (a_db k), [k]⟩ := by
  obtain ⟨s', x, hl, hinv, _, _, hsh, _, _⟩ := lockedBlock_inv h k
  obtain ⟨s1, hl1, _⟩ := lockedBlock_miss h hk
  rw [hl1] at hl
  have hs1 : s1 = s' := by
    have := Except.ok.inj hl
    exact (Prod.mk.inj this).1
  subst hs1
  refine ⟨s1, hl1, ?_⟩
  have hfree : Assoc.find s1.shared s.heapTop = none := by
    rw [hsh]
    cases hf : Assoc.find s.shared s.heapTop with
    | none => rfl
    | some r => exact absurd (h.wf.sharedBelow _ _ hf) (Nat.lt_irrefl _)
  have hp : (promiseItem s k).kind = .Promising s.heapTop := rfl
  simp [CachedData.getData, hl1, ICacheItem.isWaiting, hp, publish_promising s1 hp hfree]

/-- A call that runs alone ends, and it keeps the invariant and the capacity. -/
theorem getData_inv {s : CachedData TData TId E} (h : Inv s) (k : TId)
    (a_db : TId → Except E TData) :
    ∃ r, s.getData k a_db = .ok r ∧ Inv r.cache ∧ r.cache.m_maxSize = s.m_maxSize := by
  rcases lockedBlock_cases h k with ⟨it, d, hk, hd, _⟩ | ⟨it, f, d, hk, hf, hs, _⟩ |
    ⟨it, f, e, hk, hf, hs, _⟩ | ⟨it, f, hk, hf, hs, _⟩ | ⟨hk, _⟩
  · exact ⟨_, getData_filled s hk hd a_db, (h.inv_alloc 2).inv_of_touch hk, rfl⟩
  · refine ⟨_, getData_value s hk hf hs a_db, ((h.inv_alloc 2).inv_of_touch hk).inv_of_fill ?_ d, rfl⟩
    rw [find_touch_id]; simp
  · exact ⟨_, getData_error s hk hf hs a_db, (h.inv_alloc 2).inv_of_touch hk, rfl⟩
  · exact ⟨_, getData_waiting h hk hf hs a_db, ((h.inv_alloc 2).inv_of_touch hk).inv_alloc 1, rfl⟩
  · obtain ⟨s', hl, hg⟩ := getData_miss h hk a_db
    obtain ⟨s2, x, hl2, hinv, hmax, _, _, hge, _⟩ := lockedBlock_inv h k
    rw [hl] at hl2
    have hs1 : s' = s2 := (Prod.mk.inj (Except.ok.inj hl2)).1
    subst hs1
    exact ⟨_, hg, hinv.inv_setShared (by omega) _, hmax⟩

/-! ## Overlapping calls -/

/-- Where the local item of a call that leaves the block through its end comes
from: it is the promise of a miss, or a waiter on the future of the item found. -/
theorem lockedBlock_exit {s s' : CachedData TData TId E} (h : Inv s) {k : TId}
    {x : ICacheItem TData TId} (hl : lockedBlock s k = .ok (s', .unlocked x)) :
    (x = promiseItem s k ∧ Assoc.find s.m_cacheItemById k = none) ∨
    (∃ it f, Assoc.find s.m_cacheItemById k = some it ∧ it.kind = .Empty f ∧
      Assoc.find s.shared f = none ∧
      x = { addr := s.heapTop + 2, Id := it.Id, Count := s.m_count, kind := .Waiting f }) := by
  rcases lockedBlock_cases h k with ⟨it, d, hk, _, hl2⟩ | ⟨it, f, d, hk, _, _, hl2⟩ |
    ⟨it, f, e, hk, _, _, hl2⟩ | ⟨it, f, hk, hf, hs, hl2⟩ | ⟨hk, s2, hl2⟩
  · rw [hl2] at hl; cases hl
  · rw [hl2] at hl; cases hl
  · rw [hl2] at hl; cases hl
  · rw [hl2] at hl
    have := (Prod.mk.inj (Except.ok.inj hl)).2
    exact Or.inr ⟨it, f, hk, hf, hs, (Exit.unlocked.inj this).symm⟩
  · rw [hl2] at hl
    have := (Prod.mk.inj (Except.ok.inj hl)).2
    exact Or.inl ⟨(Exit.unlocked.inj this).symm, hk⟩

/-- An `EmptyCacheItem` resident after the block was resident before it with the
same future, or it is the item this call has just added. -/
theorem lockedBlock_resident {s s' : CachedData TData TId E} (h : Inv s) {k : TId}
    {x : Exit TData TId E} (hl : lockedBlock s k = .ok (s', x)) {k' : TId}
    {it' : ICacheItem TData TId} {f : Nat}
    (hk' : Assoc.find s'.m_cacheItemById k' = some it') (hf : it'.kind = .Empty f) :
    (∃ it0, Assoc.find s.m_cacheItemById k' = some it0 ∧ it0.kind = .Empty f) ∨
    (k' = k ∧ f = s.heapTop ∧ Assoc.find s.m_cacheItemById k = none) := by
  have touched : ∀ it, Assoc.find s.m_cacheItemById k = some it →
      Assoc.find (touch { s with heapTop := s.heapTop + 2 } k it).m_cacheItemById k' = some it' →
      ∃ it0, Assoc.find s.m_cacheItemById k' = some it0 ∧ it0.kind = .Empty f := by
    intro it hk ht
    rw [find_touch_id] at ht
    by_cases hkk : k' = k
    · simp only [hkk, if_true, Option.some.injEq] at ht
      subst ht
      exact ⟨it, by rw [hkk]; exact hk, hf⟩
    · simp only [hkk, if_false] at ht
      exact ⟨it', ht, hf⟩
  rcases lockedBlock_cases h k with ⟨it, d, hk, _, hl2⟩ | ⟨it, f2, d, hk, _, _, hl2⟩ |
    ⟨it, f2, e, hk, _, _, hl2⟩ | ⟨it, f2, hk, _, _, hl2⟩ | ⟨hk, _⟩
  · rw [hl2] at hl
    have := (Prod.mk.inj (Except.ok.inj hl)).1
    subst this
    exact Or.inl (touched it hk hk')
  · rw [hl2] at hl
    have := (Prod.mk.inj (Except.ok.inj hl)).1
    subst this
    rw [find_fill_id] at hk'
    by_cases hkk : k' = k
    · simp only [hkk, if_true, Option.some.injEq] at hk'
      subst hk'
      simp [filledItem] at hf
    · simp only [hkk, if_false] at hk'
      exact Or.inl (touched it hk hk')
  · rw [hl2] at hl
    have := (Prod.mk.inj (Except.ok.inj hl)).1
    subst this
    exact Or.inl (touched it hk hk')
  · rw [hl2] at hl
    have := (Prod.mk.inj (Except.ok.inj hl)).1
    subst this
    exact Or.inl (touched it hk hk')
  · obtain ⟨s2, hl2, _, hdesc⟩ := lockedBlock_miss h hk
    rw [hl2] at hl
    have hs2 := (Prod.mk.inj (Except.ok.inj hl)).1
    subst hs2
    have added : Assoc.find
        (add { s with heapTop := s.heapTop + 2 } k (emptyItem s k)).m_cacheItemById k' = some it' := by
      rcases hdesc with ⟨_, rfl⟩ | ⟨_, victim, _, _, _, rfl⟩
      · exact hk'
      · have hk2 : Assoc.find (Assoc.erase
            (add { s with heapTop := s.heapTop + 2 } k (emptyItem s k)).m_cacheItemById victim.Id) k'
              = some it' := hk'
        rw [Assoc.find_erase] at hk2
        by_cases hv : k' = victim.Id
        · simp [hv] at hk2
        · simpa [hv] using hk2
    rw [find_add_id] at added
    by_cases hkk : k' = k
    · simp only [hkk, if_true, Option.some.injEq] at added
      subst added
      have : f = s.heapTop := by
        simp only [emptyItem] at hf
        exact (ItemKind.Empty.inj hf).symm
      exact Or.inr ⟨hkk, this, hk⟩
    · simp only [hkk, if_false] at added
      exact Or.inl ⟨it', added, hf⟩

omit [DecidableEq TId] in
theorem CallOK.mono {s s' : CachedData TData TId E} {c : Call TData TId E} (h : CallOK s c)
    (hsh : s'.shared = s.shared) (hheap : s.heapTop ≤ s'.heapTop) : CallOK s' c := by
  obtain ⟨a_id, ph⟩ := c
  cases ph with
  | returned o => trivial
  | unlocked it =>
    rcases h with ⟨p, h1, h2, h3⟩ | ⟨f, h1, h2⟩
    · exact Or.inl ⟨p, h1, by omega, by rw [hsh]; exact h3⟩
    · exact Or.inr ⟨f, h1, by omega⟩
  | fetching it =>
    obtain ⟨p, h1, h2, h3⟩ := h
    exact ⟨p, h1, by omega, by rw [hsh]; exact h3⟩
  | fetched it r =>
    obtain ⟨p, h1, h2, h3⟩ := h
    exact ⟨p, h1, by omega, by rw [hsh]; exact h3⟩
  | finished it o =>
    rcases h with ⟨p, r, h1, h2, h3, h4⟩ | ⟨f, h1, h2, h3⟩
    · exact Or.inl ⟨p, r, h1, by omega, by rw [hsh]; exact h3, h4⟩
    · refine Or.inr ⟨f, h1, by omega, ?_⟩
      rcases h3 with h3 | ⟨r, h3, h4⟩
      · exact Or.inl h3
      · exact Or.inr ⟨r, by rw [hsh]; exact h3, h4⟩

omit [DecidableEq TId] in
theorem CallOK.publish {s : CachedData TData TId E} {c : Call TData TId E} (h : CallOK s c)
    {p : Nat} (hc : c.promise ≠ some p) (hs : Assoc.find s.shared p = none) (r : Except E TData) :
    CallOK { s with shared := Assoc.assign s.shared p r } c := by
  have keep : ∀ q x, Assoc.find s.shared q = some x →
      Assoc.find (Assoc.assign s.shared p r) q = some x := by
    intro q x hq
    rw [Assoc.find_assign]
    by_cases hqp : q = p
    · subst hqp; rw [hs] at hq; cases hq
    · simp only [hqp, if_false]; exact hq
  obtain ⟨a_id, ph⟩ := c
  cases ph with
  | returned o => trivial
  | unlocked it =>
    rcases h with ⟨q, h1, h2, h3⟩ | ⟨f, h1, h2⟩
    · have hqp : q ≠ p := by
        intro hq; apply hc; simp [Call.promise, Phase.item, h1, hq]
      exact Or.inl ⟨q, h1, h2, by
        show Assoc.find (Assoc.assign s.shared p r) q = none
        rw [Assoc.find_assign]; simp only [hqp, if_false]; exact h3⟩
    · exact Or.inr ⟨f, h1, h2⟩
  | fetching it =>
    obtain ⟨q, h1, h2, h3⟩ := h
    have hqp : q ≠ p := by
      intro hq; apply hc; simp [Call.promise, Phase.item, h1, hq]
    exact ⟨q, h1, h2, by
      show Assoc.find (Assoc.assign s.shared p r) q = none
      rw [Assoc.find_assign]; simp only [hqp, if_false]; exact h3⟩
  | fetched it r0 =>
    obtain ⟨q, h1, h2, h3⟩ := h
    have hqp : q ≠ p := by
      intro hq; apply hc; simp [Call.promise, Phase.item, h1, hq]
    exact ⟨q, h1, h2, by
      show Assoc.find (Assoc.assign s.shared p r) q = none
      rw [Assoc.find_assign]; simp only [hqp, if_false]; exact h3⟩
  | finished it o =>
    rcases h with ⟨q, x, h1, h2, h3, h4⟩ | ⟨f, h1, h2, h3⟩
    · exact Or.inl ⟨q, x, h1, h2, keep q x h3, h4⟩
    · refine Or.inr ⟨f, h1, h2, ?_⟩
      rcases h3 with h3 | ⟨x, h3, h4⟩
      · exact Or.inl h3
      · exact Or.inr ⟨x, keep f x h3, h4⟩

omit [DecidableEq TId] in
theorem CallOK.promise_lt {s : CachedData TData TId E} {c : Call TData TId E} (h : CallOK s c)
    {p : Nat} (hp : c.promise = some p) : p < s.heapTop := by
  obtain ⟨a_id, ph⟩ := c
  cases ph with
  | returned o => simp [Call.promise, Phase.item] at hp
  | unlocked it =>
    rcases h with ⟨q, h1, h2, _⟩ | ⟨f, h1, _⟩
    · simp [Call.promise, Phase.item, h1] at hp; omega
    · simp [Call.promise, Phase.item, h1] at hp
  | fetching it =>
    obtain ⟨q, h1, h2, _⟩ := h
    simp [Call.promise, Phase.item, h1] at hp; omega
  | fetched it r0 =>
    obtain ⟨q, h1, h2, _⟩ := h
    simp [Call.promise, Phase.item, h1] at hp; omega
  | finished it o =>
    rcases h with ⟨q, x, h1, h2, _⟩ | ⟨f, h1, _⟩
    · simp [Call.promise, Phase.item, h1] at hp; omega
    · simp [Call.promise, Phase.item, h1] at hp

omit [DecidableEq TId] in
theorem CallOK.waitsOn_lt {s : CachedData TData TId E} {c : Call TData TId E} (h : CallOK s c)
    {f : Nat} (hf : c.waitsOn = some f) : f < s.heapTop := by
  obtain ⟨a_id, ph⟩ := c
  cases ph with
  | returned o => simp [Call.waitsOn, Phase.item] at hf
  | unlocked it =>
    rcases h with ⟨q, h1, _, _⟩ | ⟨g, h1, h2⟩
    · simp [Call.waitsOn, Phase.item, h1] at hf
    · simp [Call.waitsOn, Phase.item, h1] at hf; omega
  | fetching it =>
    obtain ⟨q, h1, _, _⟩ := h
    simp [Call.waitsOn, Phase.item, h1] at hf
  | fetched it r0 =>
    obtain ⟨q, h1, _, _⟩ := h
    simp [Call.waitsOn, Phase.item, h1] at hf
  | finished it o =>
    rcases h with ⟨q, x, h1, _⟩ | ⟨g, h1, h2, _⟩
    · simp [Call.waitsOn, Phase.item, h1] at hf
    · simp [Call.waitsOn, Phase.item, h1] at hf; omega

omit [DecidableEq TId] in
theorem getElem?_concat_cases {l : List (Call TData TId E)} {c cj : Call TData TId E} {j : Nat}
    (h : (l ++ [c])[j]? = some cj) :
    (j < l.length ∧ l[j]? = some cj) ∨ (j = l.length ∧ cj = c) := by
  rw [List.getElem?_append] at h
  by_cases hj : j < l.length
  · simp only [hj, if_true] at h
    exact Or.inl ⟨hj, h⟩
  · simp only [hj, if_false] at h
    have hlen : j - l.length < 1 := by
      by_contra hge
      rw [List.getElem?_eq_none (by simp only [List.length_singleton]; omega)] at h
      cases h
    have hj0 : j - l.length = 0 := by omega
    rw [hj0] at h
    simp at h
    exact Or.inr ⟨by omega, h.symm⟩

omit [DecidableEq TId] in
theorem getElem?_set_cases {l : List (Call TData TId E)} {c cj : Call TData TId E} {i j : Nat}
    (h : (l.set i c)[j]? = some cj) :
    (j = i ∧ cj = c) ∨ (j ≠ i ∧ l[j]? = some cj) := by
  rw [List.getElem?_set] at h
  by_cases hij : i = j
  · simp only [hij, if_true] at h
    by_cases hlen : j < l.length
    · simp only [hlen, if_true, Option.some.injEq] at h
      exact Or.inl ⟨hij.symm, h.symm⟩
    · simp [hlen] at h
  · simp only [hij, if_false] at h
    exact Or.inr ⟨fun x => hij x.symm, h⟩

/-- A new call joins the pool after its block under the mutex. -/
theorem PoolInv.append {sys : System TData TId E} (h : PoolInv sys)
    {s' : CachedData TData TId E} {c : Call TData TId E} (hinv : Inv s')
    (hsh : s'.shared = sys.cache.shared) (hheap : sys.cache.heapTop ≤ s'.heapTop)
    (hok : CallOK s' c)
    (hfresh : ∀ p, c.promise = some p →
      p = sys.cache.heapTop ∧ Assoc.find sys.cache.m_cacheItemById c.a_id = none)
    (hres : ∀ k' it' f, Assoc.find s'.m_cacheItemById k' = some it' → it'.kind = .Empty f →
      (∃ it0, Assoc.find sys.cache.m_cacheItemById k' = some it0 ∧ it0.kind = .Empty f) ∨
      (k' = c.a_id ∧ f = sys.cache.heapTop))
    (hwait : ∀ f, c.waitsOn = some f →
      ∃ it, Assoc.find sys.cache.m_cacheItemById c.a_id = some it ∧ it.kind = .Empty f) :
    PoolInv { cache := s', calls := sys.calls ++ [c] } := by
  have oldLt : ∀ (j : Nat) (cj : Call TData TId E) (p : Nat),
      sys.calls[j]? = some cj → cj.promise = some p → p < sys.cache.heapTop :=
    fun j cj p hj hp => (h.callOK j cj hj).promise_lt hp
  refine
    { inv := hinv, callOK := ?_, distinct := ?_, publishedBy := ?_, residentOwner := ?_,
      superseded := ?_, waiterKey := ?_ }
  rotate_left 5
  · intro i j ci cj f hi hj hw hp
    rcases getElem?_concat_cases hi with ⟨_, hi2⟩ | ⟨_, hic⟩
    · rcases getElem?_concat_cases hj with ⟨_, hj2⟩ | ⟨_, hjc⟩
      · exact h.waiterKey i j ci cj f hi2 hj2 hw hp
      · rw [hjc] at hp
        have h1 := (hfresh f hp).1
        have h2 := (h.callOK i ci hi2).waitsOn_lt hw
        omega
    · rw [hic] at hw ⊢
      obtain ⟨it, hk, hkind⟩ := hwait f hw
      rcases getElem?_concat_cases hj with ⟨_, hj2⟩ | ⟨_, hjc⟩
      · exact (h.residentOwner c.a_id it f hk hkind j cj hj2 hp).symm
      · rw [hjc]
  · intro j cj hj
    rcases getElem?_concat_cases hj with ⟨_, hj⟩ | ⟨_, rfl⟩
    · exact (h.callOK j cj hj).mono hsh hheap
    · exact hok
  · intro i j ci cj p hi hj hpi hpj
    rcases getElem?_concat_cases hi with ⟨hil, hi2⟩ | ⟨hil, hic⟩
    · rcases getElem?_concat_cases hj with ⟨hjl, hj2⟩ | ⟨hjl, hjc⟩
      · exact h.distinct i j ci cj p hi2 hj2 hpi hpj
      · have := oldLt i ci p hi2 hpi
        rw [hjc] at hpj
        have := (hfresh p hpj).1
        omega
    · rcases getElem?_concat_cases hj with ⟨hjl, hj2⟩ | ⟨hjl, hjc⟩
      · have := oldLt j cj p hj2 hpj
        rw [hic] at hpi
        have := (hfresh p hpi).1
        omega
      · omega
  · intro p r hp
    rw [hsh] at hp
    obtain ⟨j, a_id, it, hj, hit⟩ := h.publishedBy p r hp
    refine ⟨j, a_id, it, ?_, hit⟩
    have hjl : j < sys.calls.length := (List.getElem?_eq_some.1 hj).1
    rw [List.getElem?_append_left hjl]; exact hj
  · intro k it f hk hf j cj hj hp
    rcases hres k it f hk hf with ⟨it0, hk0, hf0⟩ | ⟨hkc, hfh⟩
    · rcases getElem?_concat_cases hj with ⟨_, hj⟩ | ⟨_, rfl⟩
      · exact h.residentOwner k it0 f hk0 hf0 j cj hj hp
      · have h1 := (hfresh f hp).1
        rcases h.inv.wf.kinds k it0 hk0 with ⟨f', hf', hlt⟩ | ⟨d, hd⟩
        · rw [hf0] at hf'
          have := ItemKind.Empty.inj hf'
          omega
        · rw [hf0] at hd; cases hd
    · rcases getElem?_concat_cases hj with ⟨_, hj⟩ | ⟨_, rfl⟩
      · have := oldLt j cj f hj hp
        omega
      · exact hkc.symm
  · intro i j ci cj p hij hi hj hid hpi hpj it hk hkind
    have hil : i < sys.calls.length := by
      rcases getElem?_concat_cases hj with ⟨hjl, _⟩ | ⟨hjl, _⟩ <;> omega
    rcases getElem?_concat_cases hi with ⟨_, hi⟩ | ⟨hil2, _⟩
    · have hplt := oldLt i ci p hi hpi
      rcases hres ci.a_id it p hk hkind with ⟨it0, hk0, hf0⟩ | ⟨_, hfh⟩
      · rcases getElem?_concat_cases hj with ⟨_, hj⟩ | ⟨_, rfl⟩
        · exact h.superseded i j ci cj p hij hi hj hid hpi hpj it0 hk0 hf0
        · cases hq : cj.promise with
          | none => exact hpj hq
          | some q =>
            have := (hfresh q hq).2
            rw [← hid, hk0] at this
            cases this
      · omega
    · omega

/-- One call of the pool moves on; the indices of the cache stay as they are. -/
theorem PoolInv.update {sys : System TData TId E} (h : PoolInv sys)
    {s' : CachedData TData TId E} {i : Nat} {c c' : Call TData TId E}
    (hi : sys.calls[i]? = some c) (hid : c'.a_id = c.a_id) (hpr : c'.promise = c.promise)
    (hwo : c'.waitsOn = c.waitsOn)
    (hinv : Inv s') (hbyId : s'.m_cacheItemById = sys.cache.m_cacheItemById)
    (hok : ∀ (j : Nat) (cj : Call TData TId E),
      (sys.calls.set i c')[j]? = some cj → CallOK s' cj)
    (hpub : ∀ p r, Assoc.find s'.shared p = some r →
      ∃ (j : Nat) (a_id : TId) (it : ICacheItem TData TId),
        (sys.calls.set i c')[j]? = some ⟨a_id, .finished it (ofResult r)⟩ ∧
          it.kind = .Promising p) :
    PoolInv { cache := s', calls := sys.calls.set i c' } := by
  have back : ∀ (j : Nat) (cj : Call TData TId E), (sys.calls.set i c')[j]? = some cj →
      ∃ cj0, sys.calls[j]? = some cj0 ∧ cj0.a_id = cj.a_id ∧ cj0.promise = cj.promise ∧
        cj0.waitsOn = cj.waitsOn := by
    intro j cj hj
    rcases getElem?_set_cases hj with ⟨rfl, rfl⟩ | ⟨_, hj⟩
    · exact ⟨c, hi, hid.symm, hpr.symm, hwo.symm⟩
    · exact ⟨cj, hj, rfl, rfl, rfl⟩
  refine
    { inv := hinv, callOK := hok, distinct := ?_, publishedBy := hpub, residentOwner := ?_,
      superseded := ?_, waiterKey := ?_ }
  rotate_left 3
  · intro a b ca cb f ha hb hw hp
    obtain ⟨ca0, ha0, hida, _, hwa0⟩ := back a ca ha
    obtain ⟨cb0, hb0, hidb, hpb0, _⟩ := back b cb hb
    rw [← hida, ← hidb]
    exact h.waiterKey a b ca0 cb0 f ha0 hb0 (hwa0.trans hw) (hpb0.trans hp)
  · intro a b ca cb p ha hb hpa hpb
    obtain ⟨ca0, ha0, _, hpa0, _⟩ := back a ca ha
    obtain ⟨cb0, hb0, _, hpb0, _⟩ := back b cb hb
    exact h.distinct a b ca0 cb0 p ha0 hb0 (hpa0.trans hpa) (hpb0.trans hpb)
  · intro k it f hk hf j cj hj hp
    obtain ⟨cj0, hj0, hid0, hp0, _⟩ := back j cj hj
    rw [← hid0]
    exact h.residentOwner k it f (by rw [← hbyId]; exact hk) hf j cj0 hj0 (hp0.trans hp)
  · intro a b ca cb p hab ha hb hidab hpa hpb it hk hkind
    obtain ⟨ca0, ha0, hida, hpa0, _⟩ := back a ca ha
    obtain ⟨cb0, hb0, hidb, hpb0, _⟩ := back b cb hb
    refine h.superseded a b ca0 cb0 p hab ha0 hb0 (by rw [hida, hidb]; exact hidab)
      (hpa0.trans hpa) (by rw [hpb0]; exact hpb) it ?_ hkind
    rw [hida, ← hbyId]; exact hk

/-- A call changes phase without touching the cache. -/
theorem PoolInv.advance {sys : System TData TId E} (h : PoolInv sys) {i : Nat}
    {c c' : Call TData TId E} (hi : sys.calls[i]? = some c) (hid : c'.a_id = c.a_id)
    (hpr : c'.promise = c.promise) (hwo : c'.waitsOn = c.waitsOn) (hok : CallOK sys.cache c')
    (hnf : ∀ it o, c.phase ≠ .finished it o) :
    PoolInv { sys with calls := sys.calls.set i c' } := by
  refine h.update hi hid hpr hwo h.inv rfl ?_ ?_
  · intro j cj hj
    rcases getElem?_set_cases hj with ⟨_, rfl⟩ | ⟨_, hj⟩
    · exact hok
    · exact h.callOK j cj hj
  · intro p r hp
    obtain ⟨j, a_id, it, hj, hit⟩ := h.publishedBy p r hp
    have hji : i ≠ j := by
      intro hij; subst hij
      rw [hi] at hj
      have := Option.some.inj hj
      exact hnf it (ofResult r) (by rw [this])
    exact ⟨j, a_id, it, by rw [List.getElem?_set_ne hji]; exact hj, hit⟩

/-- Every atomic step keeps the invariant of the pool. -/
theorem PoolInv.step {sys sys' : System TData TId E} (h : PoolInv sys)
    {ev : Event TData TId E} (hs : sys.step ev = some sys') : PoolInv sys' := by
  cases ev with
  | call k =>
    obtain ⟨s', x, hl, hinv, _, _, hsh, hge, _⟩ := lockedBlock_inv h.inv k
    have hres := fun k' it' f (hk' : Assoc.find s'.m_cacheItemById k' = some it')
        (hf : it'.kind = ItemKind.Empty f) =>
      lockedBlock_resident h.inv hl hk' hf
    cases x with
    | returned o =>
      simp only [System.step, hl, Option.some.injEq] at hs
      subst hs
      refine h.append hinv hsh (by omega) trivial ?_ ?_ ?_
      · intro p hp; simp [Call.promise, Phase.item] at hp
      · intro k' it' f hk' hf
        rcases hres k' it' f hk' hf with h1 | ⟨h1, h2, _⟩
        · exact Or.inl h1
        · exact Or.inr ⟨h1, h2⟩
      · intro f hf; simp [Call.waitsOn, Phase.item] at hf
    | unlocked it =>
      simp only [System.step, hl, Option.some.injEq] at hs
      subst hs
      rcases lockedBlock_exit h.inv hl with ⟨hit, hk⟩ | ⟨it0, f, hk, hf, _, hit⟩
      · refine h.append hinv hsh (by omega) ?_ ?_ ?_ ?_
        rotate_left 3
        · intro f hf
          rw [hit] at hf
          simp [Call.waitsOn, Phase.item, promiseItem] at hf
        · refine Or.inl ⟨sys.cache.heapTop, by rw [hit]; rfl, by omega, ?_⟩
          rw [hsh]
          cases hf : Assoc.find sys.cache.shared sys.cache.heapTop with
          | none => rfl
          | some r => exact absurd (h.inv.wf.sharedBelow _ _ hf) (Nat.lt_irrefl _)
        · intro p hp
          rw [hit] at hp
          simp only [Call.promise, Phase.item, promiseItem, Option.some.injEq] at hp
          exact ⟨hp.symm, hk⟩
        · intro k' it' f hk' hf
          rcases hres k' it' f hk' hf with h1 | ⟨h1, h2, _⟩
          · exact Or.inl h1
          · exact Or.inr ⟨h1, h2⟩
      · have hflt : f < sys.cache.heapTop := by
          rcases h.inv.wf.kinds k it0 hk with ⟨f', hf', hlt⟩ | ⟨d, hd⟩
          · rw [hf] at hf'; have := ItemKind.Empty.inj hf'; omega
          · rw [hf] at hd; cases hd
        refine h.append hinv hsh (by omega) ?_ ?_ ?_ ?_
        rotate_left 3
        · intro f' hf'
          rw [hit] at hf'
          simp only [Call.waitsOn, Phase.item, Option.some.injEq] at hf'
          exact ⟨it0, hk, by rw [← hf']; exact hf⟩
        · exact Or.inr ⟨f, by rw [hit], by omega⟩
        · intro p hp
          rw [hit] at hp
          simp [Call.promise, Phase.item] at hp
        · intro k' it' f hk' hf
          rcases hres k' it' f hk' hf with h1 | ⟨h1, h2, _⟩
          · exact Or.inl h1
          · exact Or.inr ⟨h1, h2⟩
  | wake i =>
    simp only [System.step] at hs
    split at hs
    · rename_i a_id it hi
      split at hs
      · rename_i hw
        split at hs
        · cases hs
        · rename_i o ho
          simp only [Option.some.injEq] at hs
          subst hs
          have hc := h.callOK i _ hi
          refine h.advance hi rfl rfl rfl ?_ (fun _ _ hx => by cases hx)
          rcases hc with ⟨p, h1, _, _⟩ | ⟨f, h1, h2⟩
          · simp [ICacheItem.isWaiting, h1] at hw
          · refine Or.inr ⟨f, h1, h2, ?_⟩
            simp only [ICacheItem.getData, h1] at ho
            cases hf : Assoc.find sys.cache.shared f with
            | none =>
              rw [hf] at ho
              exact Or.inl (Except.ok.inj ho).symm
            | some r =>
              rw [hf] at ho
              exact Or.inr ⟨r, rfl, (Except.ok.inj ho).symm⟩
      · cases hs
    · cases hs
  | fetchStart i =>
    simp only [System.step] at hs
    split at hs
    · rename_i a_id it hi
      split at hs
      · cases hs
      · rename_i hw
        simp only [Option.some.injEq] at hs
        subst hs
        have hc := h.callOK i _ hi
        refine h.advance hi rfl rfl rfl ?_ (fun _ _ hx => by cases hx)
        rcases hc with ⟨p, h1, h2, h3⟩ | ⟨f, h1, h2⟩
        · exact ⟨p, h1, h2, h3⟩
        · simp [ICacheItem.isWaiting, h1] at hw
    · cases hs
  | fetchEnd i r =>
    simp only [System.step] at hs
    split at hs
    · rename_i a_id it hi
      simp only [Option.some.injEq] at hs
      subst hs
      have hc0 : CallOK sys.cache ⟨a_id, .fetching it⟩ := h.callOK i _ hi
      have hc : CallOK sys.cache ⟨a_id, .fetched it r⟩ := hc0
      exact h.advance hi rfl rfl rfl hc (fun _ _ hx => by cases hx)
    · cases hs
  | publish i =>
    simp only [System.step] at hs
    split at hs
    · rename_i a_id it r hi
      obtain ⟨p, h1, h2, h3⟩ := h.callOK i _ hi
      rw [publish_promising sys.cache h1 h3 r] at hs
      simp only [Option.some.injEq] at hs
      subst hs
      have hil : i < sys.calls.length := (List.getElem?_eq_some.1 hi).1
      refine h.update hi rfl rfl rfl (h.inv.inv_setShared h2 r) rfl ?_ ?_
      · intro j cj hj
        rcases getElem?_set_cases hj with ⟨_, rfl⟩ | ⟨hji, hj⟩
        · exact Or.inl ⟨p, r, h1, h2, Assoc.find_assign_self _ _ _, rfl⟩
        · refine (h.callOK j cj hj).publish ?_ h3 r
          intro hp
          exact hji (h.distinct j i cj _ p hj hi hp (by simp [Call.promise, Phase.item, h1]))
      · intro q x hq
        have hq' : Assoc.find (Assoc.assign sys.cache.shared p r) q = some x := hq
        rw [Assoc.find_assign] at hq'
        by_cases hqp : q = p
        · simp only [hqp, if_true, Option.some.injEq] at hq'
          subst hq'
          refine ⟨i, a_id, it, ?_, by rw [hqp]; exact h1⟩
          rw [List.getElem?_set_self hil]
        · simp only [hqp, if_false] at hq'
          obtain ⟨j, a2, it2, hj, hit2⟩ := h.publishedBy q x hq'
          have hji : i ≠ j := by
            intro hij; subst hij
            rw [hi] at hj
            cases hj
          exact ⟨j, a2, it2, by rw [List.getElem?_set_ne hji]; exact hj, hit2⟩
    · cases hs

theorem PoolInv.pool_init (a_maxSize : Nat) : PoolInv (System.init a_maxSize : System TData TId E) where
  inv := Inv.inv_init a_maxSize
  callOK := fun i c hi => by simp [System.init] at hi
  distinct := fun i j ci cj p hi => by simp [System.init] at hi
  publishedBy := fun p r hp => by simp [System.init, CachedData.init, Assoc.find] at hp
  residentOwner := fun k it f hk => by simp [System.init, CachedData.init, Assoc.find] at hk
  superseded := fun i j ci cj p _ hi => by simp [System.init] at hi
  waiterKey := fun i j ci cj f hi => by simp [System.init] at hi

theorem PoolInv.run {sys : System TData TId E} (h : PoolInv sys) :
    ∀ (evs : List (Event TData TId E)) {sys' : System TData TId E},
      sys.run evs = some sys' → PoolInv sys' := by
  intro evs
  induction evs generalizing sys with
  | nil => intro sys' hr; simp only [System.run, Option.some.injEq] at hr; subst hr; exact h
  | cons ev rest ih =>
    intro sys' hr
    simp only [System.run] at hr
    cases hs : sys.step ev with
    | none => rw [hs] at hr; cases hr
    | some sys1 =>
      rw [hs] at hr
      exact ih (h.step hs) hr

/-- Every reachable state satisfies the invariant of the pool. -/
theorem Reachable.poolInv {sys : System TData TId E} (h : Reachable sys) : PoolInv sys := by
  obtain ⟨m, evs, hr⟩ := h
  exact (PoolInv.pool_init m).run evs hr

/-! ## Calls made one after another -/

theorem runCalls_inv {s : CachedData TData TId E} (h : Inv s) :
    ∀ (calls : List (TId × (TId → Except E TData))),
      ∃ s' log, runCalls s calls = .ok (s', log) ∧ Inv s' ∧ s'.m_maxSize = s.m_maxSize := by
  intro calls
  induction calls generalizing s with
  | nil => exact ⟨s, [], rfl, h, rfl⟩
  | cons c rest ih =>
    obtain ⟨k, a_db⟩ := c
    obtain ⟨r, hr, hinv, hmax⟩ := getData_inv h k a_db
    obtain ⟨s', log, hrun, hinv', hmax'⟩ := ih hinv
    exact ⟨s', r.fetches ++ log, by simp [runCalls, hr, hrun], hinv', hmax'.trans hmax⟩

theorem Inv.sizes {s : CachedData TData TId E} (h : Inv s) :
    Assoc.size s.m_cacheItemById ≤ s.m_maxSize ∧ Assoc.size s.m_cacheItemByCount ≤ s.m_maxSize :=
  ⟨h.sizeLe, by rw [h.wf.sizeEq]; exact h.sizeLe⟩

theorem run_maxSize {sys : System TData TId E} :
    ∀ (evs : List (Event TData TId E)) {sys' : System TData TId E}, PoolInv sys →
      sys.run evs = some sys' → sys'.cache.m_maxSize = sys.cache.m_maxSize := by
  intro evs
  induction evs generalizing sys with
  | nil => intro sys' _ hr; simp only [System.run, Option.some.injEq] at hr; subst hr; rfl
  | cons ev rest ih =>
    intro sys' hp hr
    simp only [System.run] at hr
    cases hs : sys.step ev with
    | none => rw [hs] at hr; cases hr
    | some sys1 =>
      rw [hs] at hr
      have h1 := ih (hp.step hs) hr
      rw [h1]
      cases ev with
      | call k =>
        obtain ⟨s', x, hl, _, hmax, _⟩ := lockedBlock_inv hp.inv k
        cases x with
        | returned o =>
          simp only [System.step, hl, Option.some.injEq] at hs
          subst hs; exact hmax
        | unlocked it =>
          simp only [System.step, hl, Option.some.injEq] at hs
          subst hs; exact hmax
      | wake i =>
        simp only [System.step] at hs
        split at hs
        · split at hs
          · split at hs
            · cases hs
            · simp only [Option.some.injEq] at hs; subst hs; rfl
          · cases hs
        · cases hs
      | fetchStart i =>
        simp only [System.step] at hs
        split at hs
        · split at hs
          · cases hs
          · simp only [Option.some.injEq] at hs; subst hs; rfl
        · cases hs
      | fetchEnd i r =>
        simp only [System.step] at hs
        split at hs
        · simp only [Option.some.injEq] at hs; subst hs; rfl
        · cases hs
      | publish i =>
        simp only [System.step] at hs
        split at hs
        · rename_i a_id it r hi
          obtain ⟨p, h1, h2, h3⟩ := hp.callOK i _ hi
          rw [publish_promising sys.cache h1 h3 r] at hs
          simp only [Option.some.injEq] at hs
          subst hs; rfl
        · cases hs

/-- C1 (capacity invariant).  For every `a_maxSize`: a sequence of calls made one
after another on a new cache runs to its end (no assertion of lines 86-87 fails,
whatever the sources answer) and leaves at most `a_maxSize` entries in the key
index and in the position index; and the same bounds hold in every state that
overlapping calls can reach, where moreover the block under the mutex of any
further call passes its assertions. -/
theorem C1_capacity_invariant (TData TId E : Type) [DecidableEq TId] (a_maxSize : Nat) :
    (∀ (calls : List (TId × (TId → Except E TData))),
      ∃ s log, runCalls (CachedData.init a_maxSize : CachedData TData TId E) calls = .ok (s, log) ∧
        Assoc.size s.m_cacheItemById ≤ a_maxSize ∧
        Assoc.size s.m_cacheItemByCount ≤ a_maxSize) ∧
    (∀ (evs : List (Event TData TId E)) (sys : System TData TId E),
      System.run (System.init a_maxSize) evs = some sys →
        Assoc.size sys.cache.m_cacheItemById ≤ a_maxSize ∧
        Assoc.size sys.cache.m_cacheItemByCount ≤ a_maxSize ∧
        ∀ k, ∃ s' x, lockedBlock sys.cache k = .ok (s', x) ∧
          Assoc.size s'.m_cacheItemById ≤ a_maxSize ∧
          Assoc.size s'.m_cacheItemByCount ≤ a_maxSize) := by
  constructor
  · intro calls
    obtain ⟨s, log, hrun, hinv, hmax⟩ := runCalls_inv (Inv.inv_init a_maxSize) calls
    have hm : s.m_maxSize = a_maxSize := hmax
    have := hinv.sizes
    rw [hm] at this
    exact ⟨s, log, hrun, this⟩
  · intro evs sys hr
    have hp : PoolInv sys := (PoolInv.pool_init a_maxSize).run evs hr
    have hm : sys.cache.m_maxSize = a_maxSize := run_maxSize evs (PoolInv.pool_init a_maxSize) hr
    have hsz := hp.inv.sizes
    rw [hm] at hsz
    refine ⟨hsz.1, hsz.2, ?_⟩
    intro k
    obtain ⟨s', x, hl, hinv, hmax, _⟩ := lockedBlock_inv hp.inv k
    have := hinv.sizes
    rw [hmax, hm] at this
    exact ⟨s', x, hl, this⟩

/-- C1 on a schedule in which two calls for key 7 overlap a call for key 8. -/
theorem C1_capacity_invariant_witness :
    ∃ sys : System Nat Nat Nat,
      System.run (System.init 1) [.call 7, .fetchStart 0, .call 8, .call 7] = some sys ∧
        Assoc.size sys.cache.m_cacheItemById ≤ 1 ∧ Assoc.size sys.cache.m_cacheItemByCount ≤ 1 :=
  ⟨_, rfl,
    ((C1_capacity_invariant Nat Nat Nat 1).2 [.call 7, .fetchStart 0, .call 8, .call 7] _ rfl).1,
    ((C1_capacity_invariant Nat Nat Nat 1).2 [.call 7, .fetchStart 0, .call 8, .call 7] _ rfl).2.1⟩

/-- The key index after a miss: the items that were resident (the victim of an
eviction apart) and the item just added. -/
theorem lockedBlock_miss_find {s s' : CachedData TData TId E} (h : Inv s) {k : TId}
    (hk : Assoc.find s.m_cacheItemById k = none) {x : Exit TData TId E}
    (hl : lockedBlock s k = .ok (s', x)) {k' : TId} {it' : ICacheItem TData TId}
    (hk' : Assoc.find s'.m_cacheItemById k' = some it') :
    (k' ≠ k ∧ Assoc.find s.m_cacheItemById k' = some it') ∨
    (k' = k ∧ it' = { emptyItem s k with Count := s.m_count }) := by
  obtain ⟨s2, hl2, _, hdesc⟩ := lockedBlock_miss h hk
  rw [hl2] at hl
  have hs2 := (Prod.mk.inj (Except.ok.inj hl)).1
  subst hs2
  have added : Assoc.find
      (add { s with heapTop := s.heapTop + 2 } k (emptyItem s k)).m_cacheItemById k' = some it' := by
    rcases hdesc with ⟨_, rfl⟩ | ⟨_, victim, _, _, _, rfl⟩
    · exact hk'
    · have hk2 : Assoc.find (Assoc.erase
          (add { s with heapTop := s.heapTop + 2 } k (emptyItem s k)).m_cacheItemById victim.Id) k'
            = some it' := hk'
      rw [Assoc.find_erase] at hk2
      by_cases hv : k' = victim.Id
      · simp [hv] at hk2
      · simpa [hv] using hk2
  rw [find_add_id] at added
  by_cases hkk : k' = k
  · simp only [hkk, if_true, Option.some.injEq] at added
    exact Or.inr ⟨hkk, added.symm⟩
  · simp only [hkk, if_false] at added
    exact Or.inl ⟨hkk, added⟩

theorem Agrees.of_kinds {f : TId → Except E TData} {s s' : CachedData TData TId E}
    (ha : Agrees f s) (hsh : s'.shared = s.shared)
    (hk : ∀ k' it', Assoc.find s'.m_cacheItemById k' = some it' →
      (∃ it0, Assoc.find s.m_cacheItemById k' = some it0 ∧ it0.kind = it'.kind) ∨
      (∃ d, it'.kind = .Filled d ∧ f k' = .ok d)) : Agrees f s' := by
  intro k' it' hk'
  rcases hk k' it' hk' with ⟨it0, h0, hkind⟩ | ⟨d, hd, hfd⟩
  · obtain ⟨h1, h2⟩ := ha k' it0 h0
    rw [hkind] at h1 h2
    exact ⟨h1, fun p hp => by rw [hsh]; exact h2 p hp⟩
  · constructor
    · intro d' hd'
      rw [hd] at hd'
      rw [← ItemKind.Filled.inj hd']; exact hfd
    · intro p hp
      rw [hd] at hp; cases hp

theorem touch_kinds (s : CachedData TData TId E) {k : TId} {it : ICacheItem TData TId}
    (hk : Assoc.find s.m_cacheItemById k = some it) (n : Nat) {k' : TId}
    {it' : ICacheItem TData TId}
    (hk' : Assoc.find (touch { s with heapTop := s.heapTop + n } k it).m_cacheItemById k' = some it') :
    ∃ it0, Assoc.find s.m_cacheItemById k' = some it0 ∧ it0.kind = it'.kind := by
  rw [find_touch_id] at hk'
  by_cases hkk : k' = k
  · simp only [hkk, if_true, Option.some.injEq] at hk'
    subst hk'
    exact ⟨it, by rw [hkk]; exact hk, rfl⟩
  · simp only [hkk, if_false] at hk'
    exact ⟨it', hk', rfl⟩

/-- One call against the source `f` on a cache that agrees with `f`: it hands
back what `f` answers for the key, and the cache still agrees with `f`. -/
theorem getData_agrees {f : TId → Except E TData} {s : CachedData TData TId E} (h : Inv s)
    (ha : Agrees f s) (k : TId) :
    ∃ r, s.getData k f = .ok r ∧ Inv r.cache ∧ Agrees f r.cache ∧
      r.outcome = ofResult (f k) := by
  obtain ⟨r0, hr0, hinv0, _⟩ := getData_inv h k f
  rcases lockedBlock_cases h k with ⟨it, d, hk, hd, _⟩ | ⟨it, f2, d, hk, hf, hs, _⟩ |
    ⟨it, f2, e, hk, hf, hs, _⟩ | ⟨it, f2, hk, hf, hs, _⟩ | ⟨hk, _⟩
  · have hg := getData_filled s hk hd f
    rw [hg] at hr0
    have hr := Except.ok.inj hr0
    subst hr
    refine ⟨_, hg, hinv0, ?_, ?_⟩
    · exact ha.of_kinds rfl (fun k' it' hk' => Or.inl (touch_kinds s hk 2 hk'))
    · show Outcome.value d = ofResult (f k)
      rw [(ha k it hk).1 d hd]; rfl
  · have hg := getData_value s hk hf hs f
    rw [hg] at hr0
    have hr := Except.ok.inj hr0
    subst hr
    have hfk : f k = .ok d := by
      have := (ha k it hk).2 f2 hf
      rw [hs] at this
      exact (Option.some.inj this).symm
    refine ⟨_, hg, hinv0, ?_, ?_⟩
    · refine ha.of_kinds rfl (fun k' it' hk' => ?_)
      rw [find_fill_id] at hk'
      by_cases hkk : k' = k
      · simp only [hkk, if_true, Option.some.injEq] at hk'
        subst hk'
        exact Or.inr ⟨d, rfl, by rw [hkk]; exact hfk⟩
      · simp only [hkk, if_false] at hk'
        exact Or.inl (touch_kinds s hk 2 hk')
    · show Outcome.value d = ofResult (f k)
      rw [hfk]; rfl
  · have hg := getData_error s hk hf hs f
    rw [hg] at hr0
    have hr := Except.ok.inj hr0
    subst hr
    have hfk : f k = .error e := by
      have := (ha k it hk).2 f2 hf
      rw [hs] at this
      exact (Option.some.inj this).symm
    refine ⟨_, hg, hinv0, ?_, ?_⟩
    · exact ha.of_kinds rfl (fun k' it' hk' => Or.inl (touch_kinds s hk 2 hk'))
    · show Outcome.fetchError e = ofResult (f k)
      rw [hfk]; rfl
  · have := (ha k it hk).2 f2 hf
    rw [hs] at this; cases this
  · obtain ⟨s', hl, hg⟩ := getData_miss h hk f
    obtain ⟨s2, x, hl2, _, _, _, hsh, _, _⟩ := lockedBlock_inv h k
    rw [hl] at hl2
    have hs1 : s' = s2 := (Prod.mk.inj (Except.ok.inj hl2)).1
    subst hs1
    rw [hg] at hr0
    have hr := Except.ok.inj hr0
    subst hr
    refine ⟨_, hg, hinv0, ?_, rfl⟩
    intro k' it' hk'
    have hk2 : Assoc.find s'.m_cacheItemById k' = some it' := hk'
    show (∀ d, it'.kind = .Filled d → f k' = .ok d) ∧
      (∀ p, it'.kind = .Empty p → Assoc.find (Assoc.assign s'.shared s.heapTop (f k)) p = some (f k'))
    rcases lockedBlock_miss_find h hk hl hk2 with ⟨hne, hold⟩ | ⟨heq, hit⟩
    · obtain ⟨h1, h2⟩ := ha k' it' hold
      refine ⟨h1, fun p hp => ?_⟩
      have hplt : p < s.heapTop := by
        rcases h.wf.kinds k' it' hold with ⟨f', hf', hlt⟩ | ⟨d, hd⟩
        · rw [hp] at hf'; have := ItemKind.Empty.inj hf'; omega
        · rw [hp] at hd; cases hd
      rw [Assoc.find_assign, hsh]
      have : ¬ p = s.heapTop := by omega
      simp only [this, if_false]
      exact h2 p hp
    · subst hit
      constructor
      · intro d hd; simp [emptyItem] at hd
      · intro p hp
        have : p = s.heapTop := by
          simp only [emptyItem] at hp
          exact (ItemKind.Empty.inj hp).symm
        rw [Assoc.find_assign, heq]
        simp [this]

theorem Agrees.agrees_init (f : TId → Except E TData) (a_maxSize : Nat) :
    Agrees f (CachedData.init a_maxSize : CachedData TData TId E) := by
  intro k it hk
  simp [CachedData.init, Assoc.find] at hk

theorem runCalls_agrees {f : TId → Except E TData} {s : CachedData TData TId E} (h : Inv s)
    (ha : Agrees f s) :
    ∀ (ks : List TId), ∃ s' log, runCalls s (ks.map (fun a => (a, f))) = .ok (s', log) ∧
      Inv s' ∧ Agrees f s' := by
  intro ks
  induction ks generalizing s with
  | nil => exact ⟨s, [], rfl, h, ha⟩
  | cons k rest ih =>
    obtain ⟨r, hr, hinv, hag, _⟩ := getData_agrees h ha k
    obtain ⟨s', log, hrun, hinv', hag'⟩ := ih hinv hag
    exact ⟨s', r.fetches ++ log, by simp [runCalls, hr, hrun], hinv', hag'⟩

/-- C2 (read-through transparency).  With a deterministic source `f`, after any
sequence `ks` of calls made one after another on a new cache of any capacity,
the next call `getData(k, f)`, made directly or through
`CachingDatabase::fetchProductDetails`, ends and hands back exactly what `f`
answers for `k`: its value, or its error.  As `ks` is arbitrary this covers
every call of a sequence, be it a miss, a hit, or a hit after eviction and
re-insertion. -/
theorem C2_read_through (TData TId E : Type) [DecidableEq TId] (a_maxSize : Nat)
    (f : TId → Except E TData) (ks : List TId) (k : TId) :
    ∃ s log r,
      runCalls (CachedData.init a_maxSize : CachedData TData TId E) (ks.map (fun a => (a, f)))
        = .ok (s, log) ∧
      s.getData k f = .ok r ∧ CachingDatabase.fetchProductDetails s f k = .ok r ∧
      r.outcome = ofResult (f k) := by
  obtain ⟨s, log, hrun, hinv, hag⟩ :=
    runCalls_agrees (Inv.inv_init a_maxSize) (Agrees.agrees_init f a_maxSize) ks
  obtain ⟨r, hr, _, _, hout⟩ := getData_agrees hinv hag k
  exact ⟨s, log, r, hrun, hr, hr, hout⟩

theorem exampleSys_reachable : Reachable exampleSys := ⟨2, exampleEvents, rfl⟩

/-- C3 (cache hit correctness).  In every state of the cache, reachable or not,
in which key `k` is resident and its fetch has ended with the value `v` (the
item holds `v`, or it is still future-backed and the future holds `v`), a call
`getData(k, a_db)` ends, hands back `v` and makes no call of
`fetchProductDetails`, whatever `a_db` would answer; run among overlapping calls
it returns from inside the block under the mutex.  Afterwards `k` is resident
with a value-holding item that holds `v`, so the same is true of the next hit. -/
theorem C3_cache_hit (TData TId E : Type) [DecidableEq TId] (s : CachedData TData TId E)
    (k : TId) (v : TData) (h : CompletedWith s k v) (a_db : TId → Except E TData) :
    ∃ r, s.getData k a_db = .ok r ∧ r.outcome = .value v ∧ r.fetches = [] ∧
      (∃ it, Assoc.find r.cache.m_cacheItemById k = some it ∧ it.kind = .Filled v) ∧
      CompletedWith r.cache k v ∧
      ∀ calls : List (Call TData TId E),
        System.step { cache := s, calls := calls } (.call k) =
          some { cache := r.cache, calls := calls ++ [⟨k, .returned (.value v)⟩] } := by
  obtain ⟨it, hk, hkind⟩ := h
  rcases hkind with hd | ⟨f, hf, hs⟩
  · have hfind : Assoc.find (touch { s with heapTop := s.heapTop + 2 } k it).m_cacheItemById k
        = some { it with Count := s.m_count } := by rw [find_touch_id]; simp
    refine ⟨_, getData_filled s hk hd a_db, rfl, rfl, ⟨_, hfind, hd⟩, ⟨_, hfind, Or.inl hd⟩, ?_⟩
    intro calls
    simp [System.step, lockedBlock_filled s hk hd]
  · have hfind : Assoc.find (fill (touch { s with heapTop := s.heapTop + 2 } k it) k
        { it with Count := s.m_count } v).m_cacheItemById k
        = some (filledItem (touch { s with heapTop := s.heapTop + 2 } k it)
            { it with Count := s.m_count } v) := by rw [find_fill_id]; simp
    refine ⟨_, getData_value s hk hf hs a_db, rfl, rfl, ⟨_, hfind, rfl⟩,
      ⟨_, hfind, Or.inl rfl⟩, ?_⟩
    intro calls
    simp [System.step, lockedBlock_value s hk hf hs]

/-- C3 on the example: key 2 is resident, still future-backed, and its future
holds 20; a source that now fails is not asked. -/
theorem C3_cache_hit_witness :
    CompletedWith exampleCache 2 20 ∧
      ∃ r, exampleCache.getData 2 (fun _ => .error 0) = .ok r ∧ r.outcome = .value 20 ∧
        r.fetches = [] :=
  have hc : CompletedWith exampleCache 2 20 := ⟨_, rfl, Or.inr ⟨2, rfl, rfl⟩⟩
  ⟨hc, (C3_cache_hit Nat Nat Nat exampleCache 2 20 hc (fun _ => .error 0)).imp
    (fun _ hr => ⟨hr.1, hr.2.1, hr.2.2.1⟩)⟩

/-- C4 (eviction correctness).  In every reachable state, when a miss on `k`
makes the position index larger than `m_maxSize` (the test of line 68), the
block under the mutex ends, and the item it erases from both indices is the
resident item whose position is the least among the resident items (the new
item included), which is the only one at that position; the scan from
`m_nextToDelete` stops exactly at that position and finds the pointer to that
item. -/
theorem C4_eviction_correctness (TData TId E : Type) [DecidableEq TId]
    (sys : System TData TId E) (h : Reachable sys) (k : TId)
    (hk : Assoc.find sys.cache.m_cacheItemById k = none)
    (hover : Assoc.size (missAdded sys.cache k).m_cacheItemByCount > sys.cache.m_maxSize) :
    ∃ victim s',
      lockedBlock sys.cache k = .ok (s', .unlocked (promiseItem sys.cache k)) ∧
      Assoc.find (missAdded sys.cache k).m_cacheItemById victim.Id = some victim ∧
      (∀ k' it', Assoc.find (missAdded sys.cache k).m_cacheItemById k' = some it' →
        victim.Count ≤ it'.Count ∧ (it'.Count = victim.Count → k' = victim.Id)) ∧
      scan (missAdded sys.cache k).m_cacheItemByCount sys.cache.m_nextToDelete
        = some (victim.Count, victim.addr) ∧
      s'.m_cacheItemById = Assoc.erase (missAdded sys.cache k).m_cacheItemById victim.Id ∧
      s'.m_cacheItemByCount =
        Assoc.erase (missAdded sys.cache k).m_cacheItemByCount victim.Count ∧
      Assoc.find s'.m_cacheItemById victim.Id = none ∧
      Assoc.find s'.m_cacheItemByCount victim.Count = none := by
  have hinv := h.poolInv.inv
  have hwf1 := hinv.wf.of_add hk
  have hsz := @size_add TData TId E _ { sys.cache with heapTop := sys.cache.heapTop + 2 }
    (hinv.wf.alloc 2) k (emptyItem sys.cache k)
  obtain ⟨s', hl, _, hdesc⟩ := lockedBlock_miss hinv hk
  rcases hdesc with ⟨hlt, _⟩ | ⟨_, victim, hres, hmin, hscan, rfl⟩
  · have h2 : Assoc.size (missAdded sys.cache k).m_cacheItemByCount
        = Assoc.size sys.cache.m_cacheItemById + 1 := hsz.2
    omega
  · refine ⟨victim, _, hl, hres, ?_, hscan, rfl, rfl, ?_, ?_⟩
    · intro k' it' hk'
      exact ⟨hmin k' it' hk', fun hc => hwf1.count_inj hk' hres hc⟩
    · exact Assoc.find_erase_self _ _
    · exact Assoc.find_erase_self _ _

/-- C4 on the example: a miss on key 3 finds the cache full; position 1 is a gap
left by the refreshed key 1, and the item erased is that of key 2, at position 2. -/
theorem C4_eviction_correctness_witness :
    Reachable exampleSys ∧ Assoc.find exampleSys.cache.m_cacheItemById 3 = none ∧
      Assoc.size (missAdded exampleSys.cache 3).m_cacheItemByCount > exampleSys.cache.m_maxSize ∧
      ∃ victim s',
        lockedBlock exampleSys.cache 3 = .ok (s', .unlocked (promiseItem exampleSys.cache 3)) ∧
        Assoc.find (missAdded exampleSys.cache 3).m_cacheItemById victim.Id = some victim ∧
        s'.m_cacheItemById = Assoc.erase (missAdded exampleSys.cache 3).m_cacheItemById victim.Id :=
  ⟨exampleSys_reachable, rfl, by decide,
    (C4_eviction_correctness Nat Nat Nat exampleSys exampleSys_reachable 3 rfl (by decide)).imp
      (fun _ hv => hv.imp (fun _ hs => ⟨hs.1, hs.2.1, hs.2.2.2.2.1⟩))⟩

/-- With room for at least one item, the item a miss adds is still resident when
the block under the mutex ends. -/
theorem lockedBlock_miss_keeps {s s' : CachedData TData TId E} (h : Inv s) {k : TId}
    (hk : Assoc.find s.m_cacheItemById k = none) (hcap : 1 ≤ s.m_maxSize)
    {x : Exit TData TId E} (hl : lockedBlock s k = .ok (s', x)) :
    Assoc.find s'.m_cacheItemById k = some { emptyItem s k with Count := s.m_count } ∧
      Assoc.find s'.m_cacheItemByCount s.m_count = some (s.heapTop + 1) := by
  obtain ⟨s2, hl2, _, hdesc⟩ := lockedBlock_miss h hk
  rw [hl2] at hl
  have hs2 := (Prod.mk.inj (Except.ok.inj hl)).1
  subst hs2
  have hnew : Assoc.find
      (add { s with heapTop := s.heapTop + 2 } k (emptyItem s k)).m_cacheItemById k
        = some { emptyItem s k with Count := s.m_count } := by
    rw [find_add_id]; simp
  have hcnt : Assoc.find
      (add { s with heapTop := s.heapTop + 2 } k (emptyItem s k)).m_cacheItemByCount s.m_count
        = some (s.heapTop + 1) := by
    rw [find_add_count]; simp [emptyItem]
  rcases hdesc with ⟨_, rfl⟩ | ⟨hfull, victim, hres, hmin, _, rfl⟩
  · exact ⟨hnew, hcnt⟩
  · -- some item was resident before, at a position below `m_count`
    have hlt : victim.Count < s.m_count := by
      cases hb : s.m_cacheItemById with
      | nil => rw [hb] at hfull; simp [Assoc.size] at hfull; omega
      | cons e t =>
        have he : Assoc.find s.m_cacheItemById e.1 = some e.2 := by
          rw [hb]; simp [Assoc.find]
        have hne : e.1 ≠ k := by
          intro hek; rw [hek, hk] at he; cases he
        have he' : Assoc.find
            (add { s with heapTop := s.heapTop + 2 } k (emptyItem s k)).m_cacheItemById e.1
              = some e.2 := by
          rw [find_add_id]; simp only [hne, if_false]; exact he
        have h1 := hmin e.1 e.2 he'
        have h2 := (h.wf.bounds _ _ (h.wf.idOf _ _ he).2.1).2
        omega
    have hvk : ¬ k = victim.Id := by
      intro hkv
      rw [← hkv, hnew] at hres
      have := Option.some.inj hres
      rw [← this] at hlt
      exact Nat.lt_irrefl _ hlt
    have hvc : ¬ s.m_count = victim.Count := by omega
    constructor
    · show Assoc.find (Assoc.erase _ victim.Id) k = _
      rw [Assoc.find_erase]; simp only [hvk, if_false]; exact hnew
    · show Assoc.find (Assoc.erase _ victim.Count) s.m_count = _
      rw [Assoc.find_erase]; simp only [hvc, if_false]; exact hcnt

/-- A miss that runs alone.  In every reachable state, a call `getData(k, a_db)`
for a key that is not resident, run with no step of another call in between,
ends, calls `fetchProductDetails(k)` exactly once and hands back its answer.
When `m_maxSize` is at least 1 the key is resident afterwards, as a new item: an
`EmptyCacheItem` at an address and with a future that nothing in the old cache
had, stamped with the value the counter had when the call began and registered
under it in the position index; its future holds the answer. -/
theorem getData_miss_alone (TData TId E : Type) [DecidableEq TId]
    (sys : System TData TId E) (h : Reachable sys) (k : TId)
    (hk : Assoc.find sys.cache.m_cacheItemById k = none) (a_db : TId → Except E TData) :
    ∃ r, sys.cache.getData k a_db = .ok r ∧ r.fetches = [k] ∧ r.outcome = ofResult (a_db k) ∧
      r.cache.m_count = sys.cache.m_count + 1 ∧
      (1 ≤ sys.cache.m_maxSize →
        Assoc.find r.cache.m_cacheItemById k =
          some { addr := sys.cache.heapTop + 1, Id := k, Count := sys.cache.m_count,
                 kind := .Empty sys.cache.heapTop } ∧
        Assoc.find r.cache.m_cacheItemByCount sys.cache.m_count = some (sys.cache.heapTop + 1) ∧
        Assoc.find r.cache.shared sys.cache.heapTop = some (a_db k) ∧
        Assoc.find sys.cache.shared sys.cache.heapTop = none ∧
        ∀ k' it', Assoc.find sys.cache.m_cacheItemById k' = some it' →
          it'.addr < sys.cache.heapTop ∧ it'.kind ≠ .Empty sys.cache.heapTop) := by
  have hinv := h.poolInv.inv
  obtain ⟨s', hl, hg⟩ := getData_miss hinv hk a_db
  obtain ⟨s2, x, hl2, _, _, hcount, _, _, _⟩ := lockedBlock_inv hinv k
  rw [hl] at hl2
  have hs1 : s' = s2 := (Prod.mk.inj (Except.ok.inj hl2)).1
  subst hs1
  refine ⟨_, hg, rfl, rfl, hcount, ?_⟩
  intro hcap
  obtain ⟨h1, h2⟩ := lockedBlock_miss_keeps hinv hk hcap hl
  refine ⟨h1, h2, Assoc.find_assign_self _ _ _, ?_, ?_⟩
  · cases hf : Assoc.find sys.cache.shared sys.cache.heapTop with
    | none => rfl
    | some r => exact absurd (hinv.wf.sharedBelow _ _ hf) (Nat.lt_irrefl _)
  · intro k' it' hk'
    refine ⟨(hinv.wf.idOf k' it' hk').2.2, ?_⟩
    intro hkind
    rcases hinv.wf.kinds k' it' hk' with ⟨f', hf', hlt⟩ | ⟨d, hd⟩
    · rw [hkind] at hf'; have := ItemKind.Empty.inj hf'; omega
    · rw [hkind] at hd; cases hd

/-- On the example: key 3 is not resident; the call, run alone, fetches it once
and leaves it resident at position 4, the value of the counter. -/
theorem getData_miss_alone_example :
    Reachable exampleSys ∧ Assoc.find exampleSys.cache.m_cacheItemById 3 = none ∧
      ∃ r, exampleSys.cache.getData 3 (fun a => .ok (10 * a)) = .ok r ∧ r.fetches = [3] ∧
        r.outcome = .value 30 ∧
        Assoc.find r.cache.m_cacheItemById 3 =
          some { addr := 8, Id := 3, Count := 4, kind := .Empty 7 } :=
  ⟨exampleSys_reachable, rfl,
    (getData_miss_alone Nat Nat Nat exampleSys exampleSys_reachable 3 rfl
      (fun a => .ok (10 * a))).imp
      (fun _ hr => ⟨hr.1, hr.2.1, hr.2.2.1, (hr.2.2.2.2 (by decide)).1⟩)⟩

/-! ## The reference LRU list -/

theorem take_erase_take (k : TId) : ∀ (L : List TId) (m : Nat),
    ((L.take (m + 1)).erase k).take m = (L.erase k).take m := by
  intro L
  induction L with
  | nil => intro m; simp
  | cons a t ih =>
    intro m
    by_cases hak : a = k
    · subst hak
      simp [List.take_succ_cons]
    · have hbeq : ¬ (a == k) = true := by simpa using hak
      rw [List.take_succ_cons, List.erase_cons_tail hbeq, List.erase_cons_tail hbeq]
      cases m with
      | zero => simp
      | succ n => rw [List.take_succ_cons, List.take_succ_cons, ih n]

theorem lruTouch_take (cap : Nat) (L : List TId) (k : TId) :
    lruTouch cap (L.take cap) k = (k :: L.erase k).take cap := by
  unfold lruTouch
  cases cap with
  | zero => simp
  | succ m => rw [List.take_succ_cons, List.take_succ_cons, take_erase_take]

theorem foldl_lruTouch_take (cap : Nat) : ∀ (ks L : List TId),
    ks.foldl (lruTouch cap) (L.take cap) = (ks.foldl (fun l k => k :: l.erase k) L).take cap := by
  intro ks
  induction ks with
  | nil => intro L; rfl
  | cons k rest ih =>
    intro L
    simp only [List.foldl_cons]
    rw [lruTouch_take, ih]

/-- The reference LRU cache holds the `cap` most recently requested distinct keys. -/
theorem refLRU_eq_take (cap : Nat) (ks : List TId) :
    refLRU cap ks = (recentFirst ks).take cap := by
  have := foldl_lruTouch_take cap ks ([] : List TId)
  simpa [refLRU, recentFirst] using this

theorem foldl_recent (ks : List TId) : ∀ (acc : List TId), acc.Nodup →
    (ks.foldl (fun l k => k :: l.erase k) acc).Nodup ∧
      ∀ x, x ∈ ks.foldl (fun l k => k :: l.erase k) acc ↔ x ∈ acc ∨ x ∈ ks := by
  induction ks with
  | nil => intro acc h; exact ⟨h, fun x => by simp⟩
  | cons k rest ih =>
    intro acc h
    have hn : (k :: acc.erase k).Nodup :=
      List.nodup_cons.2 ⟨h.not_mem_erase, h.erase k⟩
    obtain ⟨h1, h2⟩ := ih (k :: acc.erase k) hn
    refine ⟨h1, fun x => ?_⟩
    simp only [List.foldl_cons]
    rw [h2 x]
    by_cases hx : x = k
    · subst hx; simp
    · simp [hx, List.mem_erase_of_ne hx]

theorem recentFirst_length (ks : List TId) : (recentFirst ks).length = ks.dedup.length := by
  obtain ⟨h1, h2⟩ := foldl_recent ks [] List.nodup_nil
  have hp : (recentFirst ks).Perm ks.dedup :=
    (List.perm_ext_iff_of_nodup h1 (List.nodup_dedup ks)).2
      (fun x => by rw [List.mem_dedup]; simpa [recentFirst] using h2 x)
  exact hp.length_eq

/-! ## The cache keeps the keys of the reference LRU list -/

theorem LruRel.length_eq {byId : List (TId × ICacheItem TData TId)} {l : List TId}
    (h : LruRel byId l) (hn : (Assoc.keys byId).Nodup) : l.length = Assoc.size byId := by
  have hp : l.Perm (Assoc.keys byId) :=
    (List.perm_ext_iff_of_nodup h.nodup hn).2 (fun x => by
      rw [h.mem x, ← not_iff_not, not_not, Assoc.find_eq_none_iff])
  rw [hp.length_eq, Assoc.size_eq_length_keys]

/-- A resident key moves to position `c`, above all others. -/
theorem LruRel.hit {byId byId' : List (TId × ICacheItem TData TId)} {l : List TId}
    (h : LruRel byId l) {k : TId} {c : Nat} (hk : k ∈ l)
    (hmem : ∀ k', Assoc.find byId' k' ≠ none ↔ Assoc.find byId k' ≠ none)
    (hpos : positionIn byId' k = c)
    (hother : ∀ k', k' ≠ k → positionIn byId' k' = positionIn byId k')
    (hbelow : ∀ k', k' ∈ l → positionIn byId k' < c) :
    LruRel byId' (k :: l.erase k) where
  nodup := List.nodup_cons.2 ⟨h.nodup.not_mem_erase, h.nodup.erase k⟩
  mem := fun k' => by
    rw [hmem k', ← h.mem k']
    by_cases hx : k' = k
    · subst hx
      simp [hk]
    · simp [hx, List.mem_erase_of_ne hx]
  sorted := by
    refine List.pairwise_cons.2 ⟨?_, ?_⟩
    · intro b hb
      have hbk : b ≠ k := fun hbk => h.nodup.not_mem_erase (hbk ▸ hb)
      rw [hpos, hother b hbk]; exact hbelow b (List.mem_of_mem_erase hb)
    · have hs := List.Pairwise.sublist (List.erase_sublist k l) h.sorted
      refine List.Pairwise.imp_of_mem ?_ hs
      intro a b ha hb hab
      have hak : a ≠ k := fun hak => h.nodup.not_mem_erase (hak ▸ ha)
      have hbk : b ≠ k := fun hbk => h.nodup.not_mem_erase (hbk ▸ hb)
      rw [hother a hak, hother b hbk]; exact hab

/-- A new key enters at position `c`, above all others. -/
theorem LruRel.added {byId byId' : List (TId × ICacheItem TData TId)} {l : List TId}
    (h : LruRel byId l) {k : TId} {c : Nat} (hk : Assoc.find byId k = none)
    (hmem : ∀ k', Assoc.find byId' k' ≠ none ↔ k' = k ∨ Assoc.find byId k' ≠ none)
    (hpos : positionIn byId' k = c)
    (hother : ∀ k', k' ≠ k → positionIn byId' k' = positionIn byId k')
    (hbelow : ∀ k', k' ∈ l → positionIn byId k' < c) :
    LruRel byId' (k :: l) where
  nodup := List.nodup_cons.2 ⟨fun hin => (h.mem k).1 hin hk, h.nodup⟩
  mem := fun k' => by
    rw [hmem k', ← h.mem k']; simp
  sorted := by
    have hkl : k ∉ l := fun hin => (h.mem k).1 hin hk
    refine List.pairwise_cons.2 ⟨?_, ?_⟩
    · intro b hb
      have hbk : b ≠ k := fun hbk => hkl (hbk ▸ hb)
      rw [hpos, hother b hbk]; exact hbelow b hb
    · refine List.Pairwise.imp_of_mem ?_ h.sorted
      intro a b ha hb hab
      have hak : a ≠ k := fun hak => hkl (hak ▸ ha)
      have hbk : b ≠ k := fun hbk => hkl (hbk ▸ hb)
      rw [hother a hak, hother b hbk]; exact hab

/-- The resident item with the least position is the last of the list; erasing
it drops the last element. -/
theorem LruRel.evicted {byId : List (TId × ICacheItem TData TId)} {L : List TId}
    (h : LruRel byId L) (hne : L ≠ []) {victim : ICacheItem TData TId}
    (hres : Assoc.find byId victim.Id = some victim)
    (hmin : ∀ k' it', Assoc.find byId k' = some it' → victim.Count ≤ it'.Count) :
    LruRel (Assoc.erase byId victim.Id) L.dropLast := by
  have hsplit := List.dropLast_append_getLast hne
  have hnd : (L.dropLast ++ [L.getLast hne]).Nodup := by rw [hsplit]; exact h.nodup
  have hso : (L.dropLast ++ [L.getLast hne]).Pairwise
      (fun a b => positionIn byId b < positionIn byId a) := by rw [hsplit]; exact h.sorted
  rw [List.nodup_append] at hnd
  rw [List.pairwise_append] at hso
  obtain ⟨hnd1, _, hdisj⟩ := hnd
  obtain ⟨hso1, _, hcross⟩ := hso
  have hzlast : ∀ x, x ∈ L.dropLast → x ≠ L.getLast hne := by
    intro x hx hxe
    exact hdisj hx (by rw [hxe]; exact List.mem_singleton_self _)
  have hvL : victim.Id ∈ L := (h.mem _).2 (by rw [hres]; simp)
  have hz : victim.Id = L.getLast hne := by
    by_contra hvz
    have hvd : victim.Id ∈ L.dropLast := by
      rw [← hsplit] at hvL
      rcases List.mem_append.1 hvL with h1 | h1
      · exact h1
      · exact absurd (List.mem_singleton.1 h1) hvz
    have hlt := hcross victim.Id hvd (L.getLast hne) (List.mem_singleton_self _)
    have hzres : Assoc.find byId (L.getLast hne) ≠ none := (h.mem _).1 (List.getLast_mem hne)
    cases hfz : Assoc.find byId (L.getLast hne) with
    | none => exact hzres hfz
    | some itz =>
      have := hmin _ itz hfz
      simp only [positionIn, hfz, hres] at hlt
      omega
  have hpos : ∀ x, x ≠ victim.Id →
      positionIn (Assoc.erase byId victim.Id) x = positionIn byId x := by
    intro x hx
    simp only [positionIn, Assoc.find_erase, hx, if_false]
  refine { nodup := hnd1, mem := ?_, sorted := ?_ }
  · intro x
    rw [Assoc.find_erase]
    by_cases hx : x = victim.Id
    · simp only [hx, if_true, ne_eq, not_true_eq_false, iff_false]
      intro hin
      exact hzlast _ hin hz
    · simp only [hx, if_false]
      rw [← h.mem x]
      constructor
      · exact List.mem_of_mem_dropLast
      · intro hin
        rw [← hsplit] at hin
        rcases List.mem_append.1 hin with h1 | h1
        · exact h1
        · exact absurd ((List.mem_singleton.1 h1).trans hz.symm) hx
  · refine List.Pairwise.imp_of_mem ?_ hso1
    intro a b ha hb hab
    have hak : a ≠ victim.Id := by rw [hz]; exact hzlast a ha
    have hbk : b ≠ victim.Id := by rw [hz]; exact hzlast b hb
    rw [hpos a hak, hpos b hbk]; exact hab

theorem LruRel.below {s : CachedData TData TId E} (hinv : Inv s) {l : List TId}
    (h : LruRel s.m_cacheItemById l) : ∀ k', k' ∈ l → positionIn s.m_cacheItemById k' < s.m_count := by
  intro k' hk'
  have hres := (h.mem k').1 hk'
  cases hf : Assoc.find s.m_cacheItemById k' with
  | none => exact absurd hf hres
  | some it =>
    simp only [positionIn, hf]
    exact (hinv.wf.bounds _ _ (hinv.wf.idOf _ _ hf).2.1).2

/-- A hit moves the key to the front of the list. -/
theorem LruRel.of_hit {s : CachedData TData TId E} (hinv : Inv s) {l : List TId}
    (h : LruRel s.m_cacheItemById l) {k : TId} {it : ICacheItem TData TId}
    (hk : Assoc.find s.m_cacheItemById k = some it) (itNew : ICacheItem TData TId)
    (hc : itNew.Count = s.m_count)
    {byId' : List (TId × ICacheItem TData TId)}
    (hfind : ∀ k', Assoc.find byId' k' =
      if k' = k then some itNew else Assoc.find s.m_cacheItemById k') :
    LruRel byId' (lruTouch s.m_maxSize l k) := by
  have hkl : k ∈ l := (h.mem k).2 (by rw [hk]; simp)
  have hrel : LruRel byId' (k :: l.erase k) := by
    refine h.hit hkl ?_ ?_ ?_ (h.below hinv)
    · intro k'
      rw [hfind k']
      by_cases hx : k' = k
      · subst hx; simp [hk]
      · simp [hx]
    · simp [positionIn, hfind k, hc]
    · intro k' hx
      simp [positionIn, hfind k', hx]
  have hlen := h.length_eq hinv.wf.nodupId
  have hle := hinv.sizeLe
  have hpos : 0 < l.length := List.length_pos_of_mem hkl
  have : (k :: l.erase k).length ≤ s.m_maxSize := by
    simp only [List.length_cons, List.length_erase_of_mem hkl]
    omega
  unfold lruTouch
  rw [List.take_of_length_le this]
  exact hrel

/-- The block under the mutex does to the resident keys what one request does
to the reference LRU list. -/
theorem lockedBlock_lru {s s' : CachedData TData TId E} (hinv : Inv s) {l : List TId}
    (h : LruRel s.m_cacheItemById l) {k : TId} {x : Exit TData TId E}
    (hl : lockedBlock s k = .ok (s', x)) :
    LruRel s'.m_cacheItemById (lruTouch s.m_maxSize l k) := by
  rcases lockedBlock_cases hinv k with ⟨it, d, hk, _, hl2⟩ | ⟨it, f2, d, hk, _, _, hl2⟩ |
    ⟨it, f2, e, hk, _, _, hl2⟩ | ⟨it, f2, hk, _, _, hl2⟩ | ⟨hk, _⟩
  · rw [hl2] at hl
    have := (Prod.mk.inj (Except.ok.inj hl)).1
    subst this
    exact h.of_hit hinv hk { it with Count := s.m_count } rfl
      (fun k' => find_touch_id _ k it k')
  · rw [hl2] at hl
    have := (Prod.mk.inj (Except.ok.inj hl)).1
    subst this
    refine h.of_hit hinv hk
      (filledItem (touch { s with heapTop := s.heapTop + 2 } k it)
        { it with Count := s.m_count } d) rfl ?_
    intro k'
    rw [find_fill_id, find_touch_id]
    by_cases hx : k' = k
    · simp [hx]
    · simp [hx]
  · rw [hl2] at hl
    have := (Prod.mk.inj (Except.ok.inj hl)).1
    subst this
    exact h.of_hit hinv hk { it with Count := s.m_count } rfl
      (fun k' => find_touch_id _ k it k')
  · rw [hl2] at hl
    have := (Prod.mk.inj (Except.ok.inj hl)).1
    subst this
    exact h.of_hit hinv hk { it with Count := s.m_count } rfl
      (fun k' => find_touch_id _ k it k')
  · obtain ⟨s2, hl2, _, hdesc⟩ := lockedBlock_miss hinv hk
    rw [hl2] at hl
    have hs2 := (Prod.mk.inj (Except.ok.inj hl)).1
    subst hs2
    have hkl : k ∉ l := fun hin => (h.mem k).1 hin hk
    have hrel : LruRel (add { s with heapTop := s.heapTop + 2 } k (emptyItem s k)).m_cacheItemById
        (k :: l) := by
      refine h.added hk ?_ ?_ ?_ (h.below hinv)
      · intro k'
        rw [find_add_id]
        by_cases hx : k' = k
        · simp [hx]
        · simp [hx]
      · simp [positionIn, find_add_id]
      · intro k' hx
        simp [positionIn, find_add_id, hx]
    have hlen := h.length_eq hinv.wf.nodupId
    unfold lruTouch
    rw [List.erase_of_not_mem hkl]
    rcases hdesc with ⟨hlt, rfl⟩ | ⟨hfull, victim, hres, hmin, _, rfl⟩
    · have : (k :: l).length ≤ s.m_maxSize := by
        simp only [List.length_cons]; omega
      rw [List.take_of_length_le this]
      exact hrel
    · have hdl : (k :: l).take s.m_maxSize = (k :: l).dropLast := by
        rw [List.dropLast_eq_take]
        simp only [List.length_cons, Nat.add_sub_cancel]
        rw [hlen, hfull]
      rw [hdl]
      exact hrel.evicted (List.cons_ne_nil _ _) hres hmin

/-- A call that runs alone leaves the indices as its block under the mutex made
them. -/
theorem getData_indices {s : CachedData TData TId E} {k : TId} {a_db : TId → Except E TData}
    {r : Result TData TId E} (hr : s.getData k a_db = .ok r) :
    ∃ s' x, lockedBlock s k = .ok (s', x) ∧ r.cache.m_cacheItemById = s'.m_cacheItemById ∧
      r.cache.m_cacheItemByCount = s'.m_cacheItemByCount ∧ r.cache.m_count = s'.m_count ∧
      r.cache.m_nextToDelete = s'.m_nextToDelete := by
  unfold CachedData.getData at hr
  cases hl : lockedBlock s k with
  | error f => rw [hl] at hr; cases hr
  | ok p =>
    obtain ⟨s1, x⟩ := p
    rw [hl] at hr
    cases x with
    | returned o =>
      simp only [Except.ok.injEq] at hr
      subst hr
      exact ⟨s1, _, rfl, rfl, rfl, rfl, rfl⟩
    | unlocked it =>
      simp only at hr
      split at hr
      · split at hr
        · cases hr
        · simp only [Except.ok.injEq] at hr
          subst hr
          exact ⟨s1, _, rfl, rfl, rfl, rfl, rfl⟩
      · split at hr
        · cases hr
        · rename_i s2 o hp
          simp only [Except.ok.injEq] at hr
          subst hr
          refine ⟨s1, _, rfl, ?_⟩
          unfold publish at hp
          split at hp
          · split at hp
            · cases hp
            · simp only [Except.ok.injEq, Prod.mk.injEq] at hp
              obtain ⟨hp1, _⟩ := hp
              subst hp1
              exact ⟨rfl, rfl, rfl, rfl⟩
          · split at hp
            · cases hp
            · simp only [Except.ok.injEq, Prod.mk.injEq] at hp
              obtain ⟨hp1, _⟩ := hp
              subst hp1
              exact ⟨rfl, rfl, rfl, rfl⟩

theorem LruRel.empty : LruRel ([] : List (TId × ICacheItem TData TId)) [] where
  nodup := List.nodup_nil
  mem := fun k => by simp [Assoc.find]
  sorted := List.Pairwise.nil

theorem runCalls_lru {s : CachedData TData TId E} (hinv : Inv s) {l : List TId}
    (h : LruRel s.m_cacheItemById l) :
    ∀ (calls : List (TId × (TId → Except E TData))),
      ∃ s' log, runCalls s calls = .ok (s', log) ∧ Inv s' ∧
        LruRel s'.m_cacheItemById ((calls.map Prod.fst).foldl (lruTouch s.m_maxSize) l) := by
  intro calls
  induction calls generalizing s l with
  | nil => exact ⟨s, [], rfl, hinv, h⟩
  | cons c rest ih =>
    obtain ⟨k, a_db⟩ := c
    obtain ⟨r, hr, hinv1, hmax⟩ := getData_inv hinv k a_db
    obtain ⟨s1, x, hl, hbyId, _⟩ := getData_indices hr
    have h1 : LruRel r.cache.m_cacheItemById (lruTouch s.m_maxSize l k) := by
      rw [hbyId]; exact lockedBlock_lru hinv h hl
    obtain ⟨s', log, hrun, hinv', hrel⟩ := ih hinv1 h1
    refine ⟨s', r.fetches ++ log, by simp [runCalls, hr, hrun], hinv', ?_⟩
    rw [hmax] at hrel
    simpa using hrel

/-- A call that runs alone fetches exactly when its key is not resident. -/
theorem getData_fetches {s : CachedData TData TId E} (hinv : Inv s) {k : TId}
    {a_db : TId → Except E TData} {r : Result TData TId E} (hr : s.getData k a_db = .ok r) :
    (Assoc.find s.m_cacheItemById k ≠ none → r.fetches = []) ∧
    (Assoc.find s.m_cacheItemById k = none → r.fetches = [k]) := by
  rcases lockedBlock_cases hinv k with ⟨it, d, hk, hd, _⟩ | ⟨it, f, d, hk, hf, hs, _⟩ |
    ⟨it, f, e, hk, hf, hs, _⟩ | ⟨it, f, hk, hf, hs, _⟩ | ⟨hk, _⟩
  · rw [getData_filled s hk hd a_db] at hr
    have := Except.ok.inj hr; subst this
    exact ⟨fun _ => rfl, fun hn => by rw [hk] at hn; cases hn⟩
  · rw [getData_value s hk hf hs a_db] at hr
    have := Except.ok.inj hr; subst this
    exact ⟨fun _ => rfl, fun hn => by rw [hk] at hn; cases hn⟩
  · rw [getData_error s hk hf hs a_db] at hr
    have := Except.ok.inj hr; subst this
    exact ⟨fun _ => rfl, fun hn => by rw [hk] at hn; cases hn⟩
  · rw [getData_waiting hinv hk hf hs a_db] at hr
    have := Except.ok.inj hr; subst this
    exact ⟨fun _ => rfl, fun hn => by rw [hk] at hn; cases hn⟩
  · obtain ⟨s', _, hg⟩ := getData_miss hinv hk a_db
    rw [hg] at hr
    have := Except.ok.inj hr; subst this
    exact ⟨fun hn => absurd hk hn, fun _ => rfl⟩

/-- One call that runs alone, seen from the reference LRU list. -/
theorem getData_lru {s : CachedData TData TId E} (hinv : Inv s) {l : List TId}
    (h : LruRel s.m_cacheItemById l) (k : TId) (a_db : TId → Except E TData) :
    ∃ r, s.getData k a_db = .ok r ∧ Inv r.cache ∧ r.cache.m_maxSize = s.m_maxSize ∧
      LruRel r.cache.m_cacheItemById (lruTouch s.m_maxSize l k) ∧
      (k ∈ l → r.fetches = []) ∧ (k ∉ l → r.fetches = [k]) := by
  obtain ⟨r, hr, hinv1, hmax⟩ := getData_inv hinv k a_db
  obtain ⟨s1, x, hl, hbyId, _⟩ := getData_indices hr
  have h1 : LruRel r.cache.m_cacheItemById (lruTouch s.m_maxSize l k) := by
    rw [hbyId]; exact lockedBlock_lru hinv h hl
  obtain ⟨hf1, hf2⟩ := getData_fetches hinv hr
  refine ⟨r, hr, hinv1, hmax, h1, fun hin => hf1 ((h.mem k).1 hin), fun hnin => hf2 ?_⟩
  by_contra hne
  exact hnin ((h.mem k).2 hne)

/-- C5 (least-recently-touched eviction).  For every capacity (0 included) and
every sequence of calls made one after another on a new cache, whatever the
sources answer, the run ends and the resident keys are exactly the keys of a
reference LRU cache of that capacity fed the same keys (`refLRU`), each once;
that list is the first `a_maxSize` of the distinct requested keys ordered from
the most recently requested on, so there are `min a_maxSize d` of them, `d`
being the number of distinct keys requested; and along it positions decrease, so
that a key requested more recently than another resident key has the larger
position and is not the one evicted first.  On the sequence of test.cpp
(capacity 5; 1333, 1334, 1335, 1336, 1338, 1333, 1333, 1337) the resident keys
are 1335, 1336, 1338, 1333, 1337: 1334 has been evicted, not 1333. -/
theorem C5_lru_refinement (TData E : Type) :
    (∀ (K : Type) [DecidableEq K] (a_maxSize : Nat) (calls : List (K × (K → Except E TData))),
      ∃ s log, runCalls (CachedData.init a_maxSize : CachedData TData K E) calls = .ok (s, log) ∧
        s.residentKeys.Nodup ∧
        (∀ k, k ∈ s.residentKeys ↔ k ∈ refLRU a_maxSize (calls.map Prod.fst)) ∧
        refLRU a_maxSize (calls.map Prod.fst)
          = (recentFirst (calls.map Prod.fst)).take a_maxSize ∧
        s.residentKeys.length = min a_maxSize (calls.map Prod.fst).dedup.length ∧
        (refLRU a_maxSize (calls.map Prod.fst)).Pairwise
          (fun a b => positionIn s.m_cacheItemById b < positionIn s.m_cacheItemById a)) ∧
    (∀ (a_db : Nat → Except E TData),
      ∃ s log, runCalls (CachedData.init 5 : CachedData TData Nat E)
          ([1333, 1334, 1335, 1336, 1338, 1333, 1333, 1337].map (fun a => (a, a_db)))
            = .ok (s, log) ∧
        (∀ k, k ∈ s.residentKeys ↔ k ∈ [1335, 1336, 1338, 1333, 1337]) ∧
        1334 ∉ s.residentKeys ∧ 1333 ∈ s.residentKeys) := by
  have main : ∀ (K : Type) [DecidableEq K] (a_maxSize : Nat)
      (calls : List (K × (K → Except E TData))),
      ∃ s log, runCalls (CachedData.init a_maxSize : CachedData TData K E) calls = .ok (s, log) ∧
        s.residentKeys.Nodup ∧
        (∀ k, k ∈ s.residentKeys ↔ k ∈ refLRU a_maxSize (calls.map Prod.fst)) ∧
        refLRU a_maxSize (calls.map Prod.fst)
          = (recentFirst (calls.map Prod.fst)).take a_maxSize ∧
        s.residentKeys.length = min a_maxSize (calls.map Prod.fst).dedup.length ∧
        (refLRU a_maxSize (calls.map Prod.fst)).Pairwise
          (fun a b => positionIn s.m_cacheItemById b < positionIn s.m_cacheItemById a) := by
    intro K _ a_maxSize calls
    obtain ⟨s, log, hrun, hinv, hrel⟩ :=
      runCalls_lru (Inv.inv_init a_maxSize) (LruRel.empty : LruRel
        (CachedData.init a_maxSize : CachedData TData K E).m_cacheItemById []) calls
    have hrel' : LruRel s.m_cacheItemById (refLRU a_maxSize (calls.map Prod.fst)) := hrel
    have hmem : ∀ k, k ∈ s.residentKeys ↔ k ∈ refLRU a_maxSize (calls.map Prod.fst) := by
      intro k
      rw [hrel'.mem k, ← not_iff_not, not_not, Assoc.find_eq_none_iff]
      rfl
    refine ⟨s, log, hrun, hinv.wf.nodupId, hmem, refLRU_eq_take _ _, ?_, hrel'.sorted⟩
    have hlen := hrel'.length_eq hinv.wf.nodupId
    have : s.residentKeys.length = Assoc.size s.m_cacheItemById := by
      simp [CachedData.residentKeys, Assoc.size_eq_length_keys]
    rw [this, ← hlen, refLRU_eq_take, List.length_take, recentFirst_length]
  refine ⟨main, ?_⟩
  intro a_db
  obtain ⟨s, log, hrun, _, hmem, _⟩ := main Nat 5
    ([1333, 1334, 1335, 1336, 1338, 1333, 1333, 1337].map (fun a => (a, a_db)))
  have hl : refLRU 5 (([1333, 1334, 1335, 1336, 1338, 1333, 1333, 1337].map
      (fun a => (a, a_db))).map Prod.fst) = [1337, 1333, 1338, 1336, 1335] := by
    simp only [List.map_map, List.map_cons, List.map_nil, Function.comp]
    decide
  rw [hl] at hmem
  refine ⟨s, log, hrun, ?_, ?_, ?_⟩
  · intro k
    rw [hmem k]
    simp only [List.mem_cons, List.mem_singleton, List.not_mem_nil, or_false]
    constructor <;> intro h <;> omega
  · rw [hmem]; decide
  · rw [hmem]; decide

/-- C6 (scenario).  Capacity 2 and three pairwise distinct keys `A`, `B`, `C`
requested in that order, one call after another, on a new cache, whatever the
sources answer: the three calls invoke the source once each, the resident keys
are then exactly `B` and `C`, and a fourth call `getData(A)` invokes the source
exactly once more, which makes four invocations in all. -/
theorem C6_scenario (TData TId E : Type) [DecidableEq TId] (A B C : TId)
    (hAB : A ≠ B) (hAC : A ≠ C) (hBC : B ≠ C) (dbA dbB dbC dbA' : TId → Except E TData) :
    ∃ s3 r4,
      runCalls (CachedData.init 2 : CachedData TData TId E) [(A, dbA), (B, dbB), (C, dbC)]
        = .ok (s3, [A, B, C]) ∧
      (∀ k, k ∈ s3.residentKeys ↔ k = B ∨ k = C) ∧
      s3.getData A dbA' = .ok r4 ∧ r4.fetches = [A] ∧
      runCalls (CachedData.init 2 : CachedData TData TId E)
        [(A, dbA), (B, dbB), (C, dbC), (A, dbA')] = .ok (r4.cache, [A, B, C, A]) := by
  have hBA : B ≠ A := fun h => hAB h.symm
  have hCA : C ≠ A := fun h => hAC h.symm
  have hCB : C ≠ B := fun h => hBC h.symm
  have h0 : LruRel (CachedData.init 2 : CachedData TData TId E).m_cacheItemById [] :=
    LruRel.empty
  obtain ⟨r1, hr1, hinv1, hmax1, hrel1, _, hf1⟩ := getData_lru (Inv.inv_init 2) h0 A dbA
  have hm1 : r1.cache.m_maxSize = 2 := hmax1
  have hl1 : lruTouch 2 ([] : List TId) A = [A] := by simp [lruTouch]
  rw [show (CachedData.init 2 : CachedData TData TId E).m_maxSize = 2 from rfl, hl1] at hrel1
  obtain ⟨r2, hr2, hinv2, hmax2, hrel2, _, hf2⟩ := getData_lru hinv1 hrel1 B dbB
  have hm2 : r2.cache.m_maxSize = 2 := hmax2.trans hm1
  have hl2 : lruTouch 2 [A] B = [B, A] := by simp [lruTouch, hAB]
  rw [hm1, hl2] at hrel2
  obtain ⟨r3, hr3, hinv3, hmax3, hrel3, _, hf3⟩ := getData_lru hinv2 hrel2 C dbC
  have hl3 : lruTouch 2 [B, A] C = [C, B] := by simp [lruTouch, hAC, hBC]
  rw [hm2, hl3] at hrel3
  obtain ⟨r4, hr4, _, _, _, _, hf4⟩ := getData_lru hinv3 hrel3 A dbA'
  have e1 := hf1 (by simp)
  have e2 := hf2 (by simp [hBA])
  have e3 := hf3 (by simp [hCA, hCB])
  have e4 := hf4 (by simp [hAC, hAB])
  refine ⟨r3.cache, r4, ?_, ?_, hr4, e4, ?_⟩
  · simp [runCalls, hr1, hr2, hr3, e1, e2, e3]
  · intro k
    have : k ∈ r3.cache.residentKeys ↔ Assoc.find r3.cache.m_cacheItemById k ≠ none := by
      rw [← not_iff_not, not_not, Assoc.find_eq_none_iff]; rfl
    rw [this, ← hrel3.mem k]
    simp only [List.mem_cons, List.mem_singleton, List.not_mem_nil, or_false]
    constructor
    · rintro (h | h)
      · exact Or.inr h
      · exact Or.inl h
    · rintro (h | h)
      · exact Or.inr h
      · exact Or.inl h
  · simp [runCalls, hr1, hr2, hr3, hr4, e1, e2, e3, e4]

/-- C6 with the keys 1, 2, 3 and a source that answers ten times the key. -/
theorem C6_scenario_witness :
    (1 : Nat) ≠ 2 ∧ (1 : Nat) ≠ 3 ∧ (2 : Nat) ≠ 3 ∧
      ∃ (s3 : CachedData Nat Nat Nat) (r4 : Result Nat Nat Nat),
        runCalls (CachedData.init 2 : CachedData Nat Nat Nat)
          [(1, fun a => .ok (10 * a)), (2, fun a => .ok (10 * a)), (3, fun a => .ok (10 * a))]
            = .ok (s3, [1, 2, 3]) ∧
        (∀ k, k ∈ s3.residentKeys ↔ k = 2 ∨ k = 3) ∧
        s3.getData 1 (fun a => .ok (10 * a)) = .ok r4 ∧ r4.fetches = [1] :=
  ⟨by decide, by decide, by decide,
    (C6_scenario Nat Nat Nat 1 2 3 (by decide) (by decide) (by decide)
      (fun a => .ok (10 * a)) (fun a => .ok (10 * a)) (fun a => .ok (10 * a))
      (fun a => .ok (10 * a))).imp
      (fun _ hs => hs.imp (fun _ hr => ⟨hr.1, hr.2.1, hr.2.2.1, hr.2.2.2.1⟩))⟩

theorem overlapSys_reachable : Reachable overlapSys := ⟨1, overlapEvents, rfl⟩

omit [DecidableEq TId] in
theorem CallOK.fetching_promise {s : CachedData TData TId E} {c : Call TData TId E}
    (h : CallOK s c) (hf : c.isFetching = true) : ∃ p, c.promise = some p := by
  obtain ⟨a_id, ph⟩ := c
  cases ph with
  | returned o => simp [Call.isFetching] at hf
  | unlocked it => simp [Call.isFetching] at hf
  | fetching it =>
    obtain ⟨p, h1, _, _⟩ := h
    exact ⟨p, by simp [Call.promise, Phase.item, h1]⟩
  | fetched it r0 => simp [Call.isFetching] at hf
  | finished it o => simp [Call.isFetching] at hf

/-- C10 fails as stated: with capacity 1 the schedule `overlapEvents` (call for
key 7 starts its fetch; a call for key 8 evicts the item of key 7; a second call
for key 7 misses and starts its fetch) leads to a state in which calls 0 and 2,
both for key 7, are inside `fetchProductDetails` at the same time. -/
theorem C10_counterexample :
    1 ≤ (1 : Nat) ∧ System.run (System.init 1) overlapEvents = some overlapSys ∧
      ¬ OneFetchPerKey overlapSys := by
  refine ⟨le_refl _, rfl, ?_⟩
  intro h
  have := h 0 2 _ _ rfl rfl rfl rfl rfl
  exact absurd this (by decide)

/-- C10, amended (at most one outstanding fetch per cache item).  In every
reachable state, for every capacity, two different calls never own the promise
of the same item, so at most one call is fetching for any one item; and when two
calls for the same key are inside `fetchProductDetails` at the same time, the
item of the earlier one is no longer resident: the key was evicted and entered
again between the two calls. -/
theorem C10_one_fetch_per_item (TData TId E : Type) [DecidableEq TId]
    (sys : System TData TId E) (h : Reachable sys) :
    (∀ (i j : Nat) (ci cj : Call TData TId E) (p : Nat),
      sys.calls[i]? = some ci → sys.calls[j]? = some cj →
      ci.promise = some p → cj.promise = some p → i = j) ∧
    (∀ (i j : Nat) (ci cj : Call TData TId E), i < j →
      sys.calls[i]? = some ci → sys.calls[j]? = some cj → ci.a_id = cj.a_id →
      ci.isFetching = true → cj.isFetching = true →
      ∃ pi pj, ci.promise = some pi ∧ cj.promise = some pj ∧ pi ≠ pj ∧
        ∀ it, Assoc.find sys.cache.m_cacheItemById ci.a_id = some it → it.kind ≠ .Empty pi) := by
  have hp := h.poolInv
  refine ⟨hp.distinct, ?_⟩
  intro i j ci cj hij hi hj hid hfi hfj
  obtain ⟨pi, hpi⟩ := (hp.callOK i ci hi).fetching_promise hfi
  obtain ⟨pj, hpj⟩ := (hp.callOK j cj hj).fetching_promise hfj
  refine ⟨pi, pj, hpi, hpj, ?_, ?_⟩
  · intro hpp
    have := hp.distinct i j ci cj pi hi hj hpi (by rw [hpp]; exact hpj)
    omega
  · exact hp.superseded i j ci cj pi hij hi hj hid hpi (by rw [hpj]; simp)

/-- C10 amended, on the schedule of the counterexample: a call that owns
promise 0 can only be call 0, the two fetching calls for key 7 own the promises
0 and 4, and the resident item of key 7 is not the one of the earlier call. -/
theorem C10_one_fetch_per_item_witness :
    Reachable overlapSys ∧
      (overlapSys.calls[0]? = some ⟨7, .fetching
          { addr := 0, Id := 7, Count := 0, kind := .Promising 0 }⟩ ∧
        (⟨7, .fetching { addr := 0, Id := 7, Count := 0, kind := .Promising 0 }⟩
          : Call Nat Nat Nat).promise = some 0 ∧ (0 : Nat) = 0) ∧
      ∃ pi pj,
        (⟨7, .fetching { addr := 0, Id := 7, Count := 0, kind := .Promising 0 }⟩
          : Call Nat Nat Nat).promise = some pi ∧
        (⟨7, .fetching { addr := 4, Id := 7, Count := 0, kind := .Promising 4 }⟩
          : Call Nat Nat Nat).promise = some pj ∧ pi ≠ pj ∧
        ∀ it, Assoc.find overlapSys.cache.m_cacheItemById 7 = some it → it.kind ≠ .Empty pi :=
  ⟨overlapSys_reachable,
    ⟨rfl, rfl,
      (C10_one_fetch_per_item Nat Nat Nat overlapSys overlapSys_reachable).1 0 0 _ _ 0
        rfl rfl rfl rfl⟩,
    (C10_one_fetch_per_item Nat Nat Nat overlapSys overlapSys_reachable).2 0 2 _ _
      (by decide) rfl rfl rfl rfl rfl⟩

/-- C9 (same outcome for owner and waiters).  In every reachable state, a waiter
that attached to the future `f` of an item and has left `getData` with anything
but the timeout has received the content `r` of that future; one call owns the
promise of `f`, it is a call for the same key, it has left `getData`, and what it
handed to its caller is the same outcome: the value it returned, or the error it
raised. -/
theorem C9_same_outcome (TData TId E : Type) [DecidableEq TId]
    (sys : System TData TId E) (h : Reachable sys) (i : Nat) (k : TId)
    (w : ICacheItem TData TId) (o : Outcome TData E) (f : Nat)
    (hi : sys.calls[i]? = some ⟨k, .finished w o⟩) (hw : w.kind = .Waiting f)
    (ho : o ≠ .tooLong) :
    ∃ (r : Except E TData) (j : Nat) (it : ICacheItem TData TId),
      Assoc.find sys.cache.shared f = some r ∧ o = ofResult r ∧
      sys.calls[j]? = some ⟨k, .finished it o⟩ ∧ it.kind = .Promising f ∧
      ∀ (j' : Nat) (c' : Call TData TId E), sys.calls[j']? = some c' →
        c'.promise = some f → j' = j := by
  have hp := h.poolInv
  have hc := hp.callOK i _ hi
  rcases hc with ⟨p, r, h1, _⟩ | ⟨g, h1, _, h3⟩
  · rw [hw] at h1; cases h1
  · rw [hw] at h1
    have hg : f = g := ItemKind.Waiting.inj h1
    subst hg
    rcases h3 with h3 | ⟨r, hr, hor⟩
    · exact absurd h3 ho
    · obtain ⟨j, a_id, it, hj, hit⟩ := hp.publishedBy f r hr
      have hown : (⟨a_id, .finished it (ofResult r)⟩ : Call TData TId E).promise = some f := by
        simp [Call.promise, Phase.item, hit]
      have hkey := hp.waiterKey i j _ _ f hi hj (by simp [Call.waitsOn, Phase.item, hw]) hown
      have hka : k = a_id := hkey
      subst hka
      refine ⟨r, j, it, hr, hor, by rw [hor]; exact hj, hit, ?_⟩
      intro j' c' hj' hp'
      exact hp.distinct j' j c' _ f hj' hj hp' hown

theorem coalesceSys1_run :
    System.run (System.init 1) coalesceEnter = some coalesceSys1 := rfl

theorem coalesceSys2_run : System.run coalesceSys1 coalesceFinish = some coalesceSys2 := rfl

theorem coalesceSys2_reachable : Reachable coalesceSys2 :=
  ⟨1, coalesceEnter ++ coalesceFinish, rfl⟩

/-- C9 on the schedule with three overlapping calls: the first waiter has got
error 3, which is what the owner raised. -/
theorem C9_same_outcome_witness :
    Reachable coalesceSys2 ∧
      ∃ (r : Except Nat Nat) (j : Nat) (it : ICacheItem Nat Nat),
        Assoc.find coalesceSys2.cache.shared 0 = some r ∧ Outcome.fetchError 3 = ofResult r ∧
        coalesceSys2.calls[j]? = some ⟨7, .finished it (.fetchError 3)⟩ ∧
        it.kind = .Promising 0 :=
  ⟨coalesceSys2_reachable,
    (C9_same_outcome Nat Nat Nat coalesceSys2 coalesceSys2_reachable 1 7
      { addr := 4, Id := 7, Count := 2, kind := .Waiting 0 } (.fetchError 3) 0 rfl rfl
      (by decide)).imp
      (fun _ hr => hr.imp (fun _ hj => hj.imp (fun _ hit =>
        ⟨hit.1, hit.2.1, hit.2.2.1, hit.2.2.2.1⟩)))⟩

/-! ## Calls keep their place and their local item -/

/-- The two shapes of an atomic step: a new call is appended after its block
under the mutex, or one call of the pool moves on, keeping its key and its local
item, while the cache stays as it is or gets one more shared state. -/
theorem step_cases {sys sys' : System TData TId E} (hp : PoolInv sys) {ev : Event TData TId E}
    (hs : sys.step ev = some sys') :
    (∃ k s' x ph, ev = .call k ∧ lockedBlock sys.cache k = .ok (s', x) ∧
      sys' = { cache := s', calls := sys.calls ++ [⟨k, ph⟩] } ∧
      ((∃ o, x = .returned o ∧ ph = .returned o) ∨ (∃ it, x = .unlocked it ∧ ph = .unlocked it))) ∨
    (∃ i c c', sys.calls[i]? = some c ∧ sys'.calls = sys.calls.set i c' ∧ c'.a_id = c.a_id ∧
      c'.phase.item = c.phase.item ∧
      (sys'.cache = sys.cache ∨ ∃ p r, Assoc.find sys.cache.shared p = none ∧
        sys'.cache = { sys.cache with shared := Assoc.assign sys.cache.shared p r })) := by
  cases ev with
  | call k =>
    left
    obtain ⟨s', x, hl, _⟩ := lockedBlock_inv hp.inv k
    cases x with
    | returned o =>
      simp only [System.step, hl, Option.some.injEq] at hs
      exact ⟨k, s', _, _, rfl, hl, hs.symm, Or.inl ⟨o, rfl, rfl⟩⟩
    | unlocked it =>
      simp only [System.step, hl, Option.some.injEq] at hs
      exact ⟨k, s', _, _, rfl, hl, hs.symm, Or.inr ⟨it, rfl, rfl⟩⟩
  | wake i =>
    right
    simp only [System.step] at hs
    split at hs
    · rename_i a_id it hi
      split at hs
      · split at hs
        · cases hs
        · simp only [Option.some.injEq] at hs
          subst hs
          exact ⟨i, _, _, hi, rfl, rfl, rfl, Or.inl rfl⟩
      · cases hs
    · cases hs
  | fetchStart i =>
    right
    simp only [System.step] at hs
    split at hs
    · rename_i a_id it hi
      split at hs
      · cases hs
      · simp only [Option.some.injEq] at hs
        subst hs
        exact ⟨i, _, _, hi, rfl, rfl, rfl, Or.inl rfl⟩
    · cases hs
  | fetchEnd i r =>
    right
    simp only [System.step] at hs
    split at hs
    · rename_i a_id it hi
      simp only [Option.some.injEq] at hs
      subst hs
      exact ⟨i, _, _, hi, rfl, rfl, rfl, Or.inl rfl⟩
    · cases hs
  | publish i =>
    right
    simp only [System.step] at hs
    split at hs
    · rename_i a_id it r hi
      obtain ⟨p, h1, h2, h3⟩ := hp.callOK i _ hi
      rw [publish_promising sys.cache h1 h3 r] at hs
      simp only [Option.some.injEq] at hs
      subst hs
      exact ⟨i, _, _, hi, rfl, rfl, rfl, Or.inr ⟨p, r, h3, rfl⟩⟩
    · cases hs

/-- A step leaves every call of the pool at its index, with its key and its
local item. -/
theorem step_keeps {sys sys' : System TData TId E} (hp : PoolInv sys) {ev : Event TData TId E}
    (hs : sys.step ev = some sys') {i : Nat} {c : Call TData TId E}
    (hi : sys.calls[i]? = some c) :
    ∃ c', sys'.calls[i]? = some c' ∧ c'.a_id = c.a_id ∧ c'.phase.item = c.phase.item := by
  have hil : i < sys.calls.length := (List.getElem?_eq_some.1 hi).1
  rcases step_cases hp hs with ⟨k, s', x, ph, _, _, rfl, _⟩ | ⟨j, cj, cj', hj, hcalls, hid, hitem, _⟩
  · exact ⟨c, by simp only; rw [List.getElem?_append_left hil]; exact hi, rfl, rfl⟩
  · rw [hcalls]
    by_cases hji : j = i
    · subst hji
      rw [hi] at hj
      have := Option.some.inj hj
      subst this
      exact ⟨cj', List.getElem?_set_self hil, hid, hitem⟩
    · exact ⟨c, by rw [List.getElem?_set_ne hji]; exact hi, rfl, rfl⟩

theorem run_keeps {sys : System TData TId E} :
    ∀ (evs : List (Event TData TId E)) {sys' : System TData TId E}, PoolInv sys →
      sys.run evs = some sys' → ∀ {i : Nat} {c : Call TData TId E}, sys.calls[i]? = some c →
        ∃ c', sys'.calls[i]? = some c' ∧ c'.a_id = c.a_id ∧ c'.phase.item = c.phase.item := by
  intro evs
  induction evs generalizing sys with
  | nil =>
    intro sys' _ hr i c hi
    simp only [System.run, Option.some.injEq] at hr
    subst hr
    exact ⟨c, hi, rfl, rfl⟩
  | cons ev rest ih =>
    intro sys' hp hr i c hi
    simp only [System.run] at hr
    cases hs : sys.step ev with
    | none => rw [hs] at hr; cases hr
    | some sys1 =>
      rw [hs] at hr
      obtain ⟨c1, hi1, hid1, hit1⟩ := step_keeps hp hs hi
      obtain ⟨c2, hi2, hid2, hit2⟩ := ih (hp.step hs) hr hi1
      exact ⟨c2, hi2, hid2.trans hid1, hit2.trans hit1⟩

omit [DecidableEq TId] in
/-- A call whose local item is a `WaitingCacheItem` on the future `f` has not
fetched: it stands at line 92, or it has left with the timeout or with the
content of `f`. -/
theorem CallOK.waiter {s : CachedData TData TId E} {c : Call TData TId E} (h : CallOK s c)
    {w : ICacheItem TData TId} {f : Nat} (hitem : c.phase.item = some w)
    (hw : w.kind = .Waiting f) :
    c.hasFetched = false ∧
      (c.phase = .unlocked w ∨ c.phase = .finished w .tooLong ∨
        ∃ r, Assoc.find s.shared f = some r ∧ c.phase = .finished w (ofResult r)) := by
  obtain ⟨a_id, ph⟩ := c
  cases ph with
  | returned o => simp [Phase.item] at hitem
  | unlocked it =>
    simp only [Phase.item, Option.some.injEq] at hitem
    subst hitem
    exact ⟨rfl, Or.inl rfl⟩
  | fetching it =>
    simp only [Phase.item, Option.some.injEq] at hitem
    subst hitem
    obtain ⟨p, h1, _⟩ := h
    rw [hw] at h1; cases h1
  | fetched it r0 =>
    simp only [Phase.item, Option.some.injEq] at hitem
    subst hitem
    obtain ⟨p, h1, _⟩ := h
    rw [hw] at h1; cases h1
  | finished it o =>
    simp only [Phase.item, Option.some.injEq] at hitem
    subst hitem
    rcases h with ⟨p, r, h1, _⟩ | ⟨g, h1, _, h3⟩
    · rw [hw] at h1; cases h1
    · rw [hw] at h1
      have hg : f = g := ItemKind.Waiting.inj h1
      subst hg
      refine ⟨by simp [Call.hasFetched, hw], ?_⟩
      rcases h3 with h3 | ⟨r, hr, hor⟩
      · exact Or.inr (Or.inl (by rw [h3]))
      · exact Or.inr (Or.inr ⟨r, hr, by rw [hor]⟩)

/-! ## Callers of a key in flight attach to its fetch -/

theorem step_heapTop {sys sys' : System TData TId E} (hp : PoolInv sys) {ev : Event TData TId E}
    (hs : sys.step ev = some sys') : sys.cache.heapTop ≤ sys'.cache.heapTop := by
  rcases step_cases hp hs with ⟨k, s', x, ph, _, hl, rfl, _⟩ | ⟨j, cj, cj', _, _, _, _, hc⟩
  · obtain ⟨s2, x2, hl2, _, _, _, _, hge, _⟩ := lockedBlock_inv hp.inv k
    rw [hl] at hl2
    have := (Prod.mk.inj (Except.ok.inj hl2)).1
    subst this
    show sys.cache.heapTop ≤ s'.heapTop
    omega
  · rcases hc with hc | ⟨p, r, _, hc⟩
    · rw [hc]
    · rw [hc]

/-- A key that is in flight on the future `p` after a step was in flight on `p`
before it: an item that has been evicted or filled, and a future that has been
published, do not come back. -/
theorem InFlight.back {sys sys' : System TData TId E} (hp : PoolInv sys)
    {ev : Event TData TId E} (hs : sys.step ev = some sys') {k : TId} {p : Nat}
    (hlt : p < sys.cache.heapTop) (h : InFlight sys'.cache k p) : InFlight sys.cache k p := by
  obtain ⟨⟨it, hk, hkind⟩, hsh⟩ := h
  rcases step_cases hp hs with ⟨k2, s', x, ph, _, hl, rfl, _⟩ | ⟨j, cj, cj', _, _, _, _, hc⟩
  · obtain ⟨s2, x2, hl2, _, _, _, hshared, _, _⟩ := lockedBlock_inv hp.inv k2
    rw [hl] at hl2
    have := (Prod.mk.inj (Except.ok.inj hl2)).1
    subst this
    rcases lockedBlock_resident hp.inv hl hk hkind with ⟨it0, h0, hk0⟩ | ⟨_, hph, _⟩
    · exact ⟨⟨it0, h0, hk0⟩, by rw [← hshared]; exact hsh⟩
    · omega
  · rcases hc with hc | ⟨q, r, _, hc⟩
    · rw [hc] at hk hsh
      exact ⟨⟨it, hk, hkind⟩, hsh⟩
    · rw [hc] at hk hsh
      refine ⟨⟨it, hk, hkind⟩, ?_⟩
      have hsh2 : Assoc.find (Assoc.assign sys.cache.shared q r) p = none := hsh
      rw [Assoc.find_assign] at hsh2
      by_cases hpq : p = q
      · simp [hpq] at hsh2
      · simpa [hpq] using hsh2

omit [DecidableEq TId] in
theorem waitsOn_of_item {c c' : Call TData TId E} (h : c'.phase.item = c.phase.item) :
    c'.waitsOn = c.waitsOn ∧ c'.promise = c.promise := by
  simp [Call.waitsOn, Call.promise, h]

/-- While the item that call `n` added for key `k` is in flight, every later
call for `k` is a waiter on its future. -/
theorem coalesced_step {sys sys' : System TData TId E} (hp : PoolInv sys)
    {ev : Event TData TId E} (hs : sys.step ev = some sys') {n : Nat} {k : TId} {p : Nat}
    (hlt : p < sys.cache.heapTop)
    (hJ : InFlight sys.cache k p → ∀ (i : Nat) (c : Call TData TId E), n < i →
      sys.calls[i]? = some c → c.a_id = k → c.waitsOn = some p) :
    InFlight sys'.cache k p → ∀ (i : Nat) (c : Call TData TId E), n < i →
      sys'.calls[i]? = some c → c.a_id = k → c.waitsOn = some p := by
  intro hG' i c hni hi hck
  have hG := InFlight.back hp hs hlt hG'
  have hold := hJ hG
  rcases step_cases hp hs with ⟨k2, s', x, ph, _, hl, rfl, hph⟩ | ⟨j, cj, cj', hj, hcalls, hid, hitem, _⟩
  · rcases getElem?_concat_cases hi with ⟨_, hi2⟩ | ⟨_, hic⟩
    · exact hold i c hni hi2 hck
    · subst hic
      have hk2 : k2 = k := hck
      subst hk2
      obtain ⟨⟨it, hk, hkind⟩, hsh⟩ := hG
      rw [lockedBlock_waiting hp.inv hk hkind hsh] at hl
      have hx := (Prod.mk.inj (Except.ok.inj hl)).2
      rcases hph with ⟨o, hxo, _⟩ | ⟨w, hxw, hpw⟩
      · rw [hxo] at hx; cases hx
      · rw [hxw] at hx
        have hw := Exit.unlocked.inj hx
        subst hpw
        simp [Call.waitsOn, Phase.item, ← hw]
  · rw [hcalls] at hi
    rcases getElem?_set_cases hi with ⟨hij, hcc⟩ | ⟨_, hi2⟩
    · subst hij; subst hcc
      have := hold i cj hni hj (by rw [← hid]; exact hck)
      rw [(waitsOn_of_item hitem).1]; exact this
    · exact hold i c hni hi2 hck

theorem coalesced_run {n : Nat} {k : TId} {p : Nat} :
    ∀ (evs : List (Event TData TId E)) {sys sys' : System TData TId E}, PoolInv sys →
      p < sys.cache.heapTop →
      (InFlight sys.cache k p → ∀ (i : Nat) (c : Call TData TId E), n < i →
        sys.calls[i]? = some c → c.a_id = k → c.waitsOn = some p) →
      sys.run evs = some sys' →
      (InFlight sys'.cache k p → ∀ (i : Nat) (c : Call TData TId E), n < i →
        sys'.calls[i]? = some c → c.a_id = k → c.waitsOn = some p) := by
  intro evs
  induction evs with
  | nil =>
    intro sys sys' _ _ hJ hr
    simp only [System.run, Option.some.injEq] at hr
    subst hr
    exact hJ
  | cons ev rest ih =>
    intro sys sys' hp hlt hJ hr
    simp only [System.run] at hr
    cases hs : sys.step ev with
    | none => rw [hs] at hr; cases hr
    | some sys1 =>
      rw [hs] at hr
      exact ih (hp.step hs) (Nat.lt_of_lt_of_le hlt (step_heapTop hp hs))
        (coalesced_step hp hs hlt hJ) hr

omit [DecidableEq TId] in
theorem range_split {n m : Nat} (h : n < m) :
    List.range' n (m - n) = n :: List.range' (n + 1) (m - n - 1) := by
  obtain ⟨d, hd⟩ : ∃ d, m - n = d + 1 := ⟨m - n - 1, by omega⟩
  rw [hd, List.range'_succ]; simp

/-- Among the calls with index from `n` up to `m`, only call `n` may have
fetched for `k`. -/
theorem fetchesBetween_owner {calls : List (Call TData TId E)} {k : TId} {n m : Nat}
    (hnm : n < m) {c0 : Call TData TId E} (h0 : calls[n]? = some c0) (hk0 : c0.a_id = k)
    (hrest : ∀ (i : Nat) (c : Call TData TId E), n < i → i < m → calls[i]? = some c →
      c.a_id = k → c.hasFetched = false) :
    fetchesBetween calls k n m = if c0.hasFetched then 1 else 0 := by
  unfold fetchesBetween
  rw [range_split hnm, List.filter_cons]
  have htail : (List.range' (n + 1) (m - n - 1)).filter (fun i =>
      match calls[i]? with
      | some c => decide (c.a_id = k) && c.hasFetched
      | none => false) = [] := by
    rw [List.filter_eq_nil_iff]
    intro i hi
    rw [List.mem_range'_1] at hi
    cases hc : calls[i]? with
    | none => simp
    | some c =>
      by_cases hck : c.a_id = k
      · have := hrest i c (by omega) (by omega) hc hck
        simp [this]
      · simp [hck]
  rw [htail]
  simp only [h0, hk0, decide_True, Bool.true_and]
  cases c0.hasFetched <;> simp

omit [DecidableEq TId] in
theorem waitsOn_item {c : Call TData TId E} {f : Nat} (h : c.waitsOn = some f) :
    ∃ w, c.phase.item = some w ∧ w.kind = .Waiting f := by
  unfold Call.waitsOn at h
  cases hi : c.phase.item with
  | none => rw [hi] at h; cases h
  | some w =>
    rw [hi] at h
    cases hk : w.kind with
    | Promising p => simp only [hk] at h; cases h
    | Empty g => simp only [hk] at h; cases h
    | Filled d => simp only [hk] at h; cases h
    | Waiting g =>
      simp only [hk, Option.some.injEq] at h
      exact ⟨w, rfl, by rw [← h]; exact hk⟩

/-- C8 (a waiter attaches instead of fetching).  Let `sys` be a reachable state.
First part: if key `k` is resident with the future `f` and `f` is not ready, a
new call `getData(k, _)` leaves the block under the mutex with a
`WaitingCacheItem` on `f`; and in every state that any later steps lead to, that
call has not invoked the source, and it stands at line 92 or has left with the
timeout or with the content of `f`.  Second part: if `k` is not resident, a call
for `k` enters (call number `sys.calls.length`, the owner), further steps `evs1`
follow at whose end the item it added is still resident and its future not
ready, and then any steps `evs2`: every other call for `k` that entered during
`evs1` is a waiter on the owner's future and has not invoked the source, so the
number of source invocations by all these callers is one once the owner has
entered `fetchProductDetails` (and none before), and the owner cannot leave
without having done so. -/
theorem C8_waiter_attaches (TData TId E : Type) [DecidableEq TId]
    (sys : System TData TId E) (h : Reachable sys) (k : TId) :
    (∀ (it : ICacheItem TData TId) (f : Nat),
      Assoc.find sys.cache.m_cacheItemById k = some it → it.kind = .Empty f →
      Assoc.find sys.cache.shared f = none →
      ∃ s1 w,
        sys.step (.call k) = some { cache := s1, calls := sys.calls ++ [⟨k, .unlocked w⟩] } ∧
        w.kind = .Waiting f ∧
        ∀ (evs : List (Event TData TId E)) (sys2 : System TData TId E),
          System.run { cache := s1, calls := sys.calls ++ [⟨k, .unlocked w⟩] } evs = some sys2 →
          ∃ c, sys2.calls[sys.calls.length]? = some c ∧ c.a_id = k ∧ c.hasFetched = false ∧
            (c.phase = .unlocked w ∨ c.phase = .finished w .tooLong ∨
              ∃ r, Assoc.find sys2.cache.shared f = some r ∧ c.phase = .finished w (ofResult r))) ∧
    (Assoc.find sys.cache.m_cacheItemById k = none →
      ∀ (evs1 evs2 : List (Event TData TId E)) (sys1 sys2 : System TData TId E),
        System.run sys (.call k :: evs1) = some sys1 →
        InFlight sys1.cache k sys.cache.heapTop →
        System.run sys1 evs2 = some sys2 →
        ∃ c0, sys2.calls[sys.calls.length]? = some c0 ∧ c0.a_id = k ∧
          c0.promise = some sys.cache.heapTop ∧
          (∀ (i : Nat) (c : Call TData TId E), sys.calls.length < i → i < sys1.calls.length →
            sys2.calls[i]? = some c → c.a_id = k →
              c.waitsOn = some sys.cache.heapTop ∧ c.hasFetched = false) ∧
          fetchesBetween sys2.calls k sys.calls.length sys1.calls.length
            = (if c0.hasFetched then 1 else 0) ∧
          (∀ it o, c0.phase = .finished it o → c0.hasFetched = true)) := by
  have hp := h.poolInv
  constructor
  · intro it f hk hkind hsh
    have hl := lockedBlock_waiting hp.inv hk hkind hsh
    have hstep : sys.step (.call k) = some
        { cache := { touch { sys.cache with heapTop := sys.cache.heapTop + 2 } k it with
            heapTop := sys.cache.heapTop + 3 },
          calls := sys.calls ++ [⟨k, .unlocked
            { addr := sys.cache.heapTop + 2, Id := it.Id, Count := sys.cache.m_count,
              kind := .Waiting f }⟩] } := by
      simp [System.step, hl]
    refine ⟨_, _, hstep, rfl, ?_⟩
    intro evs sys2 hr
    have hpA := hp.step hstep
    obtain ⟨c, hc, hid, hitem⟩ := run_keeps evs hpA hr (List.getElem?_concat_length _ _)
    have hp2 := hpA.run evs hr
    obtain ⟨hnf, hph⟩ := (hp2.callOK _ c hc).waiter hitem rfl
    exact ⟨c, hc, hid, hnf, hph⟩
  · intro hk evs1 evs2 sys1 sys2 hr1 hfl hr2
    obtain ⟨s', hl, _, _⟩ := lockedBlock_miss hp.inv hk
    obtain ⟨s2, x2, hl2, _, _, _, _, hge, _⟩ := lockedBlock_inv hp.inv k
    rw [hl] at hl2
    have hs' := (Prod.mk.inj (Except.ok.inj hl2)).1
    subst hs'
    have hstep : sys.step (.call k) = some
        { cache := s', calls := sys.calls ++ [⟨k, .unlocked (promiseItem sys.cache k)⟩] } := by
      simp [System.step, hl]
    simp only [System.run, hstep] at hr1
    have hpA := hp.step hstep
    have hp1 := hpA.run evs1 hr1
    have hp2 := hp1.run evs2 hr2
    have hlt : sys.cache.heapTop < s'.heapTop := by omega
    -- the owner
    obtain ⟨c1, hc1, hid1, hitem1⟩ := run_keeps evs1 hpA hr1 (List.getElem?_concat_length _ _)
    obtain ⟨c0, hc0, hid0, hitem0⟩ := run_keeps evs2 hp1 hr2 hc1
    have hn1 : sys.calls.length < sys1.calls.length := (List.getElem?_eq_some.1 hc1).1
    have hitem : c0.phase.item = some (promiseItem sys.cache k) := by
      rw [hitem0, hitem1]; rfl
    have hprom : c0.promise = some sys.cache.heapTop := by
      simp [Call.promise, hitem, promiseItem]
    have hk0 : c0.a_id = k := by rw [hid0, hid1]
    -- the callers that entered while the item was in flight
    have hJ := @coalesced_run TData TId E _ sys.calls.length k sys.cache.heapTop evs1 _ _ hpA hlt
      (fun _ i c hni hi _ => by
        have hlen := (List.getElem?_eq_some.1 hi).1
        simp only [List.length_append, List.length_singleton] at hlen
        omega) hr1 hfl
    have hwait : ∀ (i : Nat) (c : Call TData TId E), sys.calls.length < i →
        i < sys1.calls.length → sys2.calls[i]? = some c → c.a_id = k →
          c.waitsOn = some sys.cache.heapTop ∧ c.hasFetched = false := by
      intro i c hni hi1 hi2 hck
      obtain ⟨ci, hci⟩ : ∃ ci, sys1.calls[i]? = some ci :=
        ⟨sys1.calls[i], List.getElem?_eq_getElem hi1⟩
      obtain ⟨c', hc', hid', hitem'⟩ := run_keeps evs2 hp1 hr2 hci
      rw [hi2] at hc'
      have hcc := Option.some.inj hc'
      subst hcc
      have hw1 := hJ i ci hni hci (by rw [← hid']; exact hck)
      have hw2 : c.waitsOn = some sys.cache.heapTop := by
        rw [(waitsOn_of_item hitem').1]; exact hw1
      obtain ⟨w, hwi, hwk⟩ := waitsOn_item hw2
      exact ⟨hw2, ((hp2.callOK i c hi2).waiter hwi hwk).1⟩
    refine ⟨c0, hc0, hk0, hprom, hwait, ?_, ?_⟩
    · exact fetchesBetween_owner hn1 hc0 hk0 (fun i c h1 h2 h3 h4 => (hwait i c h1 h2 h3 h4).2)
    · intro it o hph
      have : it = promiseItem sys.cache k := by
        rw [hph] at hitem
        simpa [Phase.item] using hitem
      subst this
      simp [Call.hasFetched, hph, promiseItem]

theorem coalesceSys1_reachable : Reachable coalesceSys1 := ⟨1, coalesceEnter, rfl⟩

/-- C8 on the schedule with three overlapping calls.  A fourth call for key 7,
entering while the item is in flight, becomes a waiter on future 0; and the
three callers of key 7 cause as many source invocations as the owner, call 0,
has made. -/
theorem C8_waiter_attaches_witness :
    (Reachable coalesceSys1 ∧
      Assoc.find coalesceSys1.cache.m_cacheItemById 7
        = some { addr := 1, Id := 7, Count := 3, kind := .Empty 0 } ∧
      Assoc.find coalesceSys1.cache.shared 0 = none ∧
      ∃ s1 w, coalesceSys1.step (.call 7)
          = some { cache := s1, calls := coalesceSys1.calls ++ [⟨7, .unlocked w⟩] } ∧
        w.kind = .Waiting 0) ∧
    (Reachable (System.init 1 : System Nat Nat Nat) ∧
      Assoc.find (System.init 1 : System Nat Nat Nat).cache.m_cacheItemById 7 = none ∧
      System.run (System.init 1) (.call 7 :: [.call 7, .call 7]) = some coalesceSys1 ∧
      InFlight coalesceSys1.cache 7 0 ∧
      System.run coalesceSys1 coalesceFinish = some coalesceSys2 ∧
      ∃ c0, coalesceSys2.calls[0]? = some c0 ∧ c0.promise = some 0 ∧
        fetchesBetween coalesceSys2.calls 7 0 3 = (if c0.hasFetched then 1 else 0)) :=
  have hfl : InFlight coalesceSys1.cache 7 0 := ⟨⟨_, rfl, rfl⟩, rfl⟩
  ⟨⟨coalesceSys1_reachable, rfl, rfl,
      ((C8_waiter_attaches Nat Nat Nat coalesceSys1 coalesceSys1_reachable 7).1 _ 0 rfl rfl
        rfl).imp (fun _ hs => hs.imp (fun _ hw => ⟨hw.1, hw.2.1⟩))⟩,
    ⟨1, [], rfl⟩, rfl, rfl, hfl, rfl,
    ((C8_waiter_attaches Nat Nat Nat (System.init 1) ⟨1, [], rfl⟩ 7).2 rfl
      [.call 7, .call 7] coalesceFinish coalesceSys1 coalesceSys2 rfl hfl rfl).imp
      (fun _ hc => ⟨hc.1, hc.2.2.1, hc.2.2.2.2.1⟩)⟩

/-! ## Calls made one after another are a schedule -/

omit [DecidableEq TId] in
theorem getElem?_set_concat (l : List (Call TData TId E)) (c c' : Call TData TId E) :
    ((l ++ [c]).set l.length c')[l.length]? = some c' :=
  List.getElem?_set_self (by simp)

theorem run_append {sys : System TData TId E} :
    ∀ (evs1 evs2 : List (Event TData TId E)) {sys1 : System TData TId E},
      sys.run evs1 = some sys1 → sys.run (evs1 ++ evs2) = sys1.run evs2 := by
  intro evs1
  induction evs1 generalizing sys with
  | nil =>
    intro evs2 sys1 hr
    simp only [System.run, Option.some.injEq] at hr
    subst hr; rfl
  | cons ev rest ih =>
    intro evs2 sys1 hr
    simp only [System.run, List.cons_append] at hr ⊢
    cases hs : sys.step ev with
    | none => rw [hs] at hr; cases hr
    | some sys' =>
      rw [hs] at hr
      simp only
      exact ih evs2 hr

theorem step_fetchStart {sys : System TData TId E} {i : Nat} {a_id : TId}
    {it : ICacheItem TData TId} (hi : sys.calls[i]? = some ⟨a_id, .unlocked it⟩)
    (hw : it.isWaiting sys.cache.shared = false) :
    sys.step (.fetchStart i) = some { sys with calls := sys.calls.set i ⟨a_id, .fetching it⟩ } := by
  simp [System.step, hi, hw]

theorem step_fetchEnd {sys : System TData TId E} {i : Nat} {a_id : TId}
    {it : ICacheItem TData TId} (r : Except E TData)
    (hi : sys.calls[i]? = some ⟨a_id, .fetching it⟩) :
    sys.step (.fetchEnd i r) = some { sys with calls := sys.calls.set i ⟨a_id, .fetched it r⟩ } := by
  simp [System.step, hi]

theorem step_publish {sys : System TData TId E} {i : Nat} {a_id : TId}
    {it : ICacheItem TData TId} {r : Except E TData} {p : Nat}
    (hi : sys.calls[i]? = some ⟨a_id, .fetched it r⟩) (hp : it.kind = .Promising p)
    (hs : Assoc.find sys.cache.shared p = none) :
    sys.step (.publish i) = some
      { cache := { sys.cache with shared := Assoc.assign sys.cache.shared p r },
        calls := sys.calls.set i ⟨a_id, .finished it (ofResult r)⟩ } := by
  simp [System.step, hi, publish_promising sys.cache hp hs]

/-- A call that runs alone is a schedule of its atomic steps. -/
theorem getData_schedule {sys : System TData TId E} (hp : PoolInv sys) {k : TId}
    {a_db : TId → Except E TData} {r : Result TData TId E}
    (hr : sys.cache.getData k a_db = .ok r) :
    ∃ evs, (sys.run evs).map System.cache = some r.cache := by
  rcases lockedBlock_cases hp.inv k with ⟨it, d, hk, hd, hl⟩ | ⟨it, f, d, hk, hf, hs, hl⟩ |
    ⟨it, f, e, hk, hf, hs, hl⟩ | ⟨it, f, hk, hf, hs, hl⟩ | ⟨hk, _⟩
  · rw [getData_filled sys.cache hk hd a_db] at hr
    have := Except.ok.inj hr; subst this
    exact ⟨[.call k], by simp only [System.run, System.step, hl, Option.map_some']⟩
  · rw [getData_value sys.cache hk hf hs a_db] at hr
    have := Except.ok.inj hr; subst this
    exact ⟨[.call k], by simp only [System.run, System.step, hl, Option.map_some']⟩
  · rw [getData_error sys.cache hk hf hs a_db] at hr
    have := Except.ok.inj hr; subst this
    exact ⟨[.call k], by simp only [System.run, System.step, hl, Option.map_some']⟩
  · rw [getData_waiting hp.inv hk hf hs a_db] at hr
    have := Except.ok.inj hr; subst this
    refine ⟨[.call k, .wake sys.calls.length], ?_⟩
    simp only [System.run, System.step, hl, List.getElem?_concat_length,
      ICacheItem.isWaiting, ICacheItem.getData, touch, hs, if_true, Option.map_some']
  · obtain ⟨s', hl, hg⟩ := getData_miss hp.inv hk a_db
    obtain ⟨s2, x, hl2, _, _, _, hsh, _, _⟩ := lockedBlock_inv hp.inv k
    rw [hl] at hl2
    have hs1 : s' = s2 := (Prod.mk.inj (Except.ok.inj hl2)).1
    subst hs1
    rw [hg] at hr
    have := Except.ok.inj hr; subst this
    have hfree : Assoc.find s'.shared sys.cache.heapTop = none := by
      rw [hsh]
      cases hf : Assoc.find sys.cache.shared sys.cache.heapTop with
      | none => rfl
      | some r => exact absurd (hp.inv.wf.sharedBelow _ _ hf) (Nat.lt_irrefl _)
    have hpk : (promiseItem sys.cache k).kind = .Promising sys.cache.heapTop := rfl
    have hlen : sys.calls.length <
        (sys.calls ++ [(⟨k, .unlocked (promiseItem sys.cache k)⟩ : Call TData TId E)]).length := by
      simp
    have e1 : sys.step (.call k) = some
        { cache := s', calls := sys.calls ++ [⟨k, .unlocked (promiseItem sys.cache k)⟩] } := by
      simp only [System.step, hl]
    have e2 := step_fetchStart
      (show (System.mk s' (sys.calls ++
          [(⟨k, .unlocked (promiseItem sys.cache k)⟩ : Call TData TId E)])).calls[
            sys.calls.length]?
          = some (⟨k, .unlocked (promiseItem sys.cache k)⟩ : Call TData TId E) from
        List.getElem?_concat_length _ _) (by simp [ICacheItem.isWaiting, hpk])
    have e3 := step_fetchEnd (a_db k)
      (show (System.mk s' ((sys.calls ++
          [(⟨k, .unlocked (promiseItem sys.cache k)⟩ : Call TData TId E)]).set
            sys.calls.length ⟨k, .fetching (promiseItem sys.cache k)⟩)).calls[sys.calls.length]?
          = some (⟨k, .fetching (promiseItem sys.cache k)⟩ : Call TData TId E) from
        List.getElem?_set_self hlen)
    have e4 := step_publish
      (show (System.mk s' (((sys.calls ++
          [(⟨k, .unlocked (promiseItem sys.cache k)⟩ : Call TData TId E)]).set
            sys.calls.length ⟨k, .fetching (promiseItem sys.cache k)⟩).set sys.calls.length
              ⟨k, .fetched (promiseItem sys.cache k) (a_db k)⟩)).calls[sys.calls.length]?
          = some (⟨k, .fetched (promiseItem sys.cache k) (a_db k)⟩ : Call TData TId E) from
        List.getElem?_set_self (by rw [List.length_set]; exact hlen)) hpk hfree
    refine ⟨[.call k, .fetchStart sys.calls.length, .fetchEnd sys.calls.length (a_db k),
      .publish sys.calls.length], ?_⟩
    simp only [System.run, e1, e2, e3, e4, Option.map_some']

/-- Every cache that calls made one after another lead to is the cache of a
reachable state. -/
theorem runCalls_reachable {sys : System TData TId E} (h : Reachable sys) :
    ∀ (calls : List (TId × (TId → Except E TData))) {s : CachedData TData TId E}
      {log : List TId}, runCalls sys.cache calls = .ok (s, log) →
      ∃ sys', Reachable sys' ∧ sys'.cache = s := by
  intro calls
  induction calls generalizing sys with
  | nil =>
    intro s log hr
    simp only [runCalls, Except.ok.injEq, Prod.mk.injEq] at hr
    exact ⟨sys, h, hr.1⟩
  | cons c rest ih =>
    intro s log hr
    obtain ⟨k, a_db⟩ := c
    simp only [runCalls] at hr
    cases hg : sys.cache.getData k a_db with
    | error f => rw [hg] at hr; cases hr
    | ok r =>
      rw [hg] at hr
      simp only at hr
      obtain ⟨evs, hmap⟩ := getData_schedule h.poolInv hg
      obtain ⟨sys1, hrun, hcache⟩ : ∃ sys1, sys.run evs = some sys1 ∧ sys1.cache = r.cache := by
        cases hrun : sys.run evs with
        | none => rw [hrun] at hmap; cases hmap
        | some sys1 =>
          rw [hrun] at hmap
          exact ⟨sys1, rfl, Option.some.inj hmap⟩
      have hreach : Reachable sys1 := by
        obtain ⟨m, evs0, h0⟩ := h
        exact ⟨m, evs0 ++ evs, by rw [run_append evs0 evs h0]; exact hrun⟩
      cases hrest : runCalls r.cache rest with
      | error f => rw [hrest] at hr; cases hr
      | ok p =>
        obtain ⟨s2, log2⟩ := p
        rw [hrest] at hr
        simp only [Except.ok.injEq, Prod.mk.injEq] at hr
        rw [← hcache] at hrest
        obtain ⟨sys', hr', hc'⟩ := ih hreach hrest
        exact ⟨sys', hr', hc'.trans hr.1⟩

/-! ## The item of a failed fetch -/

/-- C11, the claim as stated fails.  Capacity 1: the call for key 7 misses and
its source fails with error 3, which leaves the item of key 7 resident.  The
next call for key 7, made with a source that would answer 5, makes no call of
`fetchProductDetails` and ends with the stored error 3, not with 5. -/
theorem C11_counterexample :
    (CachedData.init 1 : CachedData Nat Nat Nat).getData 7 (fun _ => .error 3)
        = .ok ⟨failedCache, .fetchError 3, [7]⟩ ∧
      Assoc.find failedCache.m_cacheItemById 7 ≠ none ∧
      failedCache.getData 7 (fun _ => .ok 5) = .ok ⟨failedCacheAgain, .fetchError 3, []⟩ ∧
      (Outcome.fetchError 3 : Outcome Nat Nat) ≠ ofResult (.ok 5) := by
  refine ⟨rfl, by decide, rfl, ?_⟩
  simp [ofResult]

/-- C11 as amended: the item of a failed fetch replays the stored error.
First part: in every state of the cache in which key `k` is resident with a
future-backed item whose future holds the error `e`, a call `getData(k, a_db)`
ends with `e` and makes no call of `fetchProductDetails`, whatever `a_db` would
answer; it only refreshes the position of the item, which stays future-backed
with the same future, so the calls after it end the same way; among overlapping
calls it leaves from inside the block under the mutex.  Second part: in every
reachable state, capacity at least 1, a call for a key that is not resident and
whose source fails with `e` ends with `e` after one fetch, and the call for `k`
made next ends with `e` again without a fetch. -/
theorem C11_failed_item_replays (TData TId E : Type) [DecidableEq TId] (k : TId) (e : E) :
    (∀ (s : CachedData TData TId E) (it : ICacheItem TData TId) (f : Nat),
      Assoc.find s.m_cacheItemById k = some it → it.kind = .Empty f →
      Assoc.find s.shared f = some (.error e) →
      ∀ a_db : TId → Except E TData,
        ∃ r, s.getData k a_db = .ok r ∧ r.outcome = .fetchError e ∧ r.fetches = [] ∧
          Assoc.find r.cache.m_cacheItemById k = some { it with Count := s.m_count } ∧
          r.cache.shared = s.shared ∧
          ∀ calls : List (Call TData TId E),
            System.step { cache := s, calls := calls } (.call k) =
              some { cache := r.cache, calls := calls ++ [⟨k, .returned (.fetchError e)⟩] }) ∧
    (∀ (sys : System TData TId E), Reachable sys →
      Assoc.find sys.cache.m_cacheItemById k = none → 1 ≤ sys.cache.m_maxSize →
      ∀ a_db : TId → Except E TData, a_db k = .error e →
      ∀ a_db' : TId → Except E TData,
        ∃ r1 r2, sys.cache.getData k a_db = .ok r1 ∧ r1.outcome = .fetchError e ∧
          r1.fetches = [k] ∧
          r1.cache.getData k a_db' = .ok r2 ∧ r2.outcome = .fetchError e ∧ r2.fetches = []) := by
  have part1 : ∀ (s : CachedData TData TId E) (it : ICacheItem TData TId) (f : Nat),
      Assoc.find s.m_cacheItemById k = some it → it.kind = .Empty f →
      Assoc.find s.shared f = some (.error e) →
      ∀ a_db : TId → Except E TData,
        ∃ r, s.getData k a_db = .ok r ∧ r.outcome = .fetchError e ∧ r.fetches = [] ∧
          Assoc.find r.cache.m_cacheItemById k = some { it with Count := s.m_count } ∧
          r.cache.shared = s.shared ∧
          ∀ calls : List (Call TData TId E),
            System.step { cache := s, calls := calls } (.call k) =
              some { cache := r.cache, calls := calls ++ [⟨k, .returned (.fetchError e)⟩] } := by
    intro s it f hk hf hs a_db
    refine ⟨_, getData_error s hk hf hs a_db, rfl, rfl, ?_, rfl, ?_⟩
    · rw [find_touch_id]; simp
    · intro calls
      simp only [System.step, lockedBlock_error s hk hf hs]
  refine ⟨part1, ?_⟩
  intro sys hr hk hcap a_db hdb a_db'
  have hinv := hr.poolInv.inv
  obtain ⟨s', hl, hg⟩ := getData_miss hinv hk a_db
  obtain ⟨h1, _⟩ := lockedBlock_miss_keeps hinv hk hcap hl
  rw [hdb] at hg
  obtain ⟨r2, hr2, ho2, hf2, _⟩ :=
    part1 { s' with shared := Assoc.assign s'.shared sys.cache.heapTop (.error e) }
      { emptyItem sys.cache k with Count := sys.cache.m_count } sys.cache.heapTop h1 rfl
      (Assoc.find_assign_self _ _ _) a_db'
  exact ⟨_, r2, hg, rfl, rfl, hr2, ho2, hf2⟩

/-- C11 as amended, on the example: the cache left by the failed fetch of key 7
replays error 3 to a call whose source would answer 5; and from the new cache of
capacity 1 the failing call and the call after it both end with error 3. -/
theorem C11_failed_item_replays_witness :
    (Assoc.find failedCache.m_cacheItemById 7
        = some { addr := 1, Id := 7, Count := 1, kind := .Empty 0 } ∧
      Assoc.find failedCache.shared 0 = some (.error 3) ∧
      ∃ r, failedCache.getData 7 (fun _ => .ok 5) = .ok r ∧ r.outcome = .fetchError 3 ∧
        r.fetches = []) ∧
    (Reachable (System.init 1 : System Nat Nat Nat) ∧
      ∃ r1 r2, (System.init 1 : System Nat Nat Nat).cache.getData 7 (fun _ => .error 3) = .ok r1 ∧
        r1.outcome = .fetchError 3 ∧ r1.fetches = [7] ∧
        r1.cache.getData 7 (fun _ => .ok 5) = .ok r2 ∧ r2.outcome = .fetchError 3 ∧
        r2.fetches = []) :=
  ⟨⟨rfl, rfl,
    ((C11_failed_item_replays Nat Nat Nat 7 3).1 failedCache _ 0 rfl rfl rfl
      (fun _ => .ok 5)).imp (fun _ hr => ⟨hr.1, hr.2.1, hr.2.2.1⟩)⟩,
   ⟨⟨1, [], rfl⟩,
    (C11_failed_item_replays Nat Nat Nat 7 3).2 (System.init 1) ⟨1, [], rfl⟩ rfl
      (by decide) (fun _ => .error 3) rfl (fun _ => .ok 5)⟩⟩

/-! ## What one call changes -/

/-- The key index after the block under the mutex, key by key: the entries of
the keys other than `a_id` are as before, except for the entry of at most one
key, which is gone; an entry goes only when `a_id` was absent and the cache was
full, and with a capacity of at least 1 it is not the entry of `a_id`. -/
theorem lockedBlock_frame {s s' : CachedData TData TId E} (h : Inv s) {k : TId}
    {x : Exit TData TId E} (hl : lockedBlock s k = .ok (s', x)) :
    ∃ removed : Option TId,
      (∀ k', k' ≠ k → Assoc.find s'.m_cacheItemById k' =
        if removed = some k' then none else Assoc.find s.m_cacheItemById k') ∧
      (removed ≠ none →
        Assoc.find s.m_cacheItemById k = none ∧ Assoc.size s.m_cacheItemById = s.m_maxSize) ∧
      (1 ≤ s.m_maxSize → removed ≠ some k ∧ Assoc.find s'.m_cacheItemById k ≠ none) := by
  rcases lockedBlock_cases h k with ⟨it, d, hk, hd, hb⟩ | ⟨it, f, d, hk, hf, hs, hb⟩ |
    ⟨it, f, e, hk, hf, hs, hb⟩ | ⟨it, f, hk, hf, hs, hb⟩ | ⟨hk, _⟩
  · rw [hb] at hl
    obtain ⟨h1, _⟩ := Prod.mk.inj (Except.ok.inj hl)
    subst h1
    refine ⟨none, ?_, fun hn => absurd rfl hn, fun _ => ⟨by simp, ?_⟩⟩
    · intro k' hne
      rw [find_touch_id]; simp [hne]
    · rw [find_touch_id]; simp
  · rw [hb] at hl
    obtain ⟨h1, _⟩ := Prod.mk.inj (Except.ok.inj hl)
    subst h1
    refine ⟨none, ?_, fun hn => absurd rfl hn, fun _ => ⟨by simp, ?_⟩⟩
    · intro k' hne
      rw [find_fill_id, find_touch_id]; simp [hne]
    · rw [find_fill_id]; simp
  · rw [hb] at hl
    obtain ⟨h1, _⟩ := Prod.mk.inj (Except.ok.inj hl)
    subst h1
    refine ⟨none, ?_, fun hn => absurd rfl hn, fun _ => ⟨by simp, ?_⟩⟩
    · intro k' hne
      rw [find_touch_id]; simp [hne]
    · rw [find_touch_id]; simp
  · rw [hb] at hl
    obtain ⟨h1, _⟩ := Prod.mk.inj (Except.ok.inj hl)
    subst h1
    refine ⟨none, ?_, fun hn => absurd rfl hn, fun _ => ⟨by simp, ?_⟩⟩
    · intro k' hne
      show Assoc.find (touch _ k it).m_cacheItemById k' = _
      rw [find_touch_id]; simp [hne]
    · show Assoc.find (touch _ k it).m_cacheItemById k ≠ none
      rw [find_touch_id]; simp
  · obtain ⟨s2, hl2, _, hcase⟩ := lockedBlock_miss h hk
    rw [hl] at hl2
    obtain ⟨h1, _⟩ := Prod.mk.inj (Except.ok.inj hl2)
    subst h1
    rcases hcase with ⟨_, hs'⟩ | ⟨hfull, victim, hv, _, _, hs'⟩
    · refine ⟨none, ?_, fun hn => absurd rfl hn, fun _ => ⟨by simp, ?_⟩⟩
      · intro k' hne
        rw [hs']
        show Assoc.find (add _ k _).m_cacheItemById k' = _
        rw [find_add_id]; simp [hne]
      · rw [hs']
        show Assoc.find (add _ k _).m_cacheItemById k ≠ none
        rw [find_add_id]; simp
    · have hgone : Assoc.find s'.m_cacheItemById victim.Id = none := by
        rw [hs']; exact Assoc.find_erase_self _ _
      refine ⟨some victim.Id, ?_, fun _ => ⟨hk, hfull⟩, fun hcap => ?_⟩
      · intro k' hne
        rw [hs']
        show Assoc.find (Assoc.erase (add _ k _).m_cacheItemById victim.Id) k' = _
        rw [Assoc.find_erase, find_add_id]
        by_cases hkv : k' = victim.Id
        · simp [hkv]
        · have hkv' : ¬ victim.Id = k' := fun hc => hkv hc.symm
          simp [hkv, hkv', hne]
      · obtain ⟨hres, _⟩ := lockedBlock_miss_keeps h hk hcap hl
        have hres' : Assoc.find s'.m_cacheItemById k ≠ none := by rw [hres]; simp
        refine ⟨?_, hres'⟩
        intro hc
        have hc' : victim.Id = k := Option.some.inj hc
        rw [hc'] at hgone
        exact hres' hgone

/-- Futures made before a call keep their content through the call: the only
shared state a call running alone writes to is the one of its own promise. -/
theorem getData_shared {s : CachedData TData TId E} (hinv : Inv s) {k : TId}
    {a_db : TId → Except E TData} {r : Result TData TId E} (hr : s.getData k a_db = .ok r)
    {p : Nat} (hp : p < s.heapTop) : Assoc.find r.cache.shared p = Assoc.find s.shared p := by
  rcases lockedBlock_cases hinv k with ⟨it, d, hk, hd, _⟩ | ⟨it, f, d, hk, hf, hs, _⟩ |
    ⟨it, f, e, hk, hf, hs, _⟩ | ⟨it, f, hk, hf, hs, _⟩ | ⟨hk, _⟩
  · rw [getData_filled s hk hd a_db] at hr
    have := Except.ok.inj hr; subst this; rfl
  · rw [getData_value s hk hf hs a_db] at hr
    have := Except.ok.inj hr; subst this; rfl
  · rw [getData_error s hk hf hs a_db] at hr
    have := Except.ok.inj hr; subst this; rfl
  · rw [getData_waiting hinv hk hf hs a_db] at hr
    have := Except.ok.inj hr; subst this; rfl
  · obtain ⟨s', hl, hg⟩ := getData_miss hinv hk a_db
    obtain ⟨s2, x, hl2, _, _, _, hsh, _, _⟩ := lockedBlock_inv hinv k
    rw [hl] at hl2
    have hs1 : s' = s2 := (Prod.mk.inj (Except.ok.inj hl2)).1
    subst hs1
    rw [hg] at hr
    have := Except.ok.inj hr; subst this
    show Assoc.find (Assoc.assign s'.shared s.heapTop (a_db k)) p = _
    rw [Assoc.find_assign_ne _ _ _ (by omega), hsh]

/-- C12 (side-effect frame of one call).  In every reachable state of a cache
of capacity at least 1 and for every key `k`, a call `getData(k, a_db)` ends and
(a) at most one key that was resident is no longer resident, and one is gone
only if `k` was not resident and the cache held `m_maxSize` items; (b) the key
that is gone is not `k`, and `k` itself is resident after the call; (c) if `k`
was resident, the resident keys are the same as before; (d) a key other than `k`
that is resident after the call was resident before with the very same item
(same address, position and state or value), its entry in the position index is
as before, and the content of its future is as before; and no key other than `k`
becomes resident. -/
theorem C12_frame (TData TId E : Type) [DecidableEq TId]
    (sys : System TData TId E) (h : Reachable sys) (hcap : 1 ≤ sys.cache.m_maxSize) (k : TId)
    (a_db : TId → Except E TData) :
    ∃ r, sys.cache.getData k a_db = .ok r ∧
      (∀ k1 k2, Assoc.find sys.cache.m_cacheItemById k1 ≠ none →
        Assoc.find r.cache.m_cacheItemById k1 = none →
        Assoc.find sys.cache.m_cacheItemById k2 ≠ none →
        Assoc.find r.cache.m_cacheItemById k2 = none → k1 = k2) ∧
      (∀ k1, Assoc.find sys.cache.m_cacheItemById k1 ≠ none →
        Assoc.find r.cache.m_cacheItemById k1 = none →
        Assoc.find sys.cache.m_cacheItemById k = none ∧
        Assoc.size sys.cache.m_cacheItemById = sys.cache.m_maxSize ∧ k1 ≠ k) ∧
      Assoc.find r.cache.m_cacheItemById k ≠ none ∧
      (Assoc.find sys.cache.m_cacheItemById k ≠ none →
        ∀ k', Assoc.find r.cache.m_cacheItemById k' ≠ none ↔
          Assoc.find sys.cache.m_cacheItemById k' ≠ none) ∧
      (∀ k' it', k' ≠ k → Assoc.find r.cache.m_cacheItemById k' = some it' →
        Assoc.find sys.cache.m_cacheItemById k' = some it' ∧
        Assoc.find r.cache.m_cacheItemByCount it'.Count = some it'.addr ∧
        Assoc.find sys.cache.m_cacheItemByCount it'.Count = some it'.addr ∧
        ∀ f, it'.kind = .Empty f →
          Assoc.find r.cache.shared f = Assoc.find sys.cache.shared f) := by
  have hinv := h.poolInv.inv
  obtain ⟨r, hr, hinv', _⟩ := getData_inv hinv k a_db
  obtain ⟨s1, x, hl, hbyId, _⟩ := getData_indices hr
  obtain ⟨removed, hfr, hrem, hkeep⟩ := lockedBlock_frame hinv hl
  obtain ⟨hnk, hres⟩ := hkeep hcap
  rw [← hbyId] at hfr hres
  -- a key that is gone is the removed one
  have hgone : ∀ k1, Assoc.find sys.cache.m_cacheItemById k1 ≠ none →
      Assoc.find r.cache.m_cacheItemById k1 = none → removed = some k1 := by
    intro k1 h1 h2
    have hne : k1 ≠ k := fun hc => hres (hc ▸ h2)
    have := hfr k1 hne
    rw [h2] at this
    by_contra hc
    rw [if_neg hc] at this
    exact h1 this.symm
  refine ⟨r, hr, ?_, ?_, hres, ?_, ?_⟩
  · intro k1 k2 h1 h1' h2 h2'
    have e1 := hgone k1 h1 h1'
    have e2 := hgone k2 h2 h2'
    rw [e1] at e2
    exact Option.some.inj e2
  · intro k1 h1 h1'
    have e1 := hgone k1 h1 h1'
    obtain ⟨ha, hb⟩ := hrem (by rw [e1]; simp)
    exact ⟨ha, hb, fun hc => hres (hc ▸ h1')⟩
  · intro hk k'
    have hnone : removed = none := by
      by_contra hc
      exact hk (hrem hc).1
    by_cases hkk : k' = k
    · subst hkk
      exact ⟨fun _ => hk, fun _ => hres⟩
    · rw [hfr k' hkk, hnone]; simp
  · intro k' it' hne hk'
    have hf := hfr k' hne
    rw [hk'] at hf
    have hold : Assoc.find sys.cache.m_cacheItemById k' = some it' := by
      by_cases hc : removed = some k'
      · rw [if_pos hc] at hf; cases hf
      · rw [if_neg hc] at hf; exact hf.symm
    refine ⟨hold, (hinv'.wf.idOf k' it' hk').2.1, (hinv.wf.idOf k' it' hold).2.1, ?_⟩
    intro f hkind
    rcases hinv.wf.kinds k' it' hold with ⟨f', hf', hlt⟩ | ⟨d, hd⟩
    · rw [hkind] at hf'
      have := ItemKind.Empty.inj hf'
      subst this
      exact getData_shared hinv hr hlt
    · rw [hkind] at hd; cases hd

/-- C12 on the example (capacity 2, keys 1 and 2 resident): a call for key 3
ends, leaves key 3 resident, and key 2, still resident, has the item it had. -/
theorem C12_frame_witness :
    Reachable exampleSys ∧ 1 ≤ exampleSys.cache.m_maxSize ∧
      ∃ r, exampleSys.cache.getData 3 (fun a => .ok (10 * a)) = .ok r ∧
        Assoc.find r.cache.m_cacheItemById 3 ≠ none ∧
        (Assoc.find r.cache.m_cacheItemById 1 = none →
          Assoc.find exampleSys.cache.m_cacheItemById 3 = none ∧
          Assoc.size exampleSys.cache.m_cacheItemById = exampleSys.cache.m_maxSize ∧
          (1 : Nat) ≠ 3) :=
  ⟨exampleSys_reachable, by decide,
    (C12_frame Nat Nat Nat exampleSys exampleSys_reachable (by decide) 3
      (fun a => .ok (10 * a))).imp
      (fun _ hr => ⟨hr.1, hr.2.2.2.1, hr.2.2.1 1 (by decide)⟩)⟩

/-! ## The two indices -/

/-- A well-formed cache has its two indices in bijection. -/
theorem WF.indexBijection {top : Nat} {s : CachedData TData TId E} (h : WF top s) :
    IndexBijection s := by
  refine ⟨?_, ?_, h.sizeEq⟩
  · intro k it hk
    obtain ⟨hid, hc, _⟩ := h.idOf k it hk
    refine ⟨hid, hc, ?_⟩
    obtain ⟨it2, hd, hf2, _, ha⟩ := h.deref_live hc
    have hkk := h.addrInj _ _ _ _ hf2 hk ha
    rw [hkk, hk] at hf2
    rw [hd, ← Option.some.inj hf2]
  · intro p a hp
    obtain ⟨it, hd, hf, hc, _⟩ := h.deref_live hp
    exact ⟨it, hd, hc, hf⟩

/-- C13 (index consistency).  In every state reachable by calls of `getData`,
overlapping or not and whatever their outcome (a value, the error of the source,
the stored error of an earlier fetch, the timeout), the key index and the
position index are in bijection: each resident key has one entry in the key
index, its item carries that key and a position under which the position index
holds a pointer to that same item; each position has at most one entry in the
position index, and that entry points to a live item that has this position and
is the item of its key; positions of different keys differ; and both indices
have the same size.  The same holds after every sequence of calls made one
after another on a new cache, which always runs to its end. -/
theorem C13_index_consistency (TData TId E : Type) [DecidableEq TId] :
    (∀ sys : System TData TId E, Reachable sys →
      IndexBijection sys.cache ∧
      (Assoc.keys sys.cache.m_cacheItemById).Nodup ∧
      (Assoc.keys sys.cache.m_cacheItemByCount).Nodup ∧
      (∀ k1 k2 it1 it2, Assoc.find sys.cache.m_cacheItemById k1 = some it1 →
        Assoc.find sys.cache.m_cacheItemById k2 = some it2 → it1.Count = it2.Count → k1 = k2) ∧
      Assoc.size sys.cache.m_cacheItemByCount = Assoc.size sys.cache.m_cacheItemById) ∧
    (∀ (a_maxSize : Nat) (calls : List (TId × (TId → Except E TData))),
      ∃ s log, runCalls (CachedData.init a_maxSize : CachedData TData TId E) calls = .ok (s, log) ∧
        IndexBijection s) := by
  constructor
  · intro sys hr
    have hwf := hr.poolInv.inv.wf
    exact ⟨hwf.indexBijection, hwf.nodupId, hwf.nodupCount,
      fun _ _ _ _ h1 h2 hc => hwf.count_inj h1 h2 hc, hwf.sizeEq⟩
  · intro a_maxSize calls
    obtain ⟨s, log, hrun, hinv, _⟩ := runCalls_inv (Inv.inv_init a_maxSize) calls
    exact ⟨s, log, hrun, hinv.wf.indexBijection⟩

/-- C13 on the schedule whose calls all end with the error of the source: the
indices of the state it leads to are in bijection. -/
theorem C13_index_consistency_witness :
    Reachable coalesceSys2 ∧ IndexBijection coalesceSys2.cache ∧
      Assoc.size coalesceSys2.cache.m_cacheItemByCount
        = Assoc.size coalesceSys2.cache.m_cacheItemById :=
  ⟨coalesceSys2_reachable,
    ((C13_index_consistency Nat Nat Nat).1 coalesceSys2 coalesceSys2_reachable).1,
    ((C13_index_consistency Nat Nat Nat).1 coalesceSys2 coalesceSys2_reachable).2.2.2.2⟩

/-! ## Owners of the resident items -/

omit [DecidableEq TId] in
theorem getElem?_concat_old {l : List (Call TData TId E)} {c cj : Call TData TId E} {j : Nat}
    (h : l[j]? = some cj) : (l ++ [c])[j]? = some cj := by
  have hj : j < l.length := by
    by_contra hc
    rw [List.getElem?_eq_none (by omega)] at h
    cases h
  rw [List.getElem?_append_left hj]; exact h

omit [DecidableEq TId] in
theorem getElem?_concat_new (l : List (Call TData TId E)) (c : Call TData TId E) :
    (l ++ [c])[l.length]? = some c := by
  simp

theorem Owned.owned_step {sys sys' : System TData TId E} (hp : PoolInv sys) (h : Owned sys)
    {ev : Event TData TId E} (hs : sys.step ev = some sys') : Owned sys' := by
  intro k' it' f hk' hf
  rcases step_cases hp hs with ⟨k, s', x, ph, _, hl, rfl, hph⟩ | ⟨i, c, c', hi, hcalls, hid, hitem, hc⟩
  · rcases lockedBlock_resident hp.inv hl hk' hf with ⟨it0, h0, hk0⟩ | ⟨hkk, hfh, hnone⟩
    · obtain ⟨j, cj, hj, hjid, hjp⟩ := h k' it0 f h0 hk0
      exact ⟨j, cj, getElem?_concat_old hj, hjid, hjp⟩
    · obtain ⟨s2, hl2, _⟩ := lockedBlock_miss hp.inv hnone
      rw [hl] at hl2
      have hx := (Prod.mk.inj (Except.ok.inj hl2)).2
      refine ⟨sys.calls.length, ⟨k, ph⟩, getElem?_concat_new _ _, hkk.symm, ?_⟩
      rcases hph with ⟨o, hxo, _⟩ | ⟨w, hxw, hpw⟩
      · rw [hxo] at hx; cases hx
      · rw [hxw] at hx
        have hw := Exit.unlocked.inj hx
        subst hpw
        simp [Call.promise, Phase.item, hw, promiseItem, hfh]
  · have hbyId : sys'.cache.m_cacheItemById = sys.cache.m_cacheItemById := by
      rcases hc with hc | ⟨p, r, _, hc⟩
      · rw [hc]
      · rw [hc]
    rw [hbyId] at hk'
    obtain ⟨j, cj, hj, hjid, hjp⟩ := h k' it' f hk' hf
    rw [hcalls]
    by_cases hji : j = i
    · subst hji
      rw [hi] at hj
      have hcc := Option.some.inj hj
      subst hcc
      have hlt : j < sys.calls.length := by
        by_contra hc2
        rw [List.getElem?_eq_none (by omega)] at hi
        cases hi
      refine ⟨j, c', ?_, by rw [hid]; exact hjid, by rw [(waitsOn_of_item hitem).2]; exact hjp⟩
      simp [List.getElem?_set, hlt]
    · refine ⟨j, cj, ?_, hjid, hjp⟩
      rw [List.getElem?_set_ne (fun hc2 => hji hc2.symm)]; exact hj

theorem Owned.owned_run {sys : System TData TId E} :
    ∀ (evs : List (Event TData TId E)) {sys' : System TData TId E}, PoolInv sys → Owned sys →
      sys.run evs = some sys' → Owned sys' := by
  intro evs
  induction evs generalizing sys with
  | nil =>
    intro sys' _ h hr
    simp only [System.run, Option.some.injEq] at hr
    subst hr
    exact h
  | cons ev rest ih =>
    intro sys' hp h hr
    simp only [System.run] at hr
    cases hs : sys.step ev with
    | none => rw [hs] at hr; cases hr
    | some sys1 =>
      rw [hs] at hr
      exact ih (hp.step hs) (h.owned_step hp hs) hr

theorem Reachable.owned {sys : System TData TId E} (h : Reachable sys) : Owned sys := by
  obtain ⟨n, evs, hr⟩ := h
  refine Owned.owned_run evs (PoolInv.pool_init n) ?_ hr
  intro k it f hk
  simp [System.init, CachedData.init, Assoc.find] at hk

/-! ## A waiter that gives up -/

/-- An owner that has not published can always go on to the end of its call:
from where it stands, the steps that are left to it can be taken one after the
other, and they store the answer of the source in its promise. -/
theorem owner_completes {sys : System TData TId E} {j : Nat} {k : TId}
    {own : ICacheItem TData TId} {f : Nat} {ph : Phase TData TId E}
    (hj : sys.calls[j]? = some ⟨k, ph⟩) (hown : own.kind = .Promising f)
    (hs : Assoc.find sys.cache.shared f = none) (r : Except E TData)
    (hph : ph = .unlocked own ∨ ph = .fetching own ∨ ph = .fetched own r) :
    ∃ evs, sys.run evs = some
      { cache := { sys.cache with shared := Assoc.assign sys.cache.shared f r }
        calls := sys.calls.set j ⟨k, .finished own (ofResult r)⟩ } := by
  have hlt : j < sys.calls.length := by
    by_contra hc
    rw [List.getElem?_eq_none (by omega)] at hj
    cases hj
  -- from the point where the source has answered
  have fromFetched : ∀ (l : List (Call TData TId E)), l.length = sys.calls.length →
      l[j]? = some ⟨k, .fetched own r⟩ → l.set j ⟨k, .finished own (ofResult r)⟩
        = sys.calls.set j ⟨k, .finished own (ofResult r)⟩ →
      System.run { cache := sys.cache, calls := l } [.publish j] = some
        { cache := { sys.cache with shared := Assoc.assign sys.cache.shared f r }
          calls := sys.calls.set j ⟨k, .finished own (ofResult r)⟩ } := by
    intro l _ hl hset
    have e := @step_publish TData TId E _ { cache := sys.cache, calls := l } j k own r f hl hown hs
    simp only [System.run, e, hset]
  -- from inside the source
  have fromFetching : ∀ (l : List (Call TData TId E)), l.length = sys.calls.length →
      l[j]? = some ⟨k, .fetching own⟩ → l.set j ⟨k, .finished own (ofResult r)⟩
        = sys.calls.set j ⟨k, .finished own (ofResult r)⟩ →
      System.run { cache := sys.cache, calls := l } [.fetchEnd j r, .publish j] = some
        { cache := { sys.cache with shared := Assoc.assign sys.cache.shared f r }
          calls := sys.calls.set j ⟨k, .finished own (ofResult r)⟩ } := by
    intro l hlen hl hset
    have e := @step_fetchEnd TData TId E _ { cache := sys.cache, calls := l } j k own r hl
    have hnext := fromFetched (l.set j ⟨k, .fetched own r⟩) (by rw [List.length_set]; exact hlen)
      (List.getElem?_set_self (by rw [hlen]; exact hlt)) (by rw [List.set_set]; exact hset)
    simp only [System.run, e] at hnext ⊢
    exact hnext
  rcases hph with h1 | h1 | h1
  · subst h1
    have e := @step_fetchStart TData TId E _ sys j k own hj (by simp [ICacheItem.isWaiting, hown])
    have hnext := fromFetching (sys.calls.set j ⟨k, .fetching own⟩) (List.length_set _ _ _)
      (List.getElem?_set_self hlt) (by rw [List.set_set])
    refine ⟨[.fetchStart j, .fetchEnd j r, .publish j], ?_⟩
    simp only [System.run, e] at hnext ⊢
    exact hnext
  · subst h1
    exact ⟨[.fetchEnd j r, .publish j], fromFetching sys.calls rfl hj rfl⟩
  · subst h1
    exact ⟨[.publish j], fromFetched sys.calls rfl hj rfl⟩

omit [DecidableEq TId] in
theorem ofResult_value {r : Except E TData} {v : TData}
    (h : (Outcome.value v : Outcome TData E) = ofResult r) : r = .ok v := by
  cases r with
  | error e => simp [ofResult] at h
  | ok d => simp only [ofResult, Outcome.value.injEq] at h; rw [h]

omit [DecidableEq TId] in
theorem set_concat_length (l : List (Call TData TId E)) (c c' : Call TData TId E) :
    (l ++ [c]).set l.length c' = l ++ [c'] := by
  induction l with
  | nil => rfl
  | cons a t ih => simp only [List.cons_append, List.length_cons, List.set_cons_succ, ih]

/-- C14 (timeout independence).  In every reachable state in which key `k` is
resident and in flight (its item is future-backed and the future `f` is not
ready), a call `getData(k, _)` whose bounded wait ends before the future is
ready ends with the error "too long", without a fetch.  It leaves the cache as
it was except for the position of the item of `k`, which is the value the
counter had (and except for the counter and the heap): the item of `k` has the
address, key and future it had, every other key has the item it had, and no
shared state has changed, so future `f` is still unset.  The owner of `f`, a
call for `k` that has not finished, stands where it stood and can take the steps
that are left to it; when these end with the value `v`, a call for `k` made next
returns `v` without a fetch.  More generally, in every state reached after the
timeout in which the owner of `f` has finished with the value `v` and the item of
`k` is still the one with future `f`, a call for `k` returns `v` without a
fetch. -/
theorem C14_timeout_independence (TData TId E : Type) [DecidableEq TId]
    (sys : System TData TId E) (h : Reachable sys) (k : TId) (it : ICacheItem TData TId) (f : Nat)
    (hk : Assoc.find sys.cache.m_cacheItemById k = some it) (hf : it.kind = .Empty f)
    (hs : Assoc.find sys.cache.shared f = none) :
    ∃ (s1 : CachedData TData TId E) (w : ICacheItem TData TId),
      w.kind = .Waiting f ∧
      System.run sys [.call k, .wake sys.calls.length]
        = some { cache := s1, calls := sys.calls ++ [⟨k, .finished w .tooLong⟩] } ∧
      (∀ a_db : TId → Except E TData, sys.cache.getData k a_db = .ok ⟨s1, .tooLong, []⟩) ∧
      s1 = { touch { sys.cache with heapTop := sys.cache.heapTop + 2 } k it with
        heapTop := sys.cache.heapTop + 3 } ∧
      Assoc.find s1.m_cacheItemById k = some { it with Count := sys.cache.m_count } ∧
      (∀ k', k' ≠ k →
        Assoc.find s1.m_cacheItemById k' = Assoc.find sys.cache.m_cacheItemById k') ∧
      s1.shared = sys.cache.shared ∧ Assoc.find s1.shared f = none ∧
      (∃ (j : Nat) (own : ICacheItem TData TId) (ph : Phase TData TId E),
        sys.calls[j]? = some ⟨k, ph⟩ ∧
        (sys.calls ++ [(⟨k, .finished w .tooLong⟩ : Call TData TId E)])[j]? = some ⟨k, ph⟩ ∧
        own.kind = .Promising f ∧
        (ph = .unlocked own ∨ ph = .fetching own ∨ ∃ r, ph = .fetched own r) ∧
        ∀ v, (ph = .unlocked own ∨ ph = .fetching own ∨ ph = .fetched own (.ok v)) →
          ∃ evs sys2,
            System.run { cache := s1, calls := sys.calls ++ [⟨k, .finished w .tooLong⟩] } evs
              = some sys2 ∧
            sys2.calls[j]? = some ⟨k, .finished own (.value v)⟩ ∧
            ∀ a_db : TId → Except E TData,
              ∃ r, sys2.cache.getData k a_db = .ok r ∧ r.outcome = .value v ∧ r.fetches = []) ∧
      (∀ (evs : List (Event TData TId E)) (sys2 : System TData TId E) (j : Nat) (k' : TId)
          (own : ICacheItem TData TId) (v : TData),
        System.run { cache := s1, calls := sys.calls ++ [⟨k, .finished w .tooLong⟩] } evs
          = some sys2 →
        sys2.calls[j]? = some ⟨k', .finished own (.value v)⟩ → own.kind = .Promising f →
        ∀ it2, Assoc.find sys2.cache.m_cacheItemById k = some it2 → it2.kind = .Empty f →
        ∀ a_db : TId → Except E TData,
          ∃ r, sys2.cache.getData k a_db = .ok r ∧ r.outcome = .value v ∧ r.fetches = []) := by
  have hp := h.poolInv
  have hinv := hp.inv
  have base : ∃ (s1 : CachedData TData TId E) (w : ICacheItem TData TId),
      w.kind = .Waiting f ∧
      System.run sys [.call k, .wake sys.calls.length]
        = some { cache := s1, calls := sys.calls ++ [⟨k, .finished w .tooLong⟩] } ∧
      (∀ a_db : TId → Except E TData, sys.cache.getData k a_db = .ok ⟨s1, .tooLong, []⟩) ∧
      s1 = { touch { sys.cache with heapTop := sys.cache.heapTop + 2 } k it with
        heapTop := sys.cache.heapTop + 3 } ∧
      Assoc.find s1.m_cacheItemById k = some { it with Count := sys.cache.m_count } ∧
      (∀ k', k' ≠ k →
        Assoc.find s1.m_cacheItemById k' = Assoc.find sys.cache.m_cacheItemById k') ∧
      s1.shared = sys.cache.shared ∧ Assoc.find s1.shared f = none := by
    have hl := lockedBlock_waiting hinv hk hf hs
    refine ⟨{ touch { sys.cache with heapTop := sys.cache.heapTop + 2 } k it with
        heapTop := sys.cache.heapTop + 3 },
      ⟨sys.cache.heapTop + 2, it.Id, sys.cache.m_count, .Waiting f⟩, rfl, ?_,
      fun a_db => getData_waiting hinv hk hf hs a_db, rfl, ?_, ?_, rfl, hs⟩
    · simp only [System.run, System.step, hl, List.getElem?_concat_length,
        ICacheItem.isWaiting, ICacheItem.getData, touch, hs, if_true, set_concat_length]
    · show Assoc.find (touch _ k it).m_cacheItemById k = _
      rw [find_touch_id]; simp
    · intro k' hne
      show Assoc.find (touch _ k it).m_cacheItemById k' = _
      rw [find_touch_id]; simp [hne]
  obtain ⟨s1, w, hw, hrun, hget, hs1, hfind, hothers, hsh, hs'⟩ := base
  refine ⟨s1, w, hw, hrun, hget, hs1, hfind, hothers, hsh, hs', ?_, ?_⟩
  · obtain ⟨j, c, hj, hid, hpr⟩ := h.owned k it f hk hf
    have hok := hp.callOK j c hj
    obtain ⟨a_id, ph⟩ := c
    have hid' : a_id = k := hid
    subst hid'
    have hphase : ∃ own, own.kind = .Promising f ∧
        (ph = .unlocked own ∨ ph = .fetching own ∨ ∃ r, ph = .fetched own r) := by
      cases ph with
      | returned o => simp [Call.promise, Phase.item] at hpr
      | unlocked own =>
        refine ⟨own, ?_, Or.inl rfl⟩
        simp only [Call.promise, Phase.item] at hpr
        cases hkind : own.kind <;> rw [hkind] at hpr <;> simp at hpr
        rw [hpr]
      | fetching own =>
        refine ⟨own, ?_, Or.inr (Or.inl rfl)⟩
        simp only [Call.promise, Phase.item] at hpr
        cases hkind : own.kind <;> rw [hkind] at hpr <;> simp at hpr
        rw [hpr]
      | fetched own r =>
        refine ⟨own, ?_, Or.inr (Or.inr ⟨r, rfl⟩)⟩
        simp only [Call.promise, Phase.item] at hpr
        cases hkind : own.kind <;> rw [hkind] at hpr <;> simp at hpr
        rw [hpr]
      | finished own o =>
        exfalso
        simp only [Call.promise, Phase.item] at hpr
        rcases hok with ⟨p, r, hkp, _, hsp, _⟩ | ⟨f', hkw, _⟩
        · rw [hkp] at hpr
          simp only [Option.some.injEq] at hpr
          rw [hpr, hs] at hsp
          cases hsp
        · rw [hkw] at hpr
          cases hpr
    obtain ⟨own, hown, hph⟩ := hphase
    have hj' : (sys.calls ++ [(⟨a_id, .finished w .tooLong⟩ : Call TData TId E)])[j]?
        = some ⟨a_id, ph⟩ := getElem?_concat_old hj
    refine ⟨j, own, ph, hj, hj', hown, hph, ?_⟩
    intro v hv
    obtain ⟨evs, hevs⟩ := @owner_completes TData TId E _
      { cache := s1, calls := sys.calls ++ [⟨a_id, .finished w .tooLong⟩] }
      j a_id own f ph hj' hown hs' (.ok v) hv
    have hlt : j < (sys.calls ++ [(⟨a_id, .finished w .tooLong⟩ : Call TData TId E)]).length := by
      by_contra hc
      rw [List.getElem?_eq_none (by omega)] at hj'
      cases hj'
    refine ⟨evs, _, hevs, List.getElem?_set_self hlt, ?_⟩
    intro a_db
    exact ⟨_, getData_value { s1 with shared := Assoc.assign s1.shared f (.ok v) } hfind hf
      (Assoc.find_assign_self _ _ _) a_db, rfl, rfl⟩
  · intro evs sys2 j k' own v hrun2 hj hown it2 hk2 hf2 a_db
    have hreach : Reachable sys2 := by
      obtain ⟨m, evs0, h0⟩ := h
      refine ⟨m, evs0 ++ ([.call k, .wake sys.calls.length] ++ evs), ?_⟩
      rw [run_append evs0 _ h0, run_append _ evs hrun]
      exact hrun2
    have hok := hreach.poolInv.callOK j _ hj
    rcases hok with ⟨p, r, hkp, _, hsp, ho⟩ | ⟨f', hkw, _⟩
    · rw [hown] at hkp
      have hpf := ItemKind.Promising.inj hkp
      subst hpf
      have hr := ofResult_value ho
      subst hr
      exact ⟨_, getData_value _ hk2 hf2 hsp a_db, rfl, rfl⟩
    · rw [hown] at hkw
      cases hkw

/-- C14 on the schedule with three overlapping calls for key 7 (the owner has
not fetched yet): a fourth call for key 7 becomes a waiter on future 0, times
out, and leaves every shared state as it was. -/
theorem C14_timeout_independence_witness :
    Reachable coalesceSys1 ∧
      Assoc.find coalesceSys1.cache.m_cacheItemById 7
        = some { addr := 1, Id := 7, Count := 3, kind := .Empty 0 } ∧
      Assoc.find coalesceSys1.cache.shared 0 = none ∧
      ∃ (s1 : CachedData Nat Nat Nat) (w : ICacheItem Nat Nat),
        w.kind = .Waiting 0 ∧
        System.run coalesceSys1 [.call 7, .wake coalesceSys1.calls.length]
          = some { cache := s1, calls := coalesceSys1.calls ++ [⟨7, .finished w .tooLong⟩] } ∧
        s1.shared = coalesceSys1.cache.shared :=
  ⟨coalesceSys1_reachable, rfl, rfl,
    (C14_timeout_independence Nat Nat Nat coalesceSys1 coalesceSys1_reachable 7
      ⟨1, 7, 3, .Empty 0⟩ 0 rfl rfl rfl).imp
      (fun _ hs1 => hs1.imp (fun _ hw => ⟨hw.1, hw.2.1, hw.2.2.2.2.2.2.1⟩))⟩

/-! ## The position of a key that is found -/

/-- The block under the mutex on a resident key, state by state of its item:
the item (or the value-holding item that replaces it) is stamped with the value
the counter had, and the entry of the old position is gone. -/
theorem lockedBlock_hit {s : CachedData TData TId E} (h : Inv s) {k : TId}
    {it : ICacheItem TData TId} (hk : Assoc.find s.m_cacheItemById k = some it) :
    ∃ s' x it', lockedBlock s k = .ok (s', x) ∧ Inv s' ∧ s'.m_count = s.m_count + 1 ∧
      Assoc.find s'.m_cacheItemById k = some it' ∧ it'.Count = s.m_count ∧
      Assoc.find s'.m_cacheItemByCount it.Count = none ∧ it.Count < s.m_count ∧
      ((∃ d, it.kind = .Filled d ∧ it' = { it with Count := s.m_count } ∧
          x = .returned (.value d)) ∨
       (∃ f d, it.kind = .Empty f ∧ Assoc.find s.shared f = some (.ok d) ∧
          it' = { addr := s.heapTop + 2, Id := it.Id, Count := s.m_count, kind := .Filled d } ∧
          x = .returned (.value d)) ∨
       (∃ f e, it.kind = .Empty f ∧ Assoc.find s.shared f = some (.error e) ∧
          it' = { it with Count := s.m_count } ∧ x = .returned (.fetchError e)) ∨
       (∃ f, it.kind = .Empty f ∧ Assoc.find s.shared f = none ∧
          it' = { it with Count := s.m_count } ∧
          x = .unlocked { addr := s.heapTop + 2, Id := it.Id, Count := s.m_count,
                          kind := .Waiting f })) := by
  have hlt : it.Count < s.m_count :=
    (h.wf.bounds _ _ (h.wf.idOf k it hk).2.1).2
  have hne : it.Count ≠ s.m_count := by omega
  obtain ⟨s', x, hl, hinv', _, hcount, _⟩ := lockedBlock_inv h k
  have htouch : ∀ n, Assoc.find
      (touch { s with heapTop := s.heapTop + n } k it).m_cacheItemByCount it.Count = none := by
    intro n
    rw [find_touch_count]; simp
  rcases lockedBlock_cases h k with ⟨it0, d, hk0, hd, hb⟩ | ⟨it0, f, d, hk0, hf, hs, hb⟩ |
    ⟨it0, f, e, hk0, hf, hs, hb⟩ | ⟨it0, f, hk0, hf, hs, hb⟩ | ⟨hk0, _⟩
  · rw [hk] at hk0
    have := Option.some.inj hk0; subst this
    rw [hb] at hl
    obtain ⟨h1, h2⟩ := Prod.mk.inj (Except.ok.inj hl)
    subst h1; subst h2
    refine ⟨_, _, _, hb, hinv', hcount, ?_, rfl, htouch 2, hlt, Or.inl ⟨d, hd, rfl, rfl⟩⟩
    rw [find_touch_id]; simp
  · rw [hk] at hk0
    have := Option.some.inj hk0; subst this
    rw [hb] at hl
    obtain ⟨h1, h2⟩ := Prod.mk.inj (Except.ok.inj hl)
    subst h1; subst h2
    refine ⟨_, _, _, hb, hinv', hcount, ?_, rfl, ?_, hlt,
      Or.inr (Or.inl ⟨f, d, hf, hs, rfl, rfl⟩)⟩
    · rw [find_fill_id]; simp [filledItem, touch]
    · rw [find_fill_count]
      simp only [hne, if_false]
      exact htouch 2
  · rw [hk] at hk0
    have := Option.some.inj hk0; subst this
    rw [hb] at hl
    obtain ⟨h1, h2⟩ := Prod.mk.inj (Except.ok.inj hl)
    subst h1; subst h2
    refine ⟨_, _, _, hb, hinv', hcount, ?_, rfl, htouch 2, hlt,
      Or.inr (Or.inr (Or.inl ⟨f, e, hf, hs, rfl, rfl⟩))⟩
    rw [find_touch_id]; simp
  · rw [hk] at hk0
    have := Option.some.inj hk0; subst this
    rw [hb] at hl
    obtain ⟨h1, h2⟩ := Prod.mk.inj (Except.ok.inj hl)
    subst h1; subst h2
    refine ⟨_, _, _, hb, hinv', hcount, ?_, rfl, htouch 2, hlt,
      Or.inr (Or.inr (Or.inr ⟨f, hf, hs, rfl, rfl⟩))⟩
    show Assoc.find (touch _ k it).m_cacheItemById k = _
    rw [find_touch_id]; simp
  · rw [hk] at hk0; cases hk0

/-- C15 (position refresh on hit).  In every reachable state, with `c` the value
of the counter, and for every resident key `k`, whose item `it` has position
`p = it.Count`: the block under the mutex of a call `getData(k, _)` ends; after
it the counter is `c + 1`, the item of `k` has position `c`, the position index
maps `c` to that item (its address, which leads back to it) and has no entry at
`p`, and `p < c`.  This holds in each of the four states of the item: already
value-holding (the call returns the value), completed with a value (the item is
replaced by a new value-holding item with the same key and position `c`, and the
position index points to the new item), completed with an error (the call ends
with that error), in flight (the caller becomes a waiter).  A call that runs
alone leaves these indices and this counter, and makes no fetch. -/
theorem C15_position_refresh (TData TId E : Type) [DecidableEq TId]
    (sys : System TData TId E) (h : Reachable sys) (k : TId) (it : ICacheItem TData TId)
    (hk : Assoc.find sys.cache.m_cacheItemById k = some it) :
    ∃ s' x it', lockedBlock sys.cache k = .ok (s', x) ∧
      s'.m_count = sys.cache.m_count + 1 ∧
      Assoc.find s'.m_cacheItemById k = some it' ∧ it'.Id = k ∧
      it'.Count = sys.cache.m_count ∧
      Assoc.find s'.m_cacheItemByCount sys.cache.m_count = some it'.addr ∧
      deref s'.m_cacheItemById it'.addr = some it' ∧
      Assoc.find s'.m_cacheItemByCount it.Count = none ∧ it.Count < sys.cache.m_count ∧
      ((∃ d, it.kind = .Filled d ∧ it' = { it with Count := sys.cache.m_count } ∧
          x = .returned (.value d)) ∨
       (∃ f d, it.kind = .Empty f ∧ Assoc.find sys.cache.shared f = some (.ok d) ∧
          it' = { addr := sys.cache.heapTop + 2, Id := it.Id, Count := sys.cache.m_count,
                  kind := .Filled d } ∧
          x = .returned (.value d)) ∨
       (∃ f e, it.kind = .Empty f ∧ Assoc.find sys.cache.shared f = some (.error e) ∧
          it' = { it with Count := sys.cache.m_count } ∧ x = .returned (.fetchError e)) ∨
       (∃ f, it.kind = .Empty f ∧ Assoc.find sys.cache.shared f = none ∧
          it' = { it with Count := sys.cache.m_count } ∧
          x = .unlocked { addr := sys.cache.heapTop + 2, Id := it.Id,
                          Count := sys.cache.m_count, kind := .Waiting f })) ∧
      (∃ sys', sys.step (.call k) = some sys' ∧ sys'.cache = s') ∧
      ∀ a_db : TId → Except E TData,
        ∃ r, sys.cache.getData k a_db = .ok r ∧ r.fetches = [] ∧
          r.cache.m_cacheItemById = s'.m_cacheItemById ∧
          r.cache.m_cacheItemByCount = s'.m_cacheItemByCount ∧ r.cache.m_count = s'.m_count := by
  have hinv := h.poolInv.inv
  obtain ⟨s', x, it', hl, hinv', hcount, hk', hc', hgone, hlt, hcases⟩ := lockedBlock_hit hinv hk
  obtain ⟨hid, hpos, hderef⟩ := hinv'.wf.indexBijection.1 k it' hk'
  rw [hc'] at hpos
  refine ⟨s', x, it', hl, hcount, hk', hid, hc', hpos, hderef, hgone, hlt, hcases, ?_, ?_⟩
  · cases x with
    | returned o =>
      exact ⟨{ cache := s', calls := sys.calls ++ [⟨k, .returned o⟩] },
        by simp only [System.step, hl], rfl⟩
    | unlocked w =>
      exact ⟨{ cache := s', calls := sys.calls ++ [⟨k, .unlocked w⟩] },
        by simp only [System.step, hl], rfl⟩
  · intro a_db
    obtain ⟨r, hr, _, _⟩ := getData_inv hinv k a_db
    obtain ⟨s2, x2, hl2, hbyId, hbyCount, hcnt, _⟩ := getData_indices hr
    rw [hl] at hl2
    have := (Prod.mk.inj (Except.ok.inj hl2)).1
    subst this
    exact ⟨r, hr, (getData_fetches hinv hr).1 (by rw [hk]; simp), hbyId, hbyCount, hcnt⟩

/-- C15 on the example (counter 4): key 2 is resident at position 2 with a
future that holds 20; the block of a call for key 2 leaves the counter at 5, key
2 at position 4 with a new value-holding item, and no entry at position 2. -/
theorem C15_position_refresh_witness :
    Reachable exampleSys ∧
      Assoc.find exampleSys.cache.m_cacheItemById 2
        = some { addr := 3, Id := 2, Count := 2, kind := .Empty 2 } ∧
      ∃ (s' : CachedData Nat Nat Nat) (x : Exit Nat Nat Nat) (it' : ICacheItem Nat Nat),
        lockedBlock exampleSys.cache 2 = .ok (s', x) ∧
        s'.m_count = 5 ∧ Assoc.find s'.m_cacheItemById 2 = some it' ∧ it'.Count = 4 ∧
        Assoc.find s'.m_cacheItemByCount 4 = some it'.addr ∧
        Assoc.find s'.m_cacheItemByCount 2 = none :=
  ⟨exampleSys_reachable, rfl,
    (C15_position_refresh Nat Nat Nat exampleSys exampleSys_reachable 2
      ⟨3, 2, 2, .Empty 2⟩ rfl).imp
      (fun _ hs => hs.imp (fun _ hx => hx.imp (fun _ hi =>
        ⟨hi.1, hi.2.1, hi.2.2.1, hi.2.2.2.2.1, hi.2.2.2.2.2.1, hi.2.2.2.2.2.2.2.1⟩)))⟩

/-! ## Positions and the counter -/

/-- One step and the counter: a call that takes the lock advances it by one,
the other steps leave it alone. -/
theorem step_count {sys sys' : System TData TId E} (hp : PoolInv sys) {ev : Event TData TId E}
    (hs : sys.step ev = some sys') :
    ((∃ k, ev = .call k) ∧ sys'.cache.m_count = sys.cache.m_count + 1 ∧
      sys'.calls.length = sys.calls.length + 1) ∨
    ((∀ k, ev ≠ .call k) ∧ sys'.cache.m_count = sys.cache.m_count ∧
      sys'.calls.length = sys.calls.length ∧
      sys'.cache.m_cacheItemById = sys.cache.m_cacheItemById ∧
      sys'.cache.m_cacheItemByCount = sys.cache.m_cacheItemByCount ∧
      sys'.cache.m_nextToDelete = sys.cache.m_nextToDelete) := by
  cases ev with
  | call k =>
    left
    obtain ⟨s2, x2, hl, _, _, hcount, _⟩ := lockedBlock_inv hp.inv k
    simp only [System.step, hl] at hs
    cases x2 with
    | returned o =>
      simp only [Option.some.injEq] at hs
      subst hs
      exact ⟨⟨k, rfl⟩, hcount, by simp⟩
    | unlocked w =>
      simp only [Option.some.injEq] at hs
      subst hs
      exact ⟨⟨k, rfl⟩, hcount, by simp⟩
  | wake i =>
    right
    rcases step_cases hp hs with ⟨k, _, _, _, hev, _⟩ | ⟨j, cj, cj', _, hcalls, _, _, hc⟩
    · cases hev
    · refine ⟨(fun k hk => by cases hk), ?_, (by rw [hcalls, List.length_set]), ?_, ?_, ?_⟩ <;>
        rcases hc with hc | ⟨p, r, _, hc⟩ <;> rw [hc]
  | fetchStart i =>
    right
    rcases step_cases hp hs with ⟨k, _, _, _, hev, _⟩ | ⟨j, cj, cj', _, hcalls, _, _, hc⟩
    · cases hev
    · refine ⟨(fun k hk => by cases hk), ?_, (by rw [hcalls, List.length_set]), ?_, ?_, ?_⟩ <;>
        rcases hc with hc | ⟨p, r, _, hc⟩ <;> rw [hc]
  | fetchEnd i r =>
    right
    rcases step_cases hp hs with ⟨k, _, _, _, hev, _⟩ | ⟨j, cj, cj', _, hcalls, _, _, hc⟩
    · cases hev
    · refine ⟨(fun k hk => by cases hk), ?_, (by rw [hcalls, List.length_set]), ?_, ?_, ?_⟩ <;>
        rcases hc with hc | ⟨p, r, _, hc⟩ <;> rw [hc]
  | publish i =>
    right
    rcases step_cases hp hs with ⟨k, _, _, _, hev, _⟩ | ⟨j, cj, cj', _, hcalls, _, _, hc⟩
    · cases hev
    · refine ⟨(fun k hk => by cases hk), ?_, (by rw [hcalls, List.length_set]), ?_, ?_, ?_⟩ <;>
        rcases hc with hc | ⟨p, r, _, hc⟩ <;> rw [hc]

/-- The counter counts the calls that have taken the lock. -/
theorem run_count {sys : System TData TId E} :
    ∀ (evs : List (Event TData TId E)) {sys' : System TData TId E}, PoolInv sys →
      sys.run evs = some sys' →
      sys'.cache.m_count + sys.calls.length = sys.cache.m_count + sys'.calls.length ∧
        sys.cache.m_count ≤ sys'.cache.m_count := by
  intro evs
  induction evs generalizing sys with
  | nil =>
    intro sys' _ hr
    simp only [System.run, Option.some.injEq] at hr
    subst hr
    exact ⟨rfl, Nat.le_refl _⟩
  | cons ev rest ih =>
    intro sys' hp hr
    simp only [System.run] at hr
    cases hs : sys.step ev with
    | none => rw [hs] at hr; cases hr
    | some sys1 =>
      rw [hs] at hr
      obtain ⟨h1, h2⟩ := ih (hp.step hs) hr
      rcases step_count hp hs with ⟨_, hc, hlen⟩ | ⟨_, hc, hlen, _⟩ <;> constructor <;> omega

/-- An item that carries a position handed out before a step was resident,
the same item under the same key, before that step. -/
theorem step_old_position {sys sys' : System TData TId E} (hp : PoolInv sys)
    {ev : Event TData TId E} (hs : sys.step ev = some sys') {k : TId}
    {it : ICacheItem TData TId} (hk : Assoc.find sys'.cache.m_cacheItemById k = some it)
    (hlt : it.Count < sys.cache.m_count) :
    Assoc.find sys.cache.m_cacheItemById k = some it := by
  rcases step_cases hp hs with ⟨k2, s', x, ph, _, hl, rfl, _⟩ | ⟨j, cj, cj', _, _, _, _, hc⟩
  · by_cases hkk : k = k2
    · subst hkk
      exfalso
      cases hold : Assoc.find sys.cache.m_cacheItemById k with
      | some it0 =>
        obtain ⟨s2, x2, it2, hl2, _, _, hk2, hc2, _⟩ := lockedBlock_hit hp.inv hold
        rw [hl] at hl2
        have := (Prod.mk.inj (Except.ok.inj hl2)).1
        subst this
        have hk' : Assoc.find s'.m_cacheItemById k = some it := hk
        rw [hk2] at hk'
        have := Option.some.inj hk'
        subst this
        omega
      | none =>
        have hk' : Assoc.find s'.m_cacheItemById k = some it := hk
        rcases lockedBlock_miss_find hp.inv hold hl hk' with ⟨hne, _⟩ | ⟨_, hit⟩
        · exact hne rfl
        · rw [hit] at hlt
          exact Nat.lt_irrefl _ hlt
    · obtain ⟨removed, hfr, _⟩ := lockedBlock_frame hp.inv hl
      have hk' : Assoc.find s'.m_cacheItemById k = some it := hk
      rw [hfr k hkk] at hk'
      by_cases hrem : removed = some k
      · rw [if_pos hrem] at hk'; cases hk'
      · rw [if_neg hrem] at hk'; exact hk'
  · rcases hc with hc | ⟨p, r, _, hc⟩
    · rw [hc] at hk; exact hk
    · rw [hc] at hk; exact hk

/-- Positions handed out so far are never given to another item: an item that,
after any further steps, carries a position below the present value of the
counter is an item resident now, under the same key. -/
theorem run_old_position {sys : System TData TId E} :
    ∀ (evs : List (Event TData TId E)) {sys' : System TData TId E}, PoolInv sys →
      sys.run evs = some sys' → ∀ {k : TId} {it : ICacheItem TData TId},
      Assoc.find sys'.cache.m_cacheItemById k = some it → it.Count < sys.cache.m_count →
      Assoc.find sys.cache.m_cacheItemById k = some it := by
  intro evs
  induction evs generalizing sys with
  | nil =>
    intro sys' _ hr k it hk _
    simp only [System.run, Option.some.injEq] at hr
    subst hr
    exact hk
  | cons ev rest ih =>
    intro sys' hp hr k it hk hlt
    simp only [System.run] at hr
    cases hs : sys.step ev with
    | none => rw [hs] at hr; cases hr
    | some sys1 =>
      rw [hs] at hr
      have hmono : sys.cache.m_count ≤ sys1.cache.m_count := by
        rcases step_count hp hs with ⟨_, hc, _⟩ | ⟨_, hc, _⟩ <;> omega
      have h1 := ih (hp.step hs) hr hk (by omega)
      exact step_old_position hp hs h1 hlt

/-- C16 (position/counter invariant).  In every reachable state: resident items
of different keys have different positions; every position `p` of a resident
item, and every key `p` of the position index, satisfies
`m_nextToDelete ≤ p < m_count`, and `m_nextToDelete ≤ m_count`; the counter is
one more than the number of calls that have taken the lock so far.  Every call
`getData` advances the counter by exactly one, whether it hits or misses, returns
a value or ends with an error (its block under the mutex does so, and the steps
outside the block leave the counter alone).  So the position a call hands out,
the value of the counter, was never handed out before; and an item that, after
any further steps, carries a position handed out before is an item that is
resident now under the same key. -/
theorem C16_position_counter (TData TId E : Type) [DecidableEq TId]
    (sys : System TData TId E) (h : Reachable sys) :
    (∀ k1 k2 it1 it2, Assoc.find sys.cache.m_cacheItemById k1 = some it1 →
      Assoc.find sys.cache.m_cacheItemById k2 = some it2 → it1.Count = it2.Count → k1 = k2) ∧
    (∀ k it, Assoc.find sys.cache.m_cacheItemById k = some it →
      sys.cache.m_nextToDelete ≤ it.Count ∧ it.Count < sys.cache.m_count) ∧
    (∀ p a, Assoc.find sys.cache.m_cacheItemByCount p = some a →
      sys.cache.m_nextToDelete ≤ p ∧ p < sys.cache.m_count) ∧
    sys.cache.m_nextToDelete ≤ sys.cache.m_count ∧
    sys.cache.m_count = sys.calls.length + 1 ∧
    (∀ k, ∃ s' x, lockedBlock sys.cache k = .ok (s', x) ∧
      s'.m_count = sys.cache.m_count + 1) ∧
    (∀ k (a_db : TId → Except E TData), ∃ r, sys.cache.getData k a_db = .ok r ∧
      r.cache.m_count = sys.cache.m_count + 1) ∧
    (∀ ev sys', sys.step ev = some sys' →
      ((∃ k, ev = .call k) ∧ sys'.cache.m_count = sys.cache.m_count + 1) ∨
      ((∀ k, ev ≠ .call k) ∧ sys'.cache.m_count = sys.cache.m_count)) ∧
    (∀ evs sys' k it, sys.run evs = some sys' →
      Assoc.find sys'.cache.m_cacheItemById k = some it → it.Count < sys.cache.m_count →
      Assoc.find sys.cache.m_cacheItemById k = some it) := by
  have hp := h.poolInv
  have hwf := hp.inv.wf
  refine ⟨fun _ _ _ _ h1 h2 hc => hwf.count_inj h1 h2 hc, ?_, hwf.bounds, hwf.cursor, ?_, ?_, ?_,
    ?_, ?_⟩
  · intro k it hk
    exact hwf.bounds _ _ (hwf.idOf k it hk).2.1
  · obtain ⟨n, evs, hr⟩ := h
    have := (run_count evs (PoolInv.pool_init n) hr).1
    simp only [System.init, CachedData.init, List.length_nil] at this
    omega
  · intro k
    obtain ⟨s', x, hl, _, _, hc, _⟩ := lockedBlock_inv hp.inv k
    exact ⟨s', x, hl, hc⟩
  · intro k a_db
    obtain ⟨r, hr, _, _⟩ := getData_inv hp.inv k a_db
    obtain ⟨s1, x1, hl1, _, _, hcnt, _⟩ := getData_indices hr
    obtain ⟨s2, x2, hl2, _, _, hc, _⟩ := lockedBlock_inv hp.inv k
    rw [hl1] at hl2
    have := (Prod.mk.inj (Except.ok.inj hl2)).1
    subst this
    exact ⟨r, hr, by rw [hcnt, hc]⟩
  · intro ev sys' hs
    rcases step_count hp hs with ⟨h1, h2, _⟩ | ⟨h1, h2, _⟩
    · exact Or.inl ⟨h1, h2⟩
    · exact Or.inr ⟨h1, h2⟩
  · intro evs sys' k it hr hk hlt
    exact run_old_position evs hp hr hk hlt

/-- C16 on the example (three calls so far): the counter is 4, the cursor is
not above it, and key 2 has a position between them. -/
theorem C16_position_counter_witness :
    Reachable exampleSys ∧ exampleSys.cache.m_count = exampleSys.calls.length + 1 ∧
      exampleSys.cache.m_nextToDelete ≤ exampleSys.cache.m_count ∧
      (exampleSys.cache.m_nextToDelete ≤ 2 ∧ 2 < exampleSys.cache.m_count) :=
  ⟨exampleSys_reachable,
    (C16_position_counter Nat Nat Nat exampleSys exampleSys_reachable).2.2.2.2.1,
    (C16_position_counter Nat Nat Nat exampleSys exampleSys_reachable).2.2.2.1,
    (C16_position_counter Nat Nat Nat exampleSys exampleSys_reachable).2.1 2
      ⟨3, 2, 2, .Empty 2⟩ rfl⟩

/-! ## The length of the eviction scan -/

omit [DecidableEq TId] in
/-- A scan that starts at `n`, with the first entry at or after `n` at position
`p`, finds that entry with any number of probes above `p - n`, after exactly
`p - n + 1` probes. -/
theorem scanFrom_exact (m : List (Nat × Nat)) {p a : Nat} (hp : Assoc.find m p = some a) :
    ∀ (fuel n : Nat), n ≤ p → p - n < fuel →
      (∀ q, n ≤ q → q < p → Assoc.find m q = none) →
      scanFrom m fuel n = some (p, a) ∧ probesFrom m fuel n = some (p - n + 1) := by
  intro fuel
  induction fuel with
  | zero => intro n _ h; omega
  | succ fuel ih =>
    intro n hn hf hgap
    by_cases hnp : n = p
    · subst hnp
      simp [scanFrom, probesFrom, hp]
    · have hnone := hgap n (Nat.le_refl _) (by omega)
      obtain ⟨h1, h2⟩ := ih (n + 1) (by omega) (by omega)
        (fun q hq1 hq2 => hgap q (by omega) hq2)
      simp only [scanFrom, probesFrom, hnone, h1, h2, Option.map_some', true_and]
      congr 1
      omega

omit [DecidableEq TId] in
theorem gaps_all (m : List (Nat × Nat)) {n p : Nat}
    (hgap : ∀ q, n ≤ q → q < p → Assoc.find m q = none) : gaps m n p = p - n := by
  unfold gaps
  rw [List.filter_eq_self.2, List.length_range']
  intro q hq
  rw [List.mem_range'_1] at hq
  rw [hgap q hq.1 (by omega)]
  rfl

/-- C17 (the eviction scan terminates).  In every reachable state and for every
key `k` that is not resident, if the loop of lines 71-81 is entered (after the
new item has been entered at position `m_count`, the position index has more
than `m_maxSize` entries), then the position index has an entry at a position
`p` with `m_nextToDelete ≤ p ≤ m_count` and none between the cursor and `p`; the
scan stops at `p`, which is the entry it evicts, after `p - m_nextToDelete + 1`
probes, which is at most `m_count - m_nextToDelete + 1` and is one more than the
number of absent positions from the cursor up to `p`; any bound on the number of
probes that is at least `m_count - m_nextToDelete + 1` gives the same result. -/
theorem C17_scan_terminates (TData TId E : Type) [DecidableEq TId]
    (sys : System TData TId E) (h : Reachable sys) (k : TId)
    (hk : Assoc.find sys.cache.m_cacheItemById k = none)
    (hover : Assoc.size (missAdded sys.cache k).m_cacheItemByCount > sys.cache.m_maxSize) :
    ∃ p a,
      Assoc.find (missAdded sys.cache k).m_cacheItemByCount p = some a ∧
      sys.cache.m_nextToDelete ≤ p ∧ p ≤ sys.cache.m_count ∧
      (∀ q, sys.cache.m_nextToDelete ≤ q → q < p →
        Assoc.find (missAdded sys.cache k).m_cacheItemByCount q = none) ∧
      scan (missAdded sys.cache k).m_cacheItemByCount sys.cache.m_nextToDelete = some (p, a) ∧
      (∀ fuel, sys.cache.m_count - sys.cache.m_nextToDelete + 1 ≤ fuel →
        scanFrom (missAdded sys.cache k).m_cacheItemByCount fuel sys.cache.m_nextToDelete
          = some (p, a) ∧
        probesFrom (missAdded sys.cache k).m_cacheItemByCount fuel sys.cache.m_nextToDelete
          = some (p - sys.cache.m_nextToDelete + 1)) ∧
      p - sys.cache.m_nextToDelete + 1 ≤ sys.cache.m_count - sys.cache.m_nextToDelete + 1 ∧
      p - sys.cache.m_nextToDelete + 1 =
        gaps (missAdded sys.cache k).m_cacheItemByCount sys.cache.m_nextToDelete p + 1 ∧
      ∃ s', lockedBlock sys.cache k = .ok (s', .unlocked (promiseItem sys.cache k)) ∧
        Assoc.find s'.m_cacheItemByCount p = none ∧ s'.m_nextToDelete = p + 1 := by
  have hinv := h.poolInv.inv
  have hnew : Assoc.find (missAdded sys.cache k).m_cacheItemByCount sys.cache.m_count
      = some (sys.cache.heapTop + 1) := by
    unfold missAdded
    rw [find_add_count]; simp [emptyItem]
  obtain ⟨p, a, hscan, hn, hle, hp, hgap⟩ := scan_least hnew hinv.wf.cursor
  refine ⟨p, a, hp, hn, hle, hgap, hscan, ?_, by omega, by rw [gaps_all _ hgap], ?_⟩
  · intro fuel hfuel
    exact scanFrom_exact _ hp fuel _ hn (by omega) hgap
  · obtain ⟨s', hl, _, hcase⟩ := lockedBlock_miss hinv hk
    refine ⟨s', hl, ?_⟩
    rcases hcase with ⟨hlt, _⟩ | ⟨_, victim, _, _, hsc, hs'⟩
    · exfalso
      have hsz := @size_add TData TId E _ { sys.cache with heapTop := sys.cache.heapTop + 2 }
        (hinv.wf.alloc 2) k (emptyItem sys.cache k)
      have h2 : Assoc.size (missAdded sys.cache k).m_cacheItemByCount
          = Assoc.size sys.cache.m_cacheItemById + 1 := hsz.2
      omega
    · have hsc' : scan (missAdded sys.cache k).m_cacheItemByCount sys.cache.m_nextToDelete
          = some (victim.Count, victim.addr) := hsc
      rw [hscan] at hsc'
      obtain ⟨hpc, _⟩ := Prod.mk.inj (Option.some.inj hsc')
      rw [hs', hpc]
      exact ⟨Assoc.find_erase_self _ _, rfl⟩

/-- C17 on the example (cursor 1, counter 4, capacity 2, keys at positions 2 and
3): a miss on key 3 enters the loop; the scan stops at an entry `p` between the
cursor and the counter, after `p - 1 + 1` probes, one more than the gaps before
`p`. -/
theorem C17_scan_terminates_witness :
    Reachable exampleSys ∧ Assoc.find exampleSys.cache.m_cacheItemById 3 = none ∧
      Assoc.size (missAdded exampleSys.cache 3).m_cacheItemByCount > exampleSys.cache.m_maxSize ∧
      ∃ p a,
        scan (missAdded exampleSys.cache 3).m_cacheItemByCount exampleSys.cache.m_nextToDelete
          = some (p, a) ∧
        exampleSys.cache.m_nextToDelete ≤ p ∧ p ≤ exampleSys.cache.m_count ∧
        p - exampleSys.cache.m_nextToDelete + 1 =
          gaps (missAdded exampleSys.cache 3).m_cacheItemByCount
            exampleSys.cache.m_nextToDelete p + 1 :=
  ⟨exampleSys_reachable, rfl, by decide,
    (C17_scan_terminates Nat Nat Nat exampleSys exampleSys_reachable 3 rfl (by decide)).imp
      (fun _ hp => hp.imp (fun _ ha =>
        ⟨ha.2.2.2.2.1, ha.2.1, ha.2.2.1, ha.2.2.2.2.2.2.2.1⟩))⟩

/-- The scan of the example, evaluated: position 1 is a gap, the entry found is
the one at position 2, after two probes. -/
theorem scan_example :
    scan (missAdded exampleSys.cache 3).m_cacheItemByCount exampleSys.cache.m_nextToDelete
        = some (2, 3) ∧
      probesFrom (missAdded exampleSys.cache 3).m_cacheItemByCount 4
        exampleSys.cache.m_nextToDelete = some 2 ∧
      gaps (missAdded exampleSys.cache 3).m_cacheItemByCount exampleSys.cache.m_nextToDelete 2
        = 1 := by
  refine ⟨rfl, rfl, rfl⟩

/-! ## Branches that are never taken -/

omit [DecidableEq TId] in
theorem ofResult_ne_noData (r : Except E TData) : ofResult r ≠ (Outcome.noData : Outcome TData E) := by
  cases r <;> simp [ofResult]

/-- The block under the mutex never leaves with the "no data" error. -/
theorem lockedBlock_returned {s s' : CachedData TData TId E} (h : Inv s) {k : TId}
    {o : Outcome TData E} (hl : lockedBlock s k = .ok (s', .returned o)) :
    (∃ d, o = .value d) ∨ (∃ e, o = .fetchError e) := by
  rcases lockedBlock_cases h k with ⟨it, d, _, _, hb⟩ | ⟨it, f, d, _, _, _, hb⟩ |
    ⟨it, f, e, _, _, _, hb⟩ | ⟨it, f, _, _, _, hb⟩ | ⟨_, s2, hb⟩
  · rw [hb] at hl
    have hx := (Prod.mk.inj (Except.ok.inj hl)).2
    exact Or.inl ⟨d, (Exit.returned.inj hx).symm⟩
  · rw [hb] at hl
    have hx := (Prod.mk.inj (Except.ok.inj hl)).2
    exact Or.inl ⟨d, (Exit.returned.inj hx).symm⟩
  · rw [hb] at hl
    have hx := (Prod.mk.inj (Except.ok.inj hl)).2
    exact Or.inr ⟨e, (Exit.returned.inj hx).symm⟩
  · rw [hb] at hl
    have hx := (Prod.mk.inj (Except.ok.inj hl)).2
    cases hx
  · rw [hb] at hl
    have hx := (Prod.mk.inj (Except.ok.inj hl)).2
    cases hx

/-- A call that stands as returned from inside the block after a step either
stood so before the step or is the call that the step has run. -/
theorem step_returned {sys sys' : System TData TId E} {ev : Event TData TId E}
    (hs : sys.step ev = some sys') {i : Nat} {a : TId} {o : Outcome TData E}
    (hi : sys'.calls[i]? = some ⟨a, .returned o⟩) :
    sys.calls[i]? = some ⟨a, .returned o⟩ ∨
      ∃ s', lockedBlock sys.cache a = .ok (s', .returned o) := by
  cases ev with
  | call k =>
    simp only [System.step] at hs
    split at hs
    · cases hs
    · rename_i s1 o1 hl
      simp only [Option.some.injEq] at hs
      subst hs
      rcases getElem?_concat_cases hi with ⟨_, h1⟩ | ⟨_, h1⟩
      · exact Or.inl h1
      · simp only [Call.mk.injEq, Phase.returned.injEq] at h1
        obtain ⟨h2, h3⟩ := h1
        subst h2; subst h3
        exact Or.inr ⟨s1, hl⟩
    · rename_i s1 it hl
      simp only [Option.some.injEq] at hs
      subst hs
      rcases getElem?_concat_cases hi with ⟨_, h1⟩ | ⟨_, h1⟩
      · exact Or.inl h1
      · simp at h1
  | wake j =>
    simp only [System.step] at hs
    split at hs
    · split at hs
      · split at hs
        · cases hs
        · simp only [Option.some.injEq] at hs
          subst hs
          rcases getElem?_set_cases hi with ⟨_, h1⟩ | ⟨_, h1⟩
          · simp at h1
          · exact Or.inl h1
      · cases hs
    · cases hs
  | fetchStart j =>
    simp only [System.step] at hs
    split at hs
    · split at hs
      · cases hs
      · simp only [Option.some.injEq] at hs
        subst hs
        rcases getElem?_set_cases hi with ⟨_, h1⟩ | ⟨_, h1⟩
        · simp at h1
        · exact Or.inl h1
    · cases hs
  | fetchEnd j r =>
    simp only [System.step] at hs
    split at hs
    · simp only [Option.some.injEq] at hs
      subst hs
      rcases getElem?_set_cases hi with ⟨_, h1⟩ | ⟨_, h1⟩
      · simp at h1
      · exact Or.inl h1
    · cases hs
  | publish j =>
    simp only [System.step] at hs
    split at hs
    · split at hs
      · cases hs
      · simp only [Option.some.injEq] at hs
        subst hs
        rcases getElem?_set_cases hi with ⟨_, h1⟩ | ⟨_, h1⟩
        · simp at h1
        · exact Or.inl h1
    · cases hs

/-- Calls that left from inside the block left with a value or with the error of
a fetch. -/
theorem run_returned {sys : System TData TId E} :
    ∀ (evs : List (Event TData TId E)) {sys' : System TData TId E}, PoolInv sys →
      (∀ (i : Nat) (a : TId) (o : Outcome TData E), sys.calls[i]? = some ⟨a, .returned o⟩ →
        (∃ d, o = .value d) ∨ (∃ e, o = .fetchError e)) →
      sys.run evs = some sys' →
      ∀ (i : Nat) (a : TId) (o : Outcome TData E), sys'.calls[i]? = some ⟨a, .returned o⟩ →
        (∃ d, o = .value d) ∨ (∃ e, o = .fetchError e) := by
  intro evs
  induction evs generalizing sys with
  | nil =>
    intro sys' _ h hr
    simp only [System.run, Option.some.injEq] at hr
    subst hr
    exact h
  | cons ev rest ih =>
    intro sys' hp h hr
    simp only [System.run] at hr
    cases hs : sys.step ev with
    | none => rw [hs] at hr; cases hr
    | some sys1 =>
      rw [hs] at hr
      refine ih (hp.step hs) ?_ hr
      intro i a o hi
      rcases step_returned hs hi with h1 | ⟨s', hl⟩
      · exact h i a o h1
      · exact lockedBlock_returned hp.inv hl

/-- C18 (the contract-violation branches are unreachable).  Every sequence of
calls made one after another on a new cache runs to its end, so none of them
stops at an `assert(false)`.  In every reachable state, overlapping calls
included: a resident item that reports `isReady` is a value-holding item, so
the `getData` of line 49 is `FilledCacheItem::getData`; a resident item that
does not is future-backed, so the `getFuture` of lines 53 and 58 is
`EmptyCacheItem::getFuture` and not `FilledCacheItem::getFuture`; the block
under the mutex of any call ends without a fault and does not hand back the "no
data" error; the local item of a call at line 92 that reports `isWaiting` is its
own `WaitingCacheItem`, whose `getData` (line 94) ends with the content of the
future or with "too long", and a local item that does not is a
`PromisingCacheItem`; a call that runs alone ends, and not with "no data"; and no
call made so far has ended with "no data". -/
theorem C18_no_contract_violation (TData TId E : Type) [DecidableEq TId] :
    (∀ (a_maxSize : Nat) (calls : List (TId × (TId → Except E TData))),
      ∃ s log, runCalls (CachedData.init a_maxSize : CachedData TData TId E) calls
        = .ok (s, log)) ∧
    (∀ sys : System TData TId E, Reachable sys →
      (∀ k it, Assoc.find sys.cache.m_cacheItemById k = some it →
        (it.isReady = true → ∃ d, it.kind = .Filled d ∧
          it.getData sys.cache.shared = .ok (.value d)) ∧
        (it.isReady = false → ∃ f, it.kind = .Empty f ∧ it.getFuture = .ok f)) ∧
      (∀ k, ∃ s' x, lockedBlock sys.cache k = .ok (s', x) ∧ x ≠ .returned .noData) ∧
      (∀ (i : Nat) (a : TId) (it : ICacheItem TData TId),
        sys.calls[i]? = some ⟨a, .unlocked it⟩ →
        (it.isWaiting sys.cache.shared = true →
          (∃ f, it.kind = .Waiting f) ∧
          ∃ o, it.getData sys.cache.shared = .ok o ∧ o ≠ .noData) ∧
        (it.isWaiting sys.cache.shared = false → ∃ p, it.kind = .Promising p)) ∧
      (∀ k (a_db : TId → Except E TData),
        ∃ r, sys.cache.getData k a_db = .ok r ∧ r.outcome ≠ .noData) ∧
      (∀ (i : Nat) (c : Call TData TId E), sys.calls[i]? = some c →
        c.outcome ≠ some .noData)) := by
  constructor
  · intro a_maxSize calls
    obtain ⟨s, log, hrun, _⟩ := runCalls_inv (Inv.inv_init a_maxSize) calls
    exact ⟨s, log, hrun⟩
  intro sys h
  have hp := h.poolInv
  have hinv := hp.inv
  refine ⟨?_, ?_, ?_, ?_, ?_⟩
  · intro k it hk
    rcases hinv.wf.kinds k it hk with ⟨f, hf, _⟩ | ⟨d, hd⟩
    · constructor
      · intro hr; simp [ICacheItem.isReady, hf] at hr
      · intro _; exact ⟨f, hf, by simp [ICacheItem.getFuture, hf]⟩
    · constructor
      · intro _; exact ⟨d, hd, by simp [ICacheItem.getData, hd]⟩
      · intro hr; simp [ICacheItem.isReady, hd] at hr
  · intro k
    obtain ⟨s', x, hl, _⟩ := lockedBlock_inv hinv k
    refine ⟨s', x, hl, ?_⟩
    intro hx
    subst hx
    rcases lockedBlock_returned hinv hl with ⟨d, hd⟩ | ⟨e, he⟩
    · cases hd
    · cases he
  · intro i a it hi
    have hok := hp.callOK i _ hi
    rcases hok with ⟨p, hkp, _, _⟩ | ⟨f, hkw, _⟩
    · constructor
      · intro hw; simp [ICacheItem.isWaiting, hkp] at hw
      · intro _; exact ⟨p, hkp⟩
    · constructor
      · intro _
        refine ⟨⟨f, hkw⟩, ?_⟩
        cases hf : Assoc.find sys.cache.shared f with
        | none => exact ⟨.tooLong, by simp [ICacheItem.getData, hkw, hf], by simp⟩
        | some r =>
          exact ⟨ofResult r, by simp [ICacheItem.getData, hkw, hf], ofResult_ne_noData r⟩
      · intro hw; simp [ICacheItem.isWaiting, hkw] at hw
  · intro k a_db
    rcases lockedBlock_cases hinv k with ⟨it, d, hk, hd, _⟩ | ⟨it, f, d, hk, hf, hs, _⟩ |
      ⟨it, f, e, hk, hf, hs, _⟩ | ⟨it, f, hk, hf, hs, _⟩ | ⟨hk, _⟩
    · exact ⟨_, getData_filled sys.cache hk hd a_db, by simp⟩
    · exact ⟨_, getData_value sys.cache hk hf hs a_db, by simp⟩
    · exact ⟨_, getData_error sys.cache hk hf hs a_db, by simp⟩
    · exact ⟨_, getData_waiting hinv hk hf hs a_db, by simp⟩
    · obtain ⟨s', _, hg⟩ := getData_miss hinv hk a_db
      exact ⟨_, hg, ofResult_ne_noData _⟩
  · intro i c hi
    obtain ⟨a, ph⟩ := c
    cases ph with
    | returned o =>
      obtain ⟨n, evs, hr⟩ := h
      have hret := run_returned evs (PoolInv.pool_init n)
        (fun i a o hc => by simp [System.init] at hc) hr i a o hi
      rcases hret with ⟨d, hd⟩ | ⟨e, he⟩
      · simp [Call.outcome, hd]
      · simp [Call.outcome, he]
    | unlocked it => simp [Call.outcome]
    | fetching it => simp [Call.outcome]
    | fetched it r => simp [Call.outcome]
    | finished it o =>
      have hok := hp.callOK i _ hi
      rcases hok with ⟨p, r, _, _, _, ho⟩ | ⟨f, _, _, ho⟩
      · simp only [Call.outcome, ne_eq, Option.some.injEq, ho]
        exact ofResult_ne_noData r
      · rcases ho with ho | ⟨r, _, ho⟩
        · simp [Call.outcome, ho]
        · simp only [Call.outcome, ne_eq, Option.some.injEq, ho]
          exact ofResult_ne_noData r

/-- C18 on the schedule with three overlapping calls (owner and two waiters,
after the lock): the block of a further call ends without a fault, and the local
item of call 1, which reports `isWaiting`, is a `WaitingCacheItem`. -/
theorem C18_no_contract_violation_witness :
    Reachable coalesceSys1 ∧
      (∃ s' x, lockedBlock coalesceSys1.cache 7 = .ok (s', x) ∧ x ≠ .returned .noData) ∧
      ((⟨4, 7, 2, .Waiting 0⟩ : ICacheItem Nat Nat).isWaiting coalesceSys1.cache.shared = true →
        (∃ f, (⟨4, 7, 2, .Waiting 0⟩ : ICacheItem Nat Nat).kind = .Waiting f) ∧
        ∃ o, (⟨4, 7, 2, .Waiting 0⟩ : ICacheItem Nat Nat).getData coalesceSys1.cache.shared
          = .ok o ∧ o ≠ .noData) :=
  ⟨coalesceSys1_reachable,
    ((C18_no_contract_violation Nat Nat Nat).2 coalesceSys1 coalesceSys1_reachable).2.1 7,
    (((C18_no_contract_violation Nat Nat Nat).2 coalesceSys1 coalesceSys1_reachable).2.2.1
      1 7 ⟨4, 7, 2, .Waiting 0⟩ rfl).1⟩

/-! ## A cache of capacity zero -/

/-- With capacity 0 nothing is resident between calls. -/
theorem Inv.empty_of_zero {s : CachedData TData TId E} (h : Inv s) (h0 : s.m_maxSize = 0) :
    s.m_cacheItemById = [] ∧ s.m_cacheItemByCount = [] := by
  obtain ⟨h1, h2⟩ := h.sizes
  rw [h0] at h1 h2
  exact ⟨List.eq_nil_of_length_eq_zero (Nat.le_zero.1 h1),
    List.eq_nil_of_length_eq_zero (Nat.le_zero.1 h2)⟩

/-- One call on a cache of capacity 0. -/
theorem getData_zero {s : CachedData TData TId E} (h : Inv s) (h0 : s.m_maxSize = 0) (k : TId)
    (a_db : TId → Except E TData) :
    Assoc.find s.m_cacheItemById k = none ∧
    Assoc.find (missAdded s k).m_cacheItemById k
      = some { emptyItem s k with Count := s.m_count } ∧
    scan (missAdded s k).m_cacheItemByCount s.m_nextToDelete
      = some (s.m_count, (emptyItem s k).addr) ∧
    (∃ s', lockedBlock s k = .ok (s', .unlocked (promiseItem s k)) ∧
      s'.m_cacheItemById = [] ∧ s'.m_cacheItemByCount = []) ∧
    ∃ r, s.getData k a_db = .ok r ∧ r.outcome = ofResult (a_db k) ∧ r.fetches = [k] ∧
      Inv r.cache ∧ r.cache.m_maxSize = 0 ∧
      r.cache.m_cacheItemById = [] ∧ r.cache.m_cacheItemByCount = [] ∧
      r.cache.m_nextToDelete = s.m_count + 1 ∧ r.cache.m_count = s.m_count + 1 := by
  obtain ⟨hId, _⟩ := h.empty_of_zero h0
  have hk : Assoc.find s.m_cacheItemById k = none := by rw [hId]; rfl
  have hadd : ∀ k', Assoc.find (missAdded s k).m_cacheItemById k' =
      if k' = k then some { emptyItem s k with Count := s.m_count } else none := by
    intro k'
    unfold missAdded
    rw [find_add_id]
    by_cases hkk : k' = k
    · simp [hkk]
    · simp only [hkk, if_false]
      show Assoc.find s.m_cacheItemById k' = none
      rw [hId]; rfl
  obtain ⟨s', hl, hg⟩ := getData_miss h hk a_db
  obtain ⟨s2, hl2, hinv', hcase⟩ := lockedBlock_miss h hk
  rw [hl] at hl2
  have hs2 := (Prod.mk.inj (Except.ok.inj hl2)).1
  subst hs2
  obtain ⟨r, hr, hinvr, hmaxr⟩ := getData_inv h k a_db
  rw [hg] at hr
  have hreq := Except.ok.inj hr
  rcases hcase with ⟨hlt, _⟩ | ⟨_, victim, hv, _, hscan, hs'⟩
  · rw [h0] at hlt; exact absurd hlt (Nat.not_lt_zero _)
  · have hv' : Assoc.find (missAdded s k).m_cacheItemById victim.Id = some victim := hv
    rw [hadd] at hv'
    have hvict : victim = { emptyItem s k with Count := s.m_count } := by
      by_cases hkk : victim.Id = k
      · rw [if_pos hkk] at hv'; exact (Option.some.inj hv').symm
      · rw [if_neg hkk] at hv'; cases hv'
    have hscan' : scan (missAdded s k).m_cacheItemByCount s.m_nextToDelete
        = some (s.m_count, (emptyItem s k).addr) := by
      have : scan (missAdded s k).m_cacheItemByCount s.m_nextToDelete
          = some (victim.Count, victim.addr) := hscan
      rw [this, hvict]
    have hmax' : r.cache.m_maxSize = 0 := by rw [hmaxr, h0]
    obtain ⟨e1, e2⟩ := hinvr.empty_of_zero hmax'
    have hmaxs : s'.m_maxSize = 0 := by rw [hs']; exact h0
    obtain ⟨e3, e4⟩ := hinv'.empty_of_zero hmaxs
    refine ⟨hk, by rw [hadd]; simp, hscan', ⟨s', hl, e3, e4⟩, r, by rw [hg, hreq], ?_, ?_,
      hinvr, hmax', e1, e2, ?_, ?_⟩
    · rw [← hreq]
    · rw [← hreq]
    · rw [← hreq]
      show s'.m_nextToDelete = _
      rw [hs', hvict]
    · rw [← hreq]
      show s'.m_count = _
      rw [hs']

/-- Calls made one after another on a cache of capacity 0: each of them
fetches. -/
theorem runCalls_zero {s : CachedData TData TId E} (h : Inv s) (h0 : s.m_maxSize = 0) :
    ∀ (calls : List (TId × (TId → Except E TData))),
      ∃ s', runCalls s calls = .ok (s', calls.map Prod.fst) ∧ Inv s' ∧ s'.m_maxSize = 0 := by
  intro calls
  induction calls generalizing s with
  | nil => exact ⟨s, rfl, h, h0⟩
  | cons c rest ih =>
    obtain ⟨k, a_db⟩ := c
    obtain ⟨_, _, _, _, r, hr, _, hf, hinv, hmax, _⟩ := getData_zero h h0 k a_db
    obtain ⟨s', hrun, hinv', hmax'⟩ := ih hinv hmax
    refine ⟨s', ?_, hinv', hmax'⟩
    simp only [runCalls, hr, hrun, hf, List.map_cons, List.singleton_append]

/-- C19 (capacity zero).  For a cache made with `maxSize = 0`, in every state
that calls of `getData` lead to, overlapping or not, both indices are empty.  A
call `getData(k, a_db)` made in such a state finds no item, so it is a miss; the
position index it scans holds the entry of its own new item, at position
`m_count`, and the scan stops there, so the item evicted is the one just
inserted; the call invokes the source, once, and hands back the value fetched or
the error of the fetch; after it both indices are empty again and the cursor is
just above the position used; among overlapping calls it leaves the block under
the mutex as an owner, never as a waiter, with both indices empty.  A sequence of calls made one after another on a
new cache of capacity 0 runs to its end and invokes the source for every call,
in order. -/
theorem C19_zero_capacity (TData TId E : Type) [DecidableEq TId] :
    (∀ (evs : List (Event TData TId E)) (sys : System TData TId E),
      System.run (System.init 0) evs = some sys →
      sys.cache.m_cacheItemById = [] ∧ sys.cache.m_cacheItemByCount = [] ∧
      ∀ k (a_db : TId → Except E TData),
        Assoc.find sys.cache.m_cacheItemById k = none ∧
        Assoc.find (missAdded sys.cache k).m_cacheItemById k
          = some { emptyItem sys.cache k with Count := sys.cache.m_count } ∧
        scan (missAdded sys.cache k).m_cacheItemByCount sys.cache.m_nextToDelete
          = some (sys.cache.m_count, (emptyItem sys.cache k).addr) ∧
        (∃ s', lockedBlock sys.cache k = .ok (s', .unlocked (promiseItem sys.cache k)) ∧
          s'.m_cacheItemById = [] ∧ s'.m_cacheItemByCount = []) ∧
        ∃ r, sys.cache.getData k a_db = .ok r ∧ r.outcome = ofResult (a_db k) ∧
          r.fetches = [k] ∧
          r.cache.m_cacheItemById = [] ∧ r.cache.m_cacheItemByCount = [] ∧
          r.cache.m_nextToDelete = sys.cache.m_count + 1) ∧
    (∀ (calls : List (TId × (TId → Except E TData))),
      ∃ s, runCalls (CachedData.init 0 : CachedData TData TId E) calls
          = .ok (s, calls.map Prod.fst) ∧
        s.m_cacheItemById = [] ∧ s.m_cacheItemByCount = []) := by
  constructor
  · intro evs sys hr
    have hp : PoolInv sys := (PoolInv.pool_init 0).run evs hr
    have hmax : sys.cache.m_maxSize = 0 := run_maxSize evs (PoolInv.pool_init 0) hr
    obtain ⟨e1, e2⟩ := hp.inv.empty_of_zero hmax
    refine ⟨e1, e2, ?_⟩
    intro k a_db
    obtain ⟨h1, h2, h3, h4, r, hr1, ho, hf, _, _, e3, e4, hn, _⟩ :=
      getData_zero hp.inv hmax k a_db
    exact ⟨h1, h2, h3, h4, r, hr1, ho, hf, e3, e4, hn⟩
  · intro calls
    obtain ⟨s, hrun, hinv, hmax⟩ := runCalls_zero (Inv.inv_init 0) rfl calls
    obtain ⟨e1, e2⟩ := hinv.empty_of_zero hmax
    exact ⟨s, hrun, e1, e2⟩

/-- C19 on a schedule: capacity 0, a call for key 7 that has fetched the value
5, then a second call for key 7, which has taken the lock: nothing is resident,
and a third call fetches again. -/
theorem C19_zero_capacity_witness :
    System.run (System.init 0) zeroEvents = some zeroSys ∧
      zeroSys.cache.m_cacheItemById = [] ∧ zeroSys.cache.m_cacheItemByCount = [] ∧
      ∃ r, zeroSys.cache.getData 7 (fun _ => .ok 5) = .ok r ∧ r.outcome = .value 5 ∧
        r.fetches = [7] :=
  ⟨rfl,
    ((C19_zero_capacity Nat Nat Nat).1 zeroEvents zeroSys rfl).1,
    ((C19_zero_capacity Nat Nat Nat).1 zeroEvents zeroSys rfl).2.1,
    ((((C19_zero_capacity Nat Nat Nat).1 zeroEvents zeroSys rfl).2.2 7
      (fun _ => .ok 5)).2.2.2.2).imp (fun _ hr => ⟨hr.1, hr.2.1, hr.2.2.1⟩)⟩

/-! ## A miss among overlapping calls -/

/-- C7, the claim as stated fails.  Capacity 1, new cache: key 7 is not
resident.  The call for key 7 (call 0) misses and enters the source; before the
source answers, a call for key 8 misses and, the cache being full, evicts the
item of key 7; then call 0 gets the answer 5 and returns it.  When call 0
returns, key 7 is not resident. -/
theorem C7_counterexample :
    1 ≤ (System.init 1 : System Nat Nat Nat).cache.m_maxSize ∧
      Assoc.find (System.init 1 : System Nat Nat Nat).cache.m_cacheItemById 7 = none ∧
      System.run (System.init 1) evictedEvents = some evictedSys ∧
      evictedSys.calls[0]? = some ⟨7, .finished ⟨0, 7, 0, .Promising 0⟩ (.value 5)⟩ ∧
      Assoc.find evictedSys.cache.m_cacheItemById 7 = none := by
  refine ⟨by decide, rfl, rfl, rfl, rfl⟩

omit [DecidableEq TId] in
theorem fetchStarts_cons (ev : Event TData TId E) (rest : List (Event TData TId E)) (n : Nat) :
    fetchStarts (ev :: rest) n = fetchStarts [ev] n + fetchStarts rest n := by
  unfold fetchStarts
  simp only [List.filter_cons, List.filter_nil]
  split <;> simp [Nat.add_comm]

/-- One step and the fetches of call `n`: the step that takes call `n` into the
source is the only one that turns it into a call that has fetched. -/
theorem step_fetchStarts {sys sys' : System TData TId E} (hp : PoolInv sys)
    {ev : Event TData TId E} (hs : sys.step ev = some sys') {n : Nat} {c : Call TData TId E}
    (hn : sys.calls[n]? = some c) :
    ∃ c', sys'.calls[n]? = some c' ∧ c'.a_id = c.a_id ∧ c'.phase.item = c.phase.item ∧
      fetchStarts [ev] n + (if c.hasFetched then 1 else 0) = (if c'.hasFetched then 1 else 0) := by
  have hlt : n < sys.calls.length := (List.getElem?_eq_some.1 hn).1
  cases ev with
  | call k =>
    obtain ⟨c', hc', hid, hitem⟩ := step_keeps hp hs hn
    rcases step_cases hp hs with ⟨k2, s', x, ph, _, _, hsys, _⟩ | ⟨j, cj, cj', _, hcalls, _, _, _⟩
    · subst hsys
      have : (sys.calls ++ [(⟨k2, ph⟩ : Call TData TId E)])[n]? = some c :=
        getElem?_concat_old hn
      exact ⟨c, this, rfl, rfl, by simp [fetchStarts]⟩
    · exfalso
      have hlen : sys'.calls.length = sys.calls.length := by rw [hcalls, List.length_set]
      rcases step_count hp hs with ⟨_, _, h2⟩ | ⟨h1, _⟩
      · omega
      · exact h1 k rfl
  | wake j =>
    simp only [System.step] at hs
    split at hs
    · rename_i a_id it hi
      split at hs
      · rename_i hw
        split at hs
        · cases hs
        · simp only [Option.some.injEq] at hs
          subst hs
          by_cases hjn : j = n
          · subst hjn
            rw [hi] at hn
            have := Option.some.inj hn
            subst this
            refine ⟨_, List.getElem?_set_self hlt, rfl, rfl, ?_⟩
            have hnp : ∀ p, it.kind ≠ .Promising p := by
              intro p hk
              simp [ICacheItem.isWaiting, hk] at hw
            cases hk : it.kind with
            | Promising p => exact absurd hk (hnp p)
            | Empty f => simp [fetchStarts, Call.hasFetched, hk]
            | Waiting f => simp [fetchStarts, Call.hasFetched, hk]
            | Filled d => simp [fetchStarts, Call.hasFetched, hk]
          · refine ⟨c, ?_, rfl, rfl, by simp [fetchStarts]⟩
            simp only
            rw [List.getElem?_set_ne hjn]; exact hn
      · cases hs
    · cases hs
  | fetchStart j =>
    simp only [System.step] at hs
    split at hs
    · rename_i a_id it hi
      split at hs
      · cases hs
      · simp only [Option.some.injEq] at hs
        subst hs
        by_cases hjn : j = n
        · subst hjn
          rw [hi] at hn
          have := Option.some.inj hn
          subst this
          exact ⟨_, List.getElem?_set_self hlt, rfl, rfl, by simp [fetchStarts, Call.hasFetched]⟩
        · refine ⟨c, ?_, rfl, rfl, by simp [fetchStarts, hjn]⟩
          simp only
          rw [List.getElem?_set_ne hjn]; exact hn
    · cases hs
  | fetchEnd j r =>
    simp only [System.step] at hs
    split at hs
    · rename_i a_id it hi
      simp only [Option.some.injEq] at hs
      subst hs
      by_cases hjn : j = n
      · subst hjn
        rw [hi] at hn
        have := Option.some.inj hn
        subst this
        exact ⟨_, List.getElem?_set_self hlt, rfl, rfl, by simp [fetchStarts, Call.hasFetched]⟩
      · refine ⟨c, ?_, rfl, rfl, by simp [fetchStarts]⟩
        simp only
        rw [List.getElem?_set_ne hjn]; exact hn
    · cases hs
  | publish j =>
    simp only [System.step] at hs
    split at hs
    · rename_i a_id it r hi
      obtain ⟨p, hkp, _, hfree⟩ := hp.callOK j _ hi
      rw [publish_promising sys.cache hkp hfree r] at hs
      simp only [Option.some.injEq] at hs
      subst hs
      by_cases hjn : j = n
      · subst hjn
        rw [hi] at hn
        have := Option.some.inj hn
        subst this
        exact ⟨_, List.getElem?_set_self hlt, rfl, rfl,
          by simp [fetchStarts, Call.hasFetched, hkp]⟩
      · refine ⟨c, ?_, rfl, rfl, by simp [fetchStarts]⟩
        simp only
        rw [List.getElem?_set_ne hjn]; exact hn
    · cases hs

/-- Along any steps, call `n` has fetched exactly when one of the steps took it
into the source, and no step does so twice. -/
theorem run_fetchStarts {sys : System TData TId E} :
    ∀ (evs : List (Event TData TId E)) {sys' : System TData TId E}, PoolInv sys →
      sys.run evs = some sys' → ∀ {n : Nat} {c : Call TData TId E}, sys.calls[n]? = some c →
      ∃ c', sys'.calls[n]? = some c' ∧ c'.a_id = c.a_id ∧ c'.phase.item = c.phase.item ∧
        fetchStarts evs n + (if c.hasFetched then 1 else 0)
          = (if c'.hasFetched then 1 else 0) := by
  intro evs
  induction evs generalizing sys with
  | nil =>
    intro sys' _ hr n c hn
    simp only [System.run, Option.some.injEq] at hr
    subst hr
    exact ⟨c, hn, rfl, rfl, by simp [fetchStarts]⟩
  | cons ev rest ih =>
    intro sys' hp hr n c hn
    simp only [System.run] at hr
    cases hs : sys.step ev with
    | none => rw [hs] at hr; cases hr
    | some sys1 =>
      rw [hs] at hr
      obtain ⟨c1, hc1, hid1, hitem1, hcount1⟩ := step_fetchStarts hp hs hn
      obtain ⟨c2, hc2, hid2, hitem2, hcount2⟩ := ih (hp.step hs) hr hc1
      refine ⟨c2, hc2, by rw [hid2, hid1], by rw [hitem2, hitem1], ?_⟩
      rw [fetchStarts_cons]
      omega

/-- Steps in which no call takes the lock leave both indices as they are. -/
theorem run_no_call {sys : System TData TId E} :
    ∀ (evs : List (Event TData TId E)) {sys' : System TData TId E}, PoolInv sys →
      (∀ ev, ev ∈ evs → ∀ k, ev ≠ .call k) → sys.run evs = some sys' →
      sys'.cache.m_cacheItemById = sys.cache.m_cacheItemById ∧
        sys'.cache.m_cacheItemByCount = sys.cache.m_cacheItemByCount := by
  intro evs
  induction evs generalizing sys with
  | nil =>
    intro sys' _ _ hr
    simp only [System.run, Option.some.injEq] at hr
    subst hr
    exact ⟨rfl, rfl⟩
  | cons ev rest ih =>
    intro sys' hp hno hr
    simp only [System.run] at hr
    cases hs : sys.step ev with
    | none => rw [hs] at hr; cases hr
    | some sys1 =>
      rw [hs] at hr
      obtain ⟨h1, h2⟩ := ih (hp.step hs) (fun e he => hno e (List.mem_cons_of_mem _ he)) hr
      rcases step_count hp hs with ⟨⟨k, hk⟩, _⟩ | ⟨_, _, _, e1, e2, _⟩
      · exact absurd hk (hno ev (List.mem_cons_self _ _) k)
      · exact ⟨h1.trans e1, h2.trans e2⟩

/-- C7 as amended (miss after eviction).  Let `sys` be a reachable state and `k`
a key that is not resident (never requested, or evicted since).  A call
`getData(k, _)` leaves the block under the mutex as the owner of a new promise,
with the counter advanced by one; when `m_maxSize` is at least 1, `k` is
resident at that moment as a brand-new item: an `EmptyCacheItem` at an address
and with a future that nothing in the old cache had, stamped with the value the
counter had when the call took the lock and registered under it in the position
index.  Whatever steps (of this call and of other calls) follow: the call enters
`fetchProductDetails` at most once, it has invoked the source exactly when it
has done so, and when it has returned it has entered exactly once and hands
back what the source answered.  If none of these steps is another call taking
the lock, `k` is still resident with that same item, in particular when the
call returns; a call that takes the lock in between may evict it.  Run alone,
the call fetches once, hands back the answer and, for `m_maxSize` at least 1,
leaves `k` resident with that item, whose future holds the answer. -/
theorem C7_miss_after_eviction (TData TId E : Type) [DecidableEq TId]
    (sys : System TData TId E) (h : Reachable sys) (k : TId)
    (hk : Assoc.find sys.cache.m_cacheItemById k = none) :
    ∃ s',
      lockedBlock sys.cache k = .ok (s', .unlocked (promiseItem sys.cache k)) ∧
      sys.step (.call k) = some
        { cache := s', calls := sys.calls ++ [⟨k, .unlocked (promiseItem sys.cache k)⟩] } ∧
      s'.m_count = sys.cache.m_count + 1 ∧
      (1 ≤ sys.cache.m_maxSize →
        Assoc.find s'.m_cacheItemById k =
          some { addr := sys.cache.heapTop + 1, Id := k, Count := sys.cache.m_count,
                 kind := .Empty sys.cache.heapTop } ∧
        Assoc.find s'.m_cacheItemByCount sys.cache.m_count = some (sys.cache.heapTop + 1) ∧
        Assoc.find s'.shared sys.cache.heapTop = none ∧
        ∀ k' it', Assoc.find sys.cache.m_cacheItemById k' = some it' →
          it'.addr < sys.cache.heapTop ∧ it'.kind ≠ .Empty sys.cache.heapTop) ∧
      (∀ (evs : List (Event TData TId E)) (sys2 : System TData TId E),
        System.run
          { cache := s', calls := sys.calls ++ [⟨k, .unlocked (promiseItem sys.cache k)⟩] } evs
            = some sys2 →
        ∃ c, sys2.calls[sys.calls.length]? = some c ∧ c.a_id = k ∧
          c.phase.item = some (promiseItem sys.cache k) ∧
          fetchStarts evs sys.calls.length ≤ 1 ∧
          fetchStarts evs sys.calls.length = (if c.hasFetched then 1 else 0) ∧
          (∀ it o, c.phase = .finished it o →
            fetchStarts evs sys.calls.length = 1 ∧
            ∃ r, Assoc.find sys2.cache.shared sys.cache.heapTop = some r ∧ o = ofResult r) ∧
          ((∀ ev, ev ∈ evs → ∀ k', ev ≠ .call k') → 1 ≤ sys.cache.m_maxSize →
            Assoc.find sys2.cache.m_cacheItemById k =
              some { addr := sys.cache.heapTop + 1, Id := k, Count := sys.cache.m_count,
                     kind := .Empty sys.cache.heapTop } ∧
            Assoc.find sys2.cache.m_cacheItemByCount sys.cache.m_count
              = some (sys.cache.heapTop + 1))) ∧
      (∀ a_db : TId → Except E TData,
        ∃ r, sys.cache.getData k a_db = .ok r ∧ r.fetches = [k] ∧
          r.outcome = ofResult (a_db k) ∧
          (1 ≤ sys.cache.m_maxSize →
            Assoc.find r.cache.m_cacheItemById k =
              some { addr := sys.cache.heapTop + 1, Id := k, Count := sys.cache.m_count,
                     kind := .Empty sys.cache.heapTop } ∧
            Assoc.find r.cache.shared sys.cache.heapTop = some (a_db k))) := by
  have hp := h.poolInv
  have hinv := hp.inv
  obtain ⟨s', hl, _, _⟩ := lockedBlock_miss hinv hk
  obtain ⟨s2, x2, hl2, _, _, hcount, hsh, _, _⟩ := lockedBlock_inv hinv k
  rw [hl] at hl2
  have hs' := (Prod.mk.inj (Except.ok.inj hl2)).1
  subst hs'
  have hstep : sys.step (.call k) = some
      { cache := s', calls := sys.calls ++ [⟨k, .unlocked (promiseItem sys.cache k)⟩] } := by
    simp [System.step, hl]
  have hfree : Assoc.find sys.cache.shared sys.cache.heapTop = none := by
    cases hf : Assoc.find sys.cache.shared sys.cache.heapTop with
    | none => rfl
    | some r => exact absurd (hinv.wf.sharedBelow _ _ hf) (Nat.lt_irrefl _)
  have hnew : 1 ≤ sys.cache.m_maxSize →
      Assoc.find s'.m_cacheItemById k =
        some { addr := sys.cache.heapTop + 1, Id := k, Count := sys.cache.m_count,
               kind := .Empty sys.cache.heapTop } ∧
      Assoc.find s'.m_cacheItemByCount sys.cache.m_count = some (sys.cache.heapTop + 1) :=
    fun hcap => lockedBlock_miss_keeps hinv hk hcap hl
  refine ⟨s', hl, hstep, hcount, ?_, ?_, ?_⟩
  · intro hcap
    refine ⟨(hnew hcap).1, (hnew hcap).2, by rw [hsh]; exact hfree, ?_⟩
    intro k' it' hk'
    refine ⟨(hinv.wf.idOf k' it' hk').2.2, ?_⟩
    intro hkind
    rcases hinv.wf.kinds k' it' hk' with ⟨f', hf', hlt⟩ | ⟨d, hd⟩
    · rw [hkind] at hf'; have := ItemKind.Empty.inj hf'; omega
    · rw [hkind] at hd; cases hd
  · intro evs sys2 hr
    have hpA := hp.step hstep
    have hp2 := hpA.run evs hr
    obtain ⟨c, hc, hid, hitem, hcnt⟩ :=
      run_fetchStarts evs hpA hr (getElem?_concat_new sys.calls
        ⟨k, .unlocked (promiseItem sys.cache k)⟩)
    have hitem' : c.phase.item = some (promiseItem sys.cache k) := hitem
    have hcnt' : fetchStarts evs sys.calls.length = (if c.hasFetched then 1 else 0) := by
      simpa [Call.hasFetched] using hcnt
    refine ⟨c, hc, hid, hitem', ?_, hcnt', ?_, ?_⟩
    · rw [hcnt']; split <;> omega
    · intro it o hph
      have hit : it = promiseItem sys.cache k := by
        rw [hph] at hitem'
        exact Option.some.inj hitem'
      have hok := hp2.callOK _ c hc
      obtain ⟨a, ph⟩ := c
      have hph' : ph = .finished it o := hph
      subst hph'
      constructor
      · rw [hcnt']; simp [Call.hasFetched, hit, promiseItem]
      · rcases hok with ⟨p, r, hkp, _, hsp, ho⟩ | ⟨f, hkw, _⟩
        · rw [hit] at hkp
          have hpp : sys.cache.heapTop = p := ItemKind.Promising.inj hkp
          subst hpp
          exact ⟨r, hsp, ho⟩
        · rw [hit] at hkw
          cases hkw
    · intro hno hcap
      obtain ⟨e1, e2⟩ := run_no_call evs hpA hno hr
      rw [e1, e2]
      exact hnew hcap
  · intro a_db
    obtain ⟨r, hr, hf, ho, _, hres⟩ := getData_miss_alone TData TId E sys h k hk a_db
    exact ⟨r, hr, hf, ho, fun hcap => ⟨(hres hcap).1, (hres hcap).2.2.1⟩⟩

/-- C7 as amended, on the new cache of capacity 1: key 7 is not resident; the
call for key 7 leaves the block as an owner with key 7 resident at position 1,
the value of the counter; run alone with a source that answers 5, it fetches
once. -/
theorem C7_miss_after_eviction_witness :
    Reachable (System.init 1 : System Nat Nat Nat) ∧
      Assoc.find (System.init 1 : System Nat Nat Nat).cache.m_cacheItemById 7 = none ∧
      ∃ s' : CachedData Nat Nat Nat,
        lockedBlock (System.init 1 : System Nat Nat Nat).cache 7
          = .ok (s', .unlocked (promiseItem (System.init 1 : System Nat Nat Nat).cache 7)) ∧
        Assoc.find s'.m_cacheItemById 7
          = some { addr := 1, Id := 7, Count := 1, kind := .Empty 0 } ∧
        ∃ r, (System.init 1 : System Nat Nat Nat).cache.getData 7 (fun _ => .ok 5) = .ok r ∧
          r.fetches = [7] :=
  ⟨⟨1, [], rfl⟩, rfl,
    (C7_miss_after_eviction Nat Nat Nat (System.init 1) ⟨1, [], rfl⟩ 7 rfl).imp
      (fun _ hs => ⟨hs.1, (hs.2.2.2.1 (by decide)).1,
        (hs.2.2.2.2.2 (fun _ => .ok 5)).imp (fun _ hr => ⟨hr.1, hr.2.1⟩)⟩)⟩

/-- In the schedule of the counterexample call 0 enters the source once. -/
theorem fetchStarts_example : fetchStarts evictedEvents 0 = 1 := rfl

end Lemmas

end ecommerce
